import Mathlib

/-!
Wireworld engine: cell store, neighbour cache and step

A shallow embedding of `sim/celllist.go`, `sim/simulationdata.go`, the
package-level operations of `sim/simulation.go`, the undo/redo stacks of
`sim/history.go`, the preset `components.Clock4`, `util.Pow2` and the
selection logic of `ui/cellselector.go`.

* Go's `[]int32` is a `List Int`; the only arithmetic on cell values is the
  `+ x`, `+ 1`, `- 1` on coordinates, which is wrapped with `wrap32`.
* Slices are modelled by value.  The two places where the source aliases a
  slice it still reads (`Load`, which searches `c1` while it writes `newList`;
  `Unload` and `UpdateList`, which write the list they search) only ever
  write state slots, while `IndexOf` only reads coordinate slots.  A patch
  passed to `Load` is an array of its own; the call with the cell buffer
  itself as the patch is `Load.shared`.
* `sort.Sort` is the library's insertion sort over the `Len`, `Less` and
  `Swap` of `simulationData`.
* An index or slice expression that is out of range makes Go panic; the
  functions in which this can happen (`computeNeighbours`, `Step`) return
  `Option`, with `none` for the panic.
* `History.Undo` and `History.Redo` act on the history and on the package
  variable `data`; they take both and return both.
* `time.Duration` is an `int64` count of nanoseconds; `ScaleInterval` is a
  function from the value of the package variable `stepInterval` to its new
  value.
* Instants (`time.Time`) are counts of nanoseconds; the reading of
  `time.Now()` in `Step` is a parameter.
-/

namespace sim

/-- Go's `CellList`, a flat `[]int32` of triples x, y, state. -/
abbrev CellList := List Int

def CellEmpty : Int := 0
def CellWire : Int := 1
def CellHead : Int := 2
def CellTail : Int := 3

/-- The value of an `int32` expression whose mathematical value is `v`. -/
def wrap32 (v : Int) : Int := (v + 2147483648) % 4294967296 - 2147483648

/-- Values an `int32` can hold. -/
def isInt32 (v : Int) : Prop := -2147483648 ≤ v ∧ v ≤ 2147483647

instance (v : Int) : Decidable (isInt32 v) := by unfold isInt32; infer_instance

namespace CellList

/-- The complete triples of a flat list, in order (a view used to state
properties; a trailing incomplete triple is never visited by the source's
loops either). -/
def records : CellList → List (Int × Int × Int)
  | x :: y :: v :: rest => (x, y, v) :: records rest
  | _ => []

/-- The flat list of a sequence of triples. -/
def ofRecords : List (Int × Int × Int) → CellList
  | [] => []
  | r :: rs => r.1 :: r.2.1 :: r.2.2 :: ofRecords rs

/-- The coordinates of the complete triples, in order. -/
def coords (c : CellList) : List (Int × Int) := (records c).map (fun r => (r.1, r.2.1))

/-- `CellList.Trim`: the loop `for i := 0; i < len(c)-2; i += 3` visits the
complete triples in order. -/
def Trim : CellList → CellList
  | x :: y :: v :: rest => if v ≠ CellEmpty then x :: y :: v :: Trim rest else Trim rest
  | _ => []

/-- `CellList.Len`. -/
def Len (c : CellList) : Nat := c.length / 3

/-- `CellList.Less`. -/
def Less (c : CellList) (i j : Nat) : Bool :=
  let a := i * 3
  let b := j * 3
  let xa := c.getD (a + 0) 0
  let xb := c.getD (b + 0) 0
  let ya := c.getD (a + 1) 0
  let yb := c.getD (b + 1) 0
  decide (xa < xb) || (decide (xa = xb) && decide (ya < yb))

/-- `CellList.Swap`. -/
def Swap (c : CellList) (i j : Nat) : CellList :=
  let a := i * 3
  let b := j * 3
  let c1 := (c.set (a + 0) (c.getD (b + 0) 0)).set (b + 0) (c.getD (a + 0) 0)
  let c2 := (c1.set (a + 1) (c1.getD (b + 1) 0)).set (b + 1) (c1.getD (a + 1) 0)
  (c2.set (a + 2) (c2.getD (b + 2) 0)).set (b + 2) (c2.getD (a + 2) 0)

/-- The loop of `IndexOf`, on the pair `(i, j)`; `fuel` bounds the number of
iterations. `m = int(uint(i+j) >> 1)` is `(i + j) / 2` for the non-negative
`i + j` of a running loop. -/
def IndexOf.search (c : CellList) (x y : Int) : Nat → Nat → Nat → Nat × Nat
  | 0, i, j => (i, j)
  | fuel + 1, i, j =>
    if i < j then
      let m := (i + j) / 2
      let n := m * 3
      if c.getD n 0 < x ∨ (c.getD n 0 = x ∧ c.getD (n + 1) 0 < y) then
        IndexOf.search c x y fuel (m + 1) j
      else
        IndexOf.search c x y fuel i m
    else (i, j)

/-- `CellList.IndexOf`. With fewer than three elements `j` is `-1` (or the
list is empty), the loop is skipped and `i != j` returns `-1`. -/
def IndexOf (c : CellList) (x y : Int) : Int :=
  if c.length = 0 then -1
  else if c.length / 3 = 0 then -1
  else
    let r := IndexOf.search c x y c.length 0 (c.length / 3 - 1)
    let n := r.1 * 3
    if r.1 ≠ r.2 ∨ c.getD n 0 ≠ x ∨ c.getD (n + 1) 0 ≠ y then -1 else (n : Int)

/-- `CellList.Contains`. -/
def Contains (c : CellList) (x y : Int) : Bool := decide (IndexOf c x y > -1)

/-- The loop of `CellList.Load`: `c1` is the list that is searched, the
second argument is `newList`, the third what is left of `c2`. -/
def Load.loop (c1 : CellList) (x y : Int) : CellList → CellList → CellList
  | newList, px :: py :: cv :: rest =>
    let cx := wrap32 (px + x)
    let cy := wrap32 (py + y)
    let n := IndexOf c1 cx cy
    if n > -1 then Load.loop c1 x y (newList.set (n + 2).toNat cv) rest
    else Load.loop c1 x y (newList ++ [cx, cy, cv]) rest
  | newList, _ => newList

/-- `CellList.Load` for a patch `c2` held in an array of its own (every patch
the program passes: the clipboard, a selection); see `Load.shared` for the
patch that is `c1` itself. -/
def Load (c1 : CellList) (x y : Int) (c2 : CellList) : CellList :=
  Load.loop c1 x y c1 c2

/-- The loop of `CellList.Load` when the patch `c2` is the slice `c1` itself
(the caller passes the list `Cells()` returned), so that `c1`, `c2` and, at
first, `newList` are one backing array. `arr` is that array as `c1` and `c2`
see it, `i` the offset of the patch record read next, the first argument the
number of records left. `newList[n+2] = cv` writes through to `arr` while
`shared` holds: until an `append` beyond the capacity `cap` of `c1` has moved
`newList` to an array of its own. -/
def Load.sharedLoop (x y : Int) (cap : Nat) :
    Nat → Nat → CellList → CellList → Bool → CellList
  | 0, _, _, newList, _ => newList
  | k + 1, i, arr, newList, shared =>
    let cx := wrap32 (arr.getD i 0 + x)
    let cy := wrap32 (arr.getD (i + 1) 0 + y)
    let cv := arr.getD (i + 2) 0
    let n := IndexOf arr cx cy
    if n > -1 then
      Load.sharedLoop x y cap k (i + 3)
        (if shared then arr.set (n + 2).toNat cv else arr) (newList.set (n + 2).toNat cv) shared
    else
      Load.sharedLoop x y cap k (i + 3) arr (newList ++ [cx, cy, cv])
        (shared && decide (newList.length + 3 ≤ cap))

/-- `c1.Load(x, y, c1)`: `CellList.Load` with the list itself as the patch;
`cap` is the capacity of `c1`. -/
def Load.shared (c1 : CellList) (x y : Int) (cap : Nat) : CellList :=
  Load.sharedLoop x y cap (c1.length / 3) 0 c1 c1 true

/-- The loop of `CellList.Unload`: marks the cells of `c2` found in `c1` as
empty; `c1` is searched as it stands, written slots included. -/
def Unload.loop : CellList → CellList → CellList
  | c1, px :: py :: _ :: rest =>
    let n := IndexOf c1 px py
    if n > -1 then Unload.loop (c1.set (n + 2).toNat CellEmpty) rest
    else Unload.loop c1 rest
  | c1, _ => c1

/-- `CellList.Unload`. -/
def Unload (c1 c2 : CellList) : CellList := Trim (Unload.loop c1 c2)

end CellList

/-- The order `sort.Sort` establishes with `Less`: record `a` may stand
before record `b` when `b` is not less than `a`. -/
def cellLE (a b : Int × Int × Int) : Prop := a.1 < b.1 ∨ (a.1 = b.1 ∧ a.2.1 ≤ b.2.1)

instance : DecidableRel cellLE := fun a b => by unfold cellLE; infer_instance

/-- A list is sorted when its records are non-decreasing by (x, then y). -/
def Sorted (c : CellList) : Prop := (CellList.records c).Pairwise cellLE

instance (c : CellList) : Decidable (Sorted c) := by unfold Sorted; infer_instance

/-- No two records share their coordinates. -/
def NoDup (c : CellList) : Prop := (CellList.coords c).Nodup

instance (c : CellList) : Decidable (NoDup c) := by unfold NoDup; infer_instance

/-- Go's `simulationData`. -/
structure simulationData where
  cellData : CellList
  tempData : CellList
  neighbours : List Int
  cellsChanged : Bool
  staleNeighbours : Bool
deriving DecidableEq, Repr

/-- The zero value of `simulationData`: the package variable `data` at start. -/
def empty : simulationData := ⟨[], [], [], false, false⟩

namespace simulationData

/-- `simulationData.CellCount`. -/
def CellCount (s : simulationData) : Nat := s.cellData.length / 3

/-- `simulationData.update`. -/
def update (s : simulationData) : simulationData :=
  let cc := CellList.Len s.cellData
  { s with
    neighbours :=
      if s.neighbours.length > cc * 8 then s.neighbours.take (cc * 8) else List.replicate (cc * 8) 0
    tempData :=
      if s.tempData.length > cc * 3 then s.tempData.take (cc * 3) else List.replicate (cc * 3) 0
    cellsChanged := true
    staleNeighbours := true }

/-- `simulationData.Load`. -/
def Load (s : simulationData) (x y : Int) (v : CellList) : simulationData :=
  update { s with cellData := CellList.Load s.cellData x y v }

/-- `simulationData.Unload`. -/
def Unload (s : simulationData) (v : CellList) : simulationData :=
  update { s with cellData := CellList.Unload s.cellData v }

/-- The loop of `UpdateList`. -/
def UpdateList.loop : CellList → CellList → CellList
  | cd, px :: py :: pv :: rest =>
    let n := CellList.IndexOf cd px py
    if n > -1 then UpdateList.loop (cd.set (n + 2).toNat pv) rest
    else UpdateList.loop cd rest
  | cd, _ => cd

/-- `simulationData.UpdateList`. -/
def UpdateList (s : simulationData) (v : CellList) : simulationData :=
  if v.length = 0 then s
  else { s with cellData := UpdateList.loop s.cellData v, cellsChanged := true }

/-- `simulationData.Set`. -/
def Set (s : simulationData) (x y state : Int) : simulationData :=
  let n := CellList.IndexOf s.cellData x y
  if n > -1 then
    { s with
      cellsChanged := decide (s.cellData.getD (n + 2).toNat 0 ≠ state)
      cellData := s.cellData.set (n + 2).toNat state }
  else if state = CellEmpty then s
  else
    { cellData := s.cellData ++ [x, y, state]
      tempData := s.tempData ++ [0, 0, 0]
      neighbours := s.neighbours ++ [0, 0, 0, 0, 0, 0, 0, 0]
      cellsChanged := true
      staleNeighbours := true }

/-- The eight lookups `computeNeighbours` stores for a cell at `(x, y)`:
N, S, W, E, then the diagonals. -/
def neighbourIndices (cells : CellList) (x y : Int) : List Int :=
  [ CellList.IndexOf cells x (wrap32 (y - 1)),
    CellList.IndexOf cells x (wrap32 (y + 1)),
    CellList.IndexOf cells (wrap32 (x - 1)) y,
    CellList.IndexOf cells (wrap32 (x + 1)) y,
    CellList.IndexOf cells (wrap32 (x - 1)) (wrap32 (y - 1)),
    CellList.IndexOf cells (wrap32 (x + 1)) (wrap32 (y - 1)),
    CellList.IndexOf cells (wrap32 (x - 1)) (wrap32 (y + 1)),
    CellList.IndexOf cells (wrap32 (x + 1)) (wrap32 (y + 1)) ]

/-- The loop of `computeNeighbours`: the second argument is what is left of
`cells`, the third is `s.neighbours[ni:]`. Writing `cn[0] .. cn[7]` panics
when fewer than eight entries are left. -/
def computeNeighbours.loop (cells : CellList) : CellList → List Int → Option (List Int)
  | x :: y :: _ :: rest, cn =>
    if cn.length < 8 then none
    else
      match computeNeighbours.loop cells rest (cn.drop 8) with
      | some tl => some (neighbourIndices cells x y ++ tl)
      | none => none
  | _, cn => some cn

/-- `simulationData.computeNeighbours`. -/
def computeNeighbours (s : simulationData) : Option simulationData :=
  match computeNeighbours.loop s.cellData s.cellData s.neighbours with
  | some cn => some { s with neighbours := cn }
  | none => none

/-- The inner loop of `Step` for a wire cell: the number `k` of cached
neighbours `j > -1` with `t0[j+2] == CellHead`; `none` when `j + 2` is out of
range. -/
def Step.countHeads (t0 : CellList) : List Int → Option Nat
  | [] => some 0
  | j :: js =>
    match Step.countHeads t0 js with
    | none => none
    | some k =>
      if j > -1 then
        match t0[(j + 2).toNat]? with
        | some v => some (if v = CellHead then k + 1 else k)
        | none => none
      else some k

/-- The `switch v` of `Step`, for a cell of state `v` with cached neighbours `n`. -/
def Step.rule (t0 : CellList) (n : List Int) (v : Int) : Option Int :=
  if v = CellWire then
    match Step.countHeads t0 n with
    | some k => some (if k = 1 ∨ k = 2 then CellHead else v)
    | none => none
  else if v = CellHead then some CellTail
  else if v = CellTail then some CellWire
  else some v

/-- The loop of `Step`: the second argument is what is left of `t0`, the
third the part of `t1` not yet written, the fourth `cn[ni:]`. The slice
`cn[ni : ni+8]` is checked against the length of `cn` (Go checks the capacity,
which is not modelled), and `t1[ci] .. t1[ci+2]` must exist. -/
def Step.loop (t0 : CellList) : CellList → CellList → List Int → Option CellList
  | x :: y :: v :: rest, t1, cn =>
    if cn.length < 8 then none
    else
      match t1 with
      | _ :: _ :: _ :: t1rest =>
        match Step.rule t0 (cn.take 8) v with
        | none => none
        | some w =>
          match Step.loop t0 rest t1rest (cn.drop 8) with
          | some tl => some (x :: y :: w :: tl)
          | none => none
      | _ => none
  | _, t1, _ => some t1

/-- `simulationData.Step`. -/
def Step (s : simulationData) : Option simulationData :=
  match (if s.staleNeighbours then computeNeighbours s else some s) with
  | none => none
  | some s1 =>
    match Step.loop s1.cellData s1.cellData s1.tempData s1.neighbours with
    | none => none
    | some t1 =>
      some { s1 with
        cellData := t1
        tempData := s1.cellData
        cellsChanged := true
        staleNeighbours := false }

/-- `simulationData.Trim`. -/
def Trim (s : simulationData) : simulationData :=
  update { s with cellData := CellList.Trim s.cellData }

/-- `simulationData.Len`. -/
def Len (s : simulationData) : Nat := CellList.Len s.cellData

/-- `simulationData.Less`. -/
def Less (s : simulationData) (i j : Nat) : Bool := CellList.Less s.cellData i j

/-- The neighbour block of cell `i`: `nd[i*8 : i*8+8]`. -/
def block (nd : List Int) (i : Nat) : List Int := (nd.drop (i * 8)).take 8

/-- `simulationData.Swap`: swaps the records and the neighbour blocks of
cells `i` and `j`. -/
def Swap (s : simulationData) (i j : Nat) : simulationData :=
  let bi := block s.neighbours i
  let bj := block s.neighbours j
  let nd1 := s.neighbours.take (i * 8) ++ bj ++ s.neighbours.drop (i * 8 + 8)
  let nd2 := nd1.take (j * 8) ++ bi ++ nd1.drop (j * 8 + 8)
  { s with cellData := CellList.Swap s.cellData i j, neighbours := nd2 }

/-- The inner loop of the library routine `insertionSort(data, a, b)`, with
`a = 0`: `for j := i; j > 0 && data.Less(j, j-1); j-- { data.Swap(j, j-1) }`,
started at `j`. -/
def SortCells.sink (s : simulationData) : Nat → simulationData
  | 0 => s
  | j + 1 => if s.Less (j + 1) j then SortCells.sink (s.Swap (j + 1) j) j else s

/-- The outer loop of `insertionSort`: `for i := a + 1; i < b; i++`, at `i`
with `k` rounds left. -/
def SortCells.loop : Nat → Nat → simulationData → simulationData
  | 0, _, s => s
  | k + 1, i, s => SortCells.loop k (i + 1) (SortCells.sink s i)

/-- The method `simulationData.Sort` (`Sort` is a reserved word here), that is
`sort.Sort(s)` of the standard library, which reads `s.Len()` once and then
rearranges the records through calls of `s.Less` and `s.Swap` only. The
library is modelled by its routine `insertionSort` run over the whole range
`0 .. Len()`; the library runs that routine on short ranges and others, over
the same `Less` and `Swap`, on long ones. All of them end in the same
arrangement when no two records share their coordinates (`SortCells_unique`);
records of equal coordinates stay in their old order here, while the library
does not promise an order for them. On a sorted store no `Swap` is called
(`SortCells_of_sorted`). `Swap` is total here: the slice expressions of the
Go method can panic only on a cache shorter than eight entries per cell,
which the engine excludes (`LenOK`). -/
def SortCells (s : simulationData) : simulationData :=
  SortCells.loop (s.Len - 1) 1 s

end simulationData

/-- Package-level `Set`: `data.Set` followed by `data.Sort`. -/
def Set (data : simulationData) (x y state : Int) : simulationData :=
  (data.Set x y state).SortCells

/-- Package-level `Load`: `data.Load` followed by `data.Sort`. -/
def Load (data : simulationData) (x y : Int) (set : CellList) : simulationData :=
  (data.Load x y set).SortCells

/-- Package-level `Load(x, y, Cells())`: the patch is the cell buffer itself;
`cap` is the capacity of the buffer. -/
def LoadCells (data : simulationData) (x y : Int) (cap : Nat) : simulationData :=
  (simulationData.update
    { data with cellData := CellList.Load.shared data.cellData x y cap }).SortCells

/-- Package-level `Unload`. -/
def Unload (data : simulationData) (set : CellList) : simulationData := data.Unload set

/-- Package-level `Trim`. -/
def Trim (data : simulationData) : simulationData := data.Trim

/-- Package-level `SetList`. -/
def SetList (data : simulationData) (v : CellList) : simulationData := data.UpdateList v

/-- Package-level `Cells`. -/
def Cells (data : simulationData) : CellList := data.cellData

/-- Package-level `CellCount`. -/
def CellCount (data : simulationData) : Nat := data.CellCount

/-- The public operations that change the engine; `step` is an executed
`Step` (forced, or scheduled and due). -/
inductive Op where
  | set (x y state : Int)
  | load (x y : Int) (v : CellList)
  | unload (v : CellList)
  | trim
  | setList (v : CellList)
  | step
deriving DecidableEq, Repr

/-- The effect of an operation on the engine data; `none` is a panic. -/
def Op.run : Op → simulationData → Option simulationData
  | .set x y state, s => some (sim.Set s x y state)
  | .load x y v, s => some (sim.Load s x y v)
  | .unload v, s => some (sim.Unload s v)
  | .trim, s => some (sim.Trim s)
  | .setList v, s => some (sim.SetList s v)
  | .step, s => s.Step

/-- Runs a sequence of operations, first to last. -/
def runOps : List Op → simulationData → Option simulationData
  | [], s => some s
  | op :: ops, s =>
    match op.run s with
    | some s1 => runOps ops s1
    | none => none

/-- States the engine reaches from the empty one by operations that
satisfy `ok`. -/
inductive ReachableBy (ok : Op → Prop) : simulationData → Prop where
  | init : ReachableBy ok empty
  | next {s s1 : simulationData} (op : Op) :
      ReachableBy ok s → ok op → op.run s = some s1 → ReachableBy ok s1

/-- The key `(a, b)` of a record is below the target `(x, y)`: the test of
the loop in `IndexOf`. -/
def keyLT (a b x y : Int) : Prop := a < x ∨ (a = x ∧ b < y)

/-- The state found at `(x, y)` by `IndexOf`: `c[n+2]` for the offset `n`
returned, nothing when it returns `-1`. -/
def stateAt (c : CellList) (x y : Int) : Option Int :=
  if CellList.IndexOf c x y > -1 then c.get? (CellList.IndexOf c x y + 2).toNat else none

/-- The records `rs` with the state of every record at `(x, y)` replaced by `v`. -/
def putState (rs : List (Int × Int × Int)) (x y v : Int) : List (Int × Int × Int) :=
  rs.map (fun r => if r.1 = x ∧ r.2.1 = y then (r.1, r.2.1, v) else r)

/-- A store made of complete triples, sorted, with at most one record per
coordinate pair. -/
def StoreOK (c : CellList) : Prop := c.length % 3 = 0 ∧ Sorted c ∧ NoDup c

instance (c : CellList) : Decidable (StoreOK c) := by unfold StoreOK; infer_instance

/-- The engine after a sequence of package-level `Set` calls `(x, y, state)`,
first to last, starting from `data`. -/
def runSets (data : simulationData) (calls : List (Int × Int × Int)) : simulationData :=
  calls.foldl (fun s c => sim.Set s c.1 c.2.1 c.2.2) data

/-- The state of the most recent call at `(x, y)` in a sequence of `Set`
calls, if there is one. -/
def lastSet (calls : List (Int × Int × Int)) (x y : Int) : Option Int :=
  (calls.reverse.find? (fun c => decide (c.1 = x ∧ c.2.1 = y))).map (fun c => c.2.2)

/-- Some call of the sequence set `(x, y)` to a state other than `CellEmpty`. -/
def everSet (calls : List (Int × Int × Int)) (x y : Int) : Bool :=
  calls.any (fun c => decide (c.1 = x ∧ c.2.1 = y ∧ c.2.2 ≠ CellEmpty))

/-- The records of a patch moved by `(x, y)`, as `Load` computes them with
`int32` addition. -/
def offsetRecs (x y : Int) (c2 : CellList) : List (Int × Int × Int) :=
  (CellList.records c2).map (fun p => (wrap32 (p.1 + x), wrap32 (p.2.1 + y), p.2.2))

/-- The coordinates of a list of records. -/
def keys (rs : List (Int × Int × Int)) : List (Int × Int) := rs.map (fun r => (r.1, r.2.1))

/-- The engine's buffers are in lockstep: the store is made of complete
triples, the scratch buffer has its length, and the cache has eight entries
per cell. -/
def LenOK (s : simulationData) : Prop :=
  s.cellData.length % 3 = 0 ∧ s.tempData.length = s.cellData.length ∧
    s.neighbours.length = 8 * s.CellCount

instance (s : simulationData) : Decidable (LenOK s) := by unfold LenOK; infer_instance

/-- The coordinates `computeNeighbours` looks up for a cell at `(x, y)`, in
the order of the cache: N, S, W, E, then the diagonals. -/
def neighbourCoords (x y : Int) : List (Int × Int) :=
  [ (x, wrap32 (y - 1)), (x, wrap32 (y + 1)), (wrap32 (x - 1), y), (wrap32 (x + 1), y),
    (wrap32 (x - 1), wrap32 (y - 1)), (wrap32 (x + 1), wrap32 (y - 1)),
    (wrap32 (x - 1), wrap32 (y + 1)), (wrap32 (x + 1), wrap32 (y + 1)) ]

/-- The cache `computeNeighbours` builds for the store `c`. -/
def freshCache (c : CellList) : List Int :=
  (CellList.coords c).flatMap (fun p => simulationData.neighbourIndices c p.1 p.2)

/-- The cache is valid: for every cell, in order, it holds the eight
`IndexOf` results on the current store. -/
def CacheOK (s : simulationData) : Prop := s.neighbours = freshCache s.cellData

instance (s : simulationData) : Decidable (CacheOK s) := by unfold CacheOK; infer_instance

/-- The eight Moore neighbours of `(x, y)` on the unbounded grid. -/
def mooreNeighbours (x y : Int) : List (Int × Int) :=
  [ (x, y - 1), (x, y + 1), (x - 1, y), (x + 1, y),
    (x - 1, y - 1), (x + 1, y - 1), (x - 1, y + 1), (x + 1, y + 1) ]

/-- The number of cells of the store `c` that lie at a Moore neighbour of
`(x, y)` and hold `CellHead`. -/
def headNeighbours (c : CellList) (x y : Int) : Nat :=
  (CellList.records c).countP
    (fun r => decide ((r.1, r.2.1) ∈ mooreNeighbours x y ∧ r.2.2 = CellHead))

/-- The Wireworld rule for the record `r` of the store `c`: head to tail,
tail to wire, wire to head exactly with one or two head neighbours, and any
other state (empty) unchanged. -/
def nextState (c : CellList) (r : Int × Int × Int) : Int :=
  if r.2.2 = CellHead then CellTail
  else if r.2.2 = CellTail then CellWire
  else if r.2.2 = CellWire then
    (if headNeighbours c r.1 r.2.1 = 1 ∨ headNeighbours c r.1 r.2.1 = 2 then CellHead
     else CellWire)
  else r.2.2

/-- A coordinate strictly inside the `int32` range, so that `+ 1` and `- 1`
do not wrap. -/
def insideInt32 (v : Int) : Prop := -2147483648 < v ∧ v < 2147483647

instance (v : Int) : Decidable (insideInt32 v) := by unfold insideInt32; infer_instance

/-- Operations whose `Load` patches are `int32` lists with pairwise distinct
coordinates. -/
def Op.distinctPatch : Op → Prop
  | .load _ _ v => NoDup v ∧ ∀ e ∈ v, isInt32 e
  | _ => True

/-- Any operation. -/
def Op.any (_ : Op) : Prop := True

/-- The head count `k` that `Step` computes for a wire cell at `(x, y)` from
a valid cache: the number of looked-up neighbour coordinates at which
`IndexOf` finds a record holding `CellHead`. -/
def cachedHeads (c : CellList) (x y : Int) : Nat :=
  (neighbourCoords x y).countP (fun p => decide (stateAt c p.1 p.2 = some CellHead))

/-- The state `Step` writes for the record `r` of the store `c`, given a
valid cache. -/
def stepState (c : CellList) (r : Int × Int × Int) : Int :=
  if r.2.2 = CellWire then
    (if cachedHeads c r.1 r.2.1 = 1 ∨ cachedHeads c r.1 r.2.1 = 2 then CellHead else r.2.2)
  else if r.2.2 = CellHead then CellTail
  else if r.2.2 = CellTail then CellWire
  else r.2.2

/-- The store `Step` produces from the store `c`, given a valid cache. -/
def stepCells (c : CellList) : CellList :=
  CellList.ofRecords ((CellList.records c).map (fun r => (r.1, r.2.1, stepState c r)))

/-- The invariant of the engine data: buffers in lockstep, store sorted,
and the cache valid unless it is marked stale. -/
def EngineOK (s : simulationData) : Prop :=
  LenOK s ∧ Sorted s.cellData ∧ (s.staleNeighbours = false → CacheOK s)

end sim

namespace components

/-- The preset `components.Clock4`: a clock with a 4-cycle interval. -/
def Clock4 : List Int := [1, 0, 2, 0, 1, 1, 2, 1, 3, 1, 2, 1]

end components

namespace sim

/-- The store after `n` executed steps (`Step(true)`), `none` on a panic. -/
def stepN : Nat → simulationData → Option simulationData
  | 0, s => some s
  | n + 1, s =>
    match s.Step with
    | some s1 => stepN n s1
    | none => none

/-- Go's `historyState`. -/
structure historyState where
  before : CellList
  after : CellList
deriving DecidableEq, Repr

/-- Go's `History`: the undo and redo stacks, the top of each at the end. -/
structure History where
  undo : List historyState
  redo : List historyState
deriving DecidableEq, Repr

namespace History

/-- `History.changeHandler`. -/
def changeHandler (h : History) (before after : CellList) : History :=
  { undo := h.undo ++ [⟨before, after⟩], redo := h.redo.take 0 }

/-- `History.Undo`, acting on the history and on the package variable `data`. -/
def Undo (h : History) (data : simulationData) : History × simulationData :=
  if h.undo.length = 0 then (h, data)
  else
    match h.undo.getLast? with
    | none => (h, data)
    | some state =>
      ({ undo := h.undo.take (h.undo.length - 1), redo := h.redo ++ [state] },
        sim.SetList data state.before)

/-- `History.Redo`, acting on the history and on the package variable `data`. -/
def Redo (h : History) (data : simulationData) : History × simulationData :=
  if h.redo.length = 0 then (h, data)
  else
    match h.redo.getLast? with
    | none => (h, data)
    | some state =>
      ({ undo := h.undo ++ [state], redo := h.redo.take (h.redo.length - 1) },
        sim.SetList data state.after)

end History

/-- The fragment that records the coordinates `ks` with the states the
store `c` holds for them, `CellEmpty` where a coordinate is absent. -/
def fragmentOf (c : CellList) (ks : List (Int × Int)) : CellList :=
  CellList.ofRecords (ks.map (fun k => (k.1, k.2, (stateAt c k.1 k.2).getD CellEmpty)))

/-- The coordinates an edit affects: the cell of a `Set`, the offset
coordinates of a `Load`, the coordinates of an `Unload`. -/
def Op.affected : Op → List (Int × Int)
  | .set x y _ => [(x, y)]
  | .load x y v => keys (offsetRecs x y v)
  | .unload v => CellList.coords v
  | _ => []

/-- The edits a history entry is recorded for. -/
def Op.isEdit : Op → Prop
  | .set _ _ _ => True
  | .load _ _ _ => True
  | .unload _ => True
  | _ => False

/-- `time.Microsecond`, `time.Millisecond` and `time.Second` in nanoseconds,
the unit of `time.Duration`. -/
def Microsecond : Int := 1000
def Millisecond : Int := 1000000
def Second : Int := 1000000000

/-- The value of an `int64` expression whose mathematical value is `v`. -/
def wrap64 (v : Int) : Int := (v + 9223372036854775808) % 18446744073709551616 - 9223372036854775808

/-- Values an `int64` can hold. -/
def isInt64 (v : Int) : Prop := -9223372036854775808 ≤ v ∧ v ≤ 9223372036854775807

instance (v : Int) : Decidable (isInt64 v) := by unfold isInt64; infer_instance

/-- `time.Duration.Truncate` of the standard library, by its documented
behaviour: `d` rounded toward zero to a multiple of `m`, `d` itself when
`m <= 0`. -/
def Truncate (d m : Int) : Int := if m ≤ 0 then d else d - Int.tmod d m

/-- The initial value of the package variable `stepInterval`. -/
def stepIntervalInit : Int := 50 * Millisecond

/-- `ScaleInterval`, as a function of the current value of the package
variable `stepInterval` (an `int64` count of nanoseconds) to its new value.
`v >> 1` is the floor of `v / 2`, `v << 1` wraps. -/
def ScaleInterval (stepInterval : Int) (delta : Int) : Int :=
  let v := stepInterval
  let v := if delta < 0 then v / 2 else wrap64 (v * 2)
  let v := if v < Microsecond then Microsecond else v
  if v ≥ Second then Truncate v Second
  else if v ≥ Millisecond then Truncate v Millisecond
  else Truncate v Microsecond

/-- The interval after `n` calls of `ScaleInterval(delta)`. -/
def scaleN (delta : Int) : Nat → Int → Int
  | 0, v => v
  | n + 1, v => scaleN delta n (ScaleInterval v delta)

end sim

namespace util

/-- The bit smearing of `Pow2` on a `uint32` value: `x |= x >> 1`, then by 2,
4, 8 and 16. -/
def Pow2.smear (x : Nat) : Nat :=
  let x := x ||| (x >>> 1)
  let x := x ||| (x >>> 2)
  let x := x ||| (x >>> 4)
  let x := x ||| (x >>> 8)
  x ||| (x >>> 16)

/-- `util.Pow2`. `uint32(n - 1)` keeps the low 32 bits of `n - 1`, the final
`x + 1` is a `uint32` addition, and `int` is 64 bits wide, so that `int(x + 1)`
keeps the value. -/
def Pow2 (n : Int) : Int :=
  let x : Nat := ((n - 1) % 4294967296).toNat
  let x := Pow2.smear x
  (((x + 1) % 4294967296 : Nat) : Int)

end util

namespace sim

/-- `time.Time.Sub` of the standard library, by its documented behaviour, on
instants counted in nanoseconds: the difference `t - u`, or the largest
(smallest) `Duration` when the difference is out of its range. -/
def timeSub (t u : Int) : Int :=
  if t - u > 9223372036854775807 then 9223372036854775807
  else if t - u < -9223372036854775808 then -9223372036854775808
  else t - u

/-- The package variables of `sim`: `data`, `stepInterval`, `stepTimer` and
`running`. -/
structure Engine where
  data : simulationData
  stepInterval : Int
  stepTimer : Int
  running : Bool
deriving DecidableEq, Repr

/-- The package variables at start; `stepTimer` is the zero `time.Time`,
taken as instant 0. -/
def Engine.init : Engine := ⟨empty, stepIntervalInit, 0, false⟩

/-- Package-level `Step(force)`, with the reading `now` of `time.Now()` as a
parameter; `none` is a panic of `data.Step()`. -/
def Step (e : Engine) (force : Bool) (now : Int) : Option Engine :=
  if force = false then
    if e.running = false then some e
    else if timeSub now e.stepTimer < e.stepInterval then some e
    else
      match e.data.Step with
      | some d => some { e with stepTimer := now, data := d }
      | none => none
  else
    match e.data.Step with
    | some d => some { e with data := d }
    | none => none

/-- Package-level `CellsChanged`: the value returned and the data with the
flag reset. -/
def CellsChanged (data : simulationData) : Bool × simulationData :=
  (data.cellsChanged, { data with cellsChanged := false })

/-- Go's `image.Rectangle`, with the fields `Min.X`, `Min.Y`, `Max.X`, `Max.Y`. -/
structure Rectangle where
  minX : Int
  minY : Int
  maxX : Int
  maxY : Int
deriving DecidableEq, Repr

/-- The part of `ui.CellSelector` that the selection logic uses. -/
structure CellSelector where
  selection : CellList
  addSelection : Bool
  selectionChanged : Bool
deriving DecidableEq, Repr

namespace CellSelector

/-- `CellSelector.cellsInArea`, on the cells `cd` returned by `sim.Cells()`. -/
def cellsInArea (cd : CellList) (ra : Rectangle) : CellList :=
  match cd with
  | x :: y :: v :: rest =>
    if x ≥ ra.minX ∧ y ≥ ra.minY ∧ x ≤ ra.maxX ∧ y ≤ ra.maxY then
      x :: y :: v :: cellsInArea rest ra
    else cellsInArea rest ra
  | _ => []

/-- `CellSelector.finalizeSelection`. -/
def finalizeSelection (c : CellSelector) : CellSelector :=
  { c with selection := CellList.Trim c.selection, selectionChanged := true }

/-- The loop of `MouseButton` that adds the cells of `set` to the selection
unless `Contains` reports them. -/
def MouseButton.addLoop : CellList → CellList → CellList
  | selection, x :: y :: v :: rest =>
    if CellList.Contains selection x y = false then
      MouseButton.addLoop (selection ++ [x, y, v]) rest
    else MouseButton.addLoop selection rest
  | selection, _ => selection

/-- `CellSelector.MouseButton` from the point where the selection rectangle
`sr` is known (a button release that completes a selection), on the cells
`cd` returned by `sim.Cells()`. -/
def MouseButton (c : CellSelector) (cd : CellList) (sr : Rectangle) : CellSelector :=
  if c.addSelection = false then
    finalizeSelection { c with selection := cellsInArea cd sr }
  else
    finalizeSelection
      { c with selection := MouseButton.addLoop c.selection (cellsInArea cd sr) }

end CellSelector

/-! ## Records of a flat list -/

namespace CellList

theorem records_ofRecords (rs : List (Int × Int × Int)) : records (ofRecords rs) = rs := by
  induction rs with
  | nil => rfl
  | cons r rs ih => simp [ofRecords, records, ih]

theorem length_ofRecords (rs : List (Int × Int × Int)) :
    (ofRecords rs).length = 3 * rs.length := by
  induction rs with
  | nil => rfl
  | cons r rs ih => simp [ofRecords, ih]; omega

theorem ofRecords_append (rs ts : List (Int × Int × Int)) :
    ofRecords (rs ++ ts) = ofRecords rs ++ ofRecords ts := by
  induction rs with
  | nil => rfl
  | cons r rs ih => simp [ofRecords, ih]

theorem length_records (c : CellList) : (records c).length = c.length / 3 := by
  induction c using records.induct with
  | case1 x y v rest ih => simp [records, ih]; omega
  | case2 c h =>
    match c, h with
    | [], _ => simp [records]
    | [_], _ => simp [records]
    | [_, _], _ => simp [records]
    | x :: y :: v :: rest, h => exact absurd rfl (h x y v rest)

theorem ofRecords_records (c : CellList) (h : c.length % 3 = 0) :
    ofRecords (records c) = c := by
  induction c using records.induct with
  | case1 x y v rest ih =>
    have : rest.length % 3 = 0 := by simp at h; omega
    simp [records, ofRecords, ih this]
  | case2 c hc =>
    match c, hc, h with
    | [], _, _ => simp [records, ofRecords]
    | [_], _, h => simp at h
    | [_, _], _, h => simp at h
    | x :: y :: v :: rest, hc, _ => exact absurd rfl (hc x y v rest)

theorem records_append (c d : CellList) (h : c.length % 3 = 0) :
    records (c ++ d) = records c ++ records d := by
  induction c using records.induct with
  | case1 x y v rest ih =>
    have : rest.length % 3 = 0 := by simp at h; omega
    simp [records, ih this]
  | case2 c hc =>
    match c, hc, h with
    | [], _, _ => simp [records]
    | [_], _, h => simp at h
    | [_, _], _, h => simp at h
    | x :: y :: v :: rest, hc, _ => exact absurd rfl (hc x y v rest)

end CellList

/-! ## Trim -/

namespace CellList

theorem Trim_eq_filter (c : CellList) :
    Trim c = ofRecords ((records c).filter (fun r => decide (r.2.2 ≠ CellEmpty))) := by
  induction c using Trim.induct with
  | case1 x y v rest hv ih => simp [Trim, records, hv, ofRecords, ih]
  | case2 x y v rest hv ih =>
    have hv' : v = CellEmpty := by simpa using hv
    simp [Trim, records, hv', ih]
  | case3 c hc =>
    match c, hc with
    | [], _ => simp [Trim, records, ofRecords]
    | [_], _ => simp [Trim, records, ofRecords]
    | [_, _], _ => simp [Trim, records, ofRecords]
    | x :: y :: v :: rest, hc => exact absurd rfl (hc x y v rest)

theorem records_Trim (c : CellList) :
    records (Trim c) = (records c).filter (fun r => decide (r.2.2 ≠ CellEmpty)) := by
  rw [Trim_eq_filter, records_ofRecords]

theorem length_Trim_mod (c : CellList) : (Trim c).length % 3 = 0 := by
  rw [Trim_eq_filter, length_ofRecords]; omega

end CellList

theorem Sorted_Trim (c : CellList) (h : Sorted c) : Sorted (CellList.Trim c) := by
  unfold Sorted at *
  rw [CellList.records_Trim]
  exact h.filter _

theorem NoDup_Trim (c : CellList) (h : NoDup c) : NoDup (CellList.Trim c) := by
  unfold NoDup CellList.coords at *
  rw [CellList.records_Trim]
  exact (List.filter_sublist _).map _ |>.nodup h

/-- C7: for a list made of complete triples, `Trim` returns exactly the
records whose state is not `CellEmpty`, in their original order; the result
holds no empty record, is sorted when the input is, and trimming twice is
trimming once. -/
theorem Trim_spec (c : CellList) (h : c.length % 3 = 0) :
    CellList.ofRecords (CellList.records c) = c ∧
    CellList.Trim c =
      CellList.ofRecords ((CellList.records c).filter (fun r => decide (r.2.2 ≠ CellEmpty))) ∧
    (∀ r ∈ CellList.records (CellList.Trim c), r.2.2 ≠ CellEmpty) ∧
    (Sorted c → Sorted (CellList.Trim c)) ∧
    CellList.Trim (CellList.Trim c) = CellList.Trim c := by
  refine ⟨CellList.ofRecords_records c h, CellList.Trim_eq_filter c, ?_, Sorted_Trim c, ?_⟩
  · intro r hr
    rw [CellList.records_Trim] at hr
    simpa using (List.mem_filter.mp hr).2
  · rw [CellList.Trim_eq_filter (CellList.Trim c), CellList.records_Trim, List.filter_filter]
    simp [CellList.Trim_eq_filter]

theorem Trim_spec_witness :
    [0, 0, 1, 0, 1, 0, 2, 5, 3].length % 3 = 0 ∧
    CellList.Trim [0, 0, 1, 0, 1, 0, 2, 5, 3] = [0, 0, 1, 2, 5, 3] ∧
    Sorted (CellList.Trim [0, 0, 1, 0, 1, 0, 2, 5, 3]) :=
  ⟨by decide, by decide,
    (Trim_spec [0, 0, 1, 0, 1, 0, 2, 5, 3] (by decide)).2.2.2.1 (by decide)⟩

/-! ## IndexOf -/

namespace CellList

theorem getD_cons3 (x y v : Int) (rest : CellList) (k : Nat) :
    (x :: y :: v :: rest).getD (k + 3) 0 = rest.getD k 0 := by
  simp [List.getD]

/-- The flat slots of record `m`. -/
theorem records_getElem? (c : CellList) (m : Nat) (h : m < (records c).length) :
    (records c)[m]? = some (c.getD (m * 3) 0, c.getD (m * 3 + 1) 0, c.getD (m * 3 + 2) 0) := by
  induction c using records.induct generalizing m with
  | case1 x y v rest ih =>
    cases m with
    | zero => simp [records]
    | succ k =>
      have hk : k < (records rest).length := by simpa [records] using h
      have e0 : (k + 1) * 3 = k * 3 + 3 := by ring
      have e1 : k * 3 + 3 + 1 = (k * 3 + 1) + 3 := by ring
      have e2 : k * 3 + 3 + 2 = (k * 3 + 2) + 3 := by ring
      rw [e0, e1, e2, getD_cons3, getD_cons3, getD_cons3]
      simpa [records] using ih k hk
  | case2 c hc =>
    match c, hc, h with
    | [], _, h => simp [records] at h
    | [_], _, h => simp [records] at h
    | [_, _], _, h => simp [records] at h
    | x :: y :: v :: rest, hc, _ => exact absurd rfl (hc x y v rest)


theorem search_spec (c : CellList) (x y : Int) (n : Nat)
    (hmono : ∀ a b, a ≤ b → b < n →
      keyLT (c.getD (b * 3) 0) (c.getD (b * 3 + 1) 0) x y →
      keyLT (c.getD (a * 3) 0) (c.getD (a * 3 + 1) 0) x y) :
    ∀ fuel i j, i ≤ j → j < n → j - i ≤ fuel →
      (∀ k, k < i → keyLT (c.getD (k * 3) 0) (c.getD (k * 3 + 1) 0) x y) →
      (j + 1 = n ∨ ¬ keyLT (c.getD (j * 3) 0) (c.getD (j * 3 + 1) 0) x y) →
      (IndexOf.search c x y fuel i j).1 = (IndexOf.search c x y fuel i j).2 ∧
      (IndexOf.search c x y fuel i j).1 < n ∧
      (∀ k, k < (IndexOf.search c x y fuel i j).1 →
        keyLT (c.getD (k * 3) 0) (c.getD (k * 3 + 1) 0) x y) ∧
      ((IndexOf.search c x y fuel i j).1 + 1 = n ∨
        ¬ keyLT (c.getD ((IndexOf.search c x y fuel i j).1 * 3) 0)
            (c.getD ((IndexOf.search c x y fuel i j).1 * 3 + 1) 0) x y) := by
  intro fuel
  induction fuel with
  | zero =>
    intro i j hij hjn hf hlo hhi
    have : i = j := by omega
    subst this
    simp only [IndexOf.search]
    exact ⟨trivial, hjn, hlo, hhi⟩
  | succ f ih =>
    intro i j hij hjn hf hlo hhi
    by_cases hlt : i < j
    · have hm1 : (i + j) / 2 < j := by omega
      have hm2 : i ≤ (i + j) / 2 := by omega
      by_cases hk : keyLT (c.getD ((i + j) / 2 * 3) 0) (c.getD ((i + j) / 2 * 3 + 1) 0) x y
      · have e : IndexOf.search c x y (f + 1) i j = IndexOf.search c x y f ((i + j) / 2 + 1) j := by
          have hk' := hk
          unfold keyLT at hk'
          simp only [IndexOf.search, hlt, if_true, hk']
        rw [e]
        refine ih _ _ (by omega) hjn (by omega) ?_ hhi
        intro k hk2
        exact hmono k ((i + j) / 2) (by omega) (by omega) hk
      · have e : IndexOf.search c x y (f + 1) i j = IndexOf.search c x y f i ((i + j) / 2) := by
          have hk' := hk
          unfold keyLT at hk'
          simp only [IndexOf.search, hlt, if_true, hk', if_false]
        rw [e]
        exact ih _ _ hm2 (by omega) (by omega) hlo (Or.inr hk)
    · have : i = j := by omega
      subst this
      have e : IndexOf.search c x y (f + 1) i i = (i, i) := by
        simp only [IndexOf.search, lt_irrefl, if_false]
      rw [e]
      exact ⟨rfl, hjn, hlo, hhi⟩


theorem records_getElem (c : CellList) (m : Nat) (h : m < (records c).length) :
    (records c)[m] = (c.getD (m * 3) 0, c.getD (m * 3 + 1) 0, c.getD (m * 3 + 2) 0) := by
  have := records_getElem? c m h
  rw [List.getElem?_eq_getElem h] at this
  exact Option.some.inj this

theorem search_le (c : CellList) (x y : Int) :
    ∀ fuel i j, i ≤ j → (IndexOf.search c x y fuel i j).1 ≤ j := by
  intro fuel
  induction fuel with
  | zero => intro i j h; simpa [IndexOf.search] using h
  | succ f ih =>
    intro i j h
    simp only [IndexOf.search]
    split
    · split
      · exact ih _ _ (by omega)
      · exact le_trans (ih _ _ (by omega)) (by omega)
    · exact h

theorem IndexOf_cases (c : CellList) (x y : Int) :
    IndexOf c x y = -1 ∨
    ∃ m : Nat, IndexOf c x y = ((m * 3 : Nat) : Int) ∧ m < c.length / 3 ∧
      (IndexOf.search c x y c.length 0 (c.length / 3 - 1)).1 = m ∧
      c.getD (m * 3) 0 = x ∧ c.getD (m * 3 + 1) 0 = y := by
  unfold IndexOf
  by_cases h0 : c.length = 0
  · simp [h0]
  by_cases h1 : c.length / 3 = 0
  · simp [h1]
  simp only [h0, h1, if_false]
  split
  · exact Or.inl rfl
  · rename_i hc
    push_neg at hc
    refine Or.inr ⟨_, rfl, ?_, rfl, hc.2.1, hc.2.2⟩
    have := search_le c x y c.length 0 (c.length / 3 - 1) (Nat.zero_le _)
    omega

theorem IndexOf_ge (c : CellList) (x y : Int) : -1 ≤ IndexOf c x y := by
  rcases IndexOf_cases c x y with h | ⟨m, h, _⟩ <;> omega

/-- What a successful lookup returns: the offset of a record with the
coordinates asked for. -/
theorem IndexOf_pos (c : CellList) (x y : Int) (h : IndexOf c x y > -1) :
    ∃ m : Nat, IndexOf c x y = ((m * 3 : Nat) : Int) ∧ m < (records c).length ∧
      (IndexOf c x y + 2).toNat = m * 3 + 2 ∧
      c.getD (m * 3) 0 = x ∧ c.getD (m * 3 + 1) 0 = y := by
  rcases IndexOf_cases c x y with h1 | ⟨m, h1, h2, _, h3, h4⟩
  · omega
  · refine ⟨m, h1, by rw [length_records]; exact h2, ?_, h3, h4⟩
    rw [h1]; omega

theorem keyLT_mono (c : CellList) (hs : Sorted c) (x y : Int) :
    ∀ a b, a ≤ b → b < (records c).length →
      keyLT (c.getD (b * 3) 0) (c.getD (b * 3 + 1) 0) x y →
      keyLT (c.getD (a * 3) 0) (c.getD (a * 3 + 1) 0) x y := by
  intro a b hab hb hk
  rcases Nat.eq_or_lt_of_le hab with h | h
  · subst h; exact hk
  · have ha : a < (records c).length := by omega
    have := (List.pairwise_iff_getElem.mp hs) a b ha hb h
    rw [records_getElem c a ha, records_getElem c b hb] at this
    unfold cellLE at this
    unfold keyLT at *
    simp only at this
    omega

/-- Lookup in a sorted list: the loop ends at the first record whose key is
not below the target, or at the last record. -/
theorem IndexOf_sorted (c : CellList) (hs : Sorted c) (x y : Int) :
    (IndexOf c x y = -1 ∧ (x, y) ∉ coords c) ∨
    ∃ m : Nat, IndexOf c x y = ((m * 3 : Nat) : Int) ∧ m < (records c).length ∧
      c.getD (m * 3) 0 = x ∧ c.getD (m * 3 + 1) 0 = y ∧
      ∀ k, k < m → ¬ (c.getD (k * 3) 0 = x ∧ c.getD (k * 3 + 1) 0 = y) := by
  by_cases hn : (records c).length = 0
  · left
    have hr : records c = [] := List.eq_nil_of_length_eq_zero hn
    refine ⟨?_, by simp [coords, hr]⟩
    rcases IndexOf_cases c x y with h | ⟨m, _, h2, _⟩
    · exact h
    · rw [length_records] at hn; omega
  have hlen := length_records c
  have hsp := search_spec c x y (records c).length (keyLT_mono c hs x y) c.length 0
    (c.length / 3 - 1) (Nat.zero_le _) (by omega) (by omega) (by intro k hk; omega)
    (Or.inl (by omega))
  obtain ⟨he, hlt, hlo, hhi⟩ := hsp
  set i := (IndexOf.search c x y c.length 0 (c.length / 3 - 1)).1 with hi
  by_cases hfound : c.getD (i * 3) 0 = x ∧ c.getD (i * 3 + 1) 0 = y
  · right
    refine ⟨i, ?_, hlt, hfound.1, hfound.2, ?_⟩
    · unfold IndexOf
      have h0 : c.length ≠ 0 := by omega
      have h1 : c.length / 3 ≠ 0 := by omega
      simp only [h0, h1, if_false]
      rw [← hi, if_neg]
      push_neg
      exact ⟨he, hfound.1, hfound.2⟩
    · intro k hk hc
      have := hlo k hk
      unfold keyLT at this
      omega
  · left
    constructor
    · rcases IndexOf_cases c x y with h | ⟨m, _, _, h3, h4, h5⟩
      · exact h
      · rw [← hi] at h3; subst h3; exact absurd ⟨h4, h5⟩ hfound
    · intro hmem
      unfold coords at hmem
      rw [List.mem_map] at hmem
      obtain ⟨r, hr, hrxy⟩ := hmem
      obtain ⟨k, hk, hkr⟩ := List.getElem_of_mem hr
      rw [records_getElem c k hk] at hkr
      have hx : c.getD (k * 3) 0 = x := by rw [← hkr] at hrxy; simpa using congrArg Prod.fst hrxy
      have hy : c.getD (k * 3 + 1) 0 = y := by rw [← hkr] at hrxy; simpa using congrArg Prod.snd hrxy
      rcases Nat.lt_trichotomy k i with h | h | h
      · have := hlo k h
        unfold keyLT at this
        omega
      · subst h; exact hfound ⟨hx, hy⟩
      · rcases hhi with h2 | h2
        · omega
        · have := (List.pairwise_iff_getElem.mp hs) i k hlt hk h
          rw [records_getElem c i hlt, records_getElem c k hk] at this
          unfold cellLE at this
          unfold keyLT at h2
          simp only at this
          omega

end CellList

/-! ## Lookup of a state; the contract of IndexOf -/

namespace CellList

theorem get?_state (c : CellList) (m : Nat) (h : m < (records c).length) :
    c.get? (m * 3 + 2) = some (c.getD (m * 3 + 2) 0) := by
  have h2 : m * 3 + 2 < c.length := by rw [length_records] at h; omega
  simp [List.getD, List.getElem?_eq_getElem h2]

theorem mem_records_of_lt (c : CellList) (m : Nat) (h : m < (records c).length) :
    (c.getD (m * 3) 0, c.getD (m * 3 + 1) 0, c.getD (m * 3 + 2) 0) ∈ records c := by
  rw [← records_getElem c m h]
  exact List.getElem_mem _

theorem mem_coords_of_lt (c : CellList) (m : Nat) (h : m < (records c).length) :
    (c.getD (m * 3) 0, c.getD (m * 3 + 1) 0) ∈ coords c := by
  unfold coords
  exact List.mem_map.mpr ⟨_, mem_records_of_lt c m h, rfl⟩

theorem coords_getElem (c : CellList) (m : Nat) (h : m < (coords c).length) :
    (coords c)[m] = (c.getD (m * 3) 0, c.getD (m * 3 + 1) 0) := by
  have h2 : m < (records c).length := by simpa [coords] using h
  simp [coords, records_getElem c m h2]

end CellList

theorem stateAt_of_found (c : CellList) (x y : Int) (m : Nat)
    (h : CellList.IndexOf c x y = ((m * 3 : Nat) : Int)) (hm : m < (CellList.records c).length) :
    stateAt c x y = some (c.getD (m * 3 + 2) 0) := by
  unfold stateAt
  have h1 : CellList.IndexOf c x y > -1 := by omega
  have h2 : (CellList.IndexOf c x y + 2).toNat = m * 3 + 2 := by omega
  rw [if_pos h1, h2]
  exact CellList.get?_state c m hm

theorem stateAt_eq_none (c : CellList) (hs : Sorted c) (x y : Int) :
    stateAt c x y = none ↔ (x, y) ∉ CellList.coords c := by
  rcases CellList.IndexOf_sorted c hs x y with ⟨h1, h2⟩ | ⟨m, h1, h2, h3, h4, _⟩
  · simp [stateAt, h1, h2]
  · rw [stateAt_of_found c x y m h1 h2]
    have := CellList.mem_coords_of_lt c m h2
    rw [h3, h4] at this
    simp [this]

theorem stateAt_mem (c : CellList) (hs : Sorted c) (x y v : Int) (h : stateAt c x y = some v) :
    (x, y, v) ∈ CellList.records c := by
  rcases CellList.IndexOf_sorted c hs x y with ⟨h1, _⟩ | ⟨m, h1, h2, h3, h4, _⟩
  · simp [stateAt, h1] at h
  · rw [stateAt_of_found c x y m h1 h2] at h
    have := CellList.mem_records_of_lt c m h2
    rw [h3, h4, Option.some.inj h] at this
    exact this

theorem stateAt_of_mem (c : CellList) (hs : Sorted c) (hd : NoDup c) (x y v : Int)
    (h : (x, y, v) ∈ CellList.records c) : stateAt c x y = some v := by
  obtain ⟨k, hk, hkr⟩ := List.getElem_of_mem h
  rw [CellList.records_getElem c k hk] at hkr
  have hmem : (x, y) ∈ CellList.coords c := List.mem_map.mpr ⟨_, h, rfl⟩
  rcases CellList.IndexOf_sorted c hs x y with ⟨_, h2⟩ | ⟨m, h1, h2, h3, h4, _⟩
  · exact absurd hmem h2
  · rw [stateAt_of_found c x y m h1 h2]
    have hkc : k < (CellList.coords c).length := by simpa [CellList.coords] using hk
    have hmc : m < (CellList.coords c).length := by simpa [CellList.coords] using h2
    have e1 := CellList.coords_getElem c k hkc
    have e2 := CellList.coords_getElem c m hmc
    have hx : c.getD (k * 3) 0 = x := by simpa using congrArg Prod.fst hkr
    have hy : c.getD (k * 3 + 1) 0 = y := by simpa using congrArg (fun r => r.2.1) hkr
    have hv : c.getD (k * 3 + 2) 0 = v := by simpa using congrArg (fun r => r.2.2) hkr
    rw [hx, hy] at e1
    rw [h3, h4] at e2
    have hkm : k = m := (List.Nodup.getElem_inj_iff hd).mp (e1.trans e2.symm)
    subst hkm
    rw [hv]

/-- C2: in a sorted list of complete triples, `IndexOf` returns `-1` exactly
when no record has the coordinates asked for; otherwise it returns the flat
offset of the first record with these coordinates, a multiple of 3 at most
`len(c) - 3`; `Contains` tells whether such a record exists. -/
theorem IndexOf_spec (c : CellList) (hs : Sorted c) (_hlen : c.length % 3 = 0) (x y : Int) :
    (CellList.IndexOf c x y = -1 ↔ (x, y) ∉ CellList.coords c) ∧
    (CellList.IndexOf c x y ≠ -1 →
      ∃ n : Nat, CellList.IndexOf c x y = (n : Int) ∧ n % 3 = 0 ∧ n + 3 ≤ c.length ∧
        c.get? n = some x ∧ c.get? (n + 1) = some y ∧
        ∀ k : Nat, k % 3 = 0 → k < n → ¬ (c.get? k = some x ∧ c.get? (k + 1) = some y)) ∧
    (CellList.Contains c x y = true ↔ (x, y) ∈ CellList.coords c) := by
  rcases CellList.IndexOf_sorted c hs x y with ⟨h1, h2⟩ | ⟨m, h1, h2, h3, h4, h5⟩
  · refine ⟨by simp [h1, h2], fun h => absurd h1 h, ?_⟩
    simp [CellList.Contains, h1, h2]
  · have hmem := CellList.mem_coords_of_lt c m h2
    rw [h3, h4] at hmem
    have hlen : m * 3 + 3 ≤ c.length := by rw [CellList.length_records] at h2; omega
    have hne : CellList.IndexOf c x y ≠ -1 := by omega
    refine ⟨by simp [hne, hmem], fun _ => ⟨m * 3, h1, by omega, hlen, ?_, ?_, ?_⟩, ?_⟩
    · rw [← h3]; simp [List.getD, List.getElem?_eq_getElem (show m * 3 < c.length by omega)]
    · rw [← h4]; simp [List.getD, List.getElem?_eq_getElem (show m * 3 + 1 < c.length by omega)]
    · intro k hk3 hkn hc
      obtain ⟨q, rfl⟩ : ∃ q, k = q * 3 := ⟨k / 3, by omega⟩
      refine h5 q (by omega) ⟨?_, ?_⟩
      · have := hc.1
        rw [List.get?_eq_getElem?] at this
        simp [List.getD, this]
      · have := hc.2
        rw [List.get?_eq_getElem?] at this
        simp [List.getD, this]
    · simp only [CellList.Contains, decide_eq_true_eq]
      exact ⟨fun _ => hmem, fun _ => by omega⟩

theorem IndexOf_spec_witness :
    Sorted [0, 0, 1, 0, 1, 1, 2, 5, 3] ∧ [0, 0, 1, 0, 1, 1, 2, 5, 3].length % 3 = 0 ∧
    CellList.IndexOf [0, 0, 1, 0, 1, 1, 2, 5, 3] 2 5 = 6 ∧
    (CellList.Contains [0, 0, 1, 0, 1, 1, 2, 5, 3] 2 5 = true ↔
      (2, 5) ∈ CellList.coords [0, 0, 1, 0, 1, 1, 2, 5, 3]) :=
  ⟨by decide, by decide, by decide,
    (IndexOf_spec [0, 0, 1, 0, 1, 1, 2, 5, 3] (by decide) (by decide) 2 5).2.2⟩

/-! ## Writing a state slot -/

namespace CellList

theorem getD_set_state0 (c : CellList) (m k : Nat) (v : Int) :
    (c.set (m * 3 + 2) v).getD (k * 3) 0 = c.getD (k * 3) 0 := by
  have h : m * 3 + 2 ≠ k * 3 := by omega
  simp [List.getD, List.getElem?_set_ne h]

theorem getD_set_state1 (c : CellList) (m k : Nat) (v : Int) :
    (c.set (m * 3 + 2) v).getD (k * 3 + 1) 0 = c.getD (k * 3 + 1) 0 := by
  have h : m * 3 + 2 ≠ k * 3 + 1 := by omega
  simp [List.getD, List.getElem?_set_ne h]

theorem search_congr (a c : CellList) (x y : Int)
    (h0 : ∀ k, a.getD (k * 3) 0 = c.getD (k * 3) 0)
    (h1 : ∀ k, a.getD (k * 3 + 1) 0 = c.getD (k * 3 + 1) 0) :
    ∀ fuel i j, IndexOf.search a x y fuel i j = IndexOf.search c x y fuel i j := by
  intro fuel
  induction fuel with
  | zero => intro i j; rfl
  | succ f ih =>
    intro i j
    simp only [IndexOf.search, h0, h1, ih]

theorem IndexOf_congr (a c : CellList) (x y : Int) (hl : a.length = c.length)
    (h0 : ∀ k, a.getD (k * 3) 0 = c.getD (k * 3) 0)
    (h1 : ∀ k, a.getD (k * 3 + 1) 0 = c.getD (k * 3 + 1) 0) :
    IndexOf a x y = IndexOf c x y := by
  unfold IndexOf
  simp only [hl, search_congr a c x y h0 h1, h0, h1]

theorem IndexOf_set_state (c : CellList) (m : Nat) (v x y : Int) :
    IndexOf (c.set (m * 3 + 2) v) x y = IndexOf c x y :=
  IndexOf_congr _ _ x y (by simp) (fun k => getD_set_state0 c m k v)
    (fun k => getD_set_state1 c m k v)

theorem records_set_state (c : CellList) (m : Nat) (v : Int) :
    records (c.set (m * 3 + 2) v) =
      (records c).set m (c.getD (m * 3) 0, c.getD (m * 3 + 1) 0, v) := by
  induction c using records.induct generalizing m with
  | case1 x y w rest ih =>
    cases m with
    | zero => simp [records]
    | succ k =>
      have e : (k + 1) * 3 + 2 = (k * 3 + 2) + 1 + 1 + 1 := by ring
      have e0 : (k + 1) * 3 = k * 3 + 3 := by ring
      have e1 : k * 3 + 3 + 1 = (k * 3 + 1) + 3 := by ring
      rw [e, e0, e1, getD_cons3, getD_cons3]
      simp only [List.set_cons_succ, records, ih k]
  | case2 c hc =>
    match c, hc with
    | [], _ => simp [records]
    | [_], _ => cases m <;> simp [records]
    | [_, _], _ => cases m <;> simp [records]
    | x :: y :: v :: rest, hc => exact absurd rfl (hc x y v rest)

theorem coords_set_state (c : CellList) (m : Nat) (v : Int) :
    coords (c.set (m * 3 + 2) v) = coords c := by
  unfold coords
  rw [records_set_state]
  apply List.ext_getElem
  · simp
  · intro k h1 h2
    simp only [List.length_map, List.length_set] at h1 h2
    simp only [List.getElem_map, List.getElem_set]
    split
    · rename_i h; subst h
      simp [records_getElem c m h2]
    · rfl

end CellList

theorem Sorted_of_coords (a c : CellList) (h : CellList.coords a = CellList.coords c)
    (hs : Sorted c) : Sorted a := by
  unfold Sorted at *
  have hc : (CellList.coords c).Pairwise
      (fun p q : Int × Int => p.1 < q.1 ∨ (p.1 = q.1 ∧ p.2 ≤ q.2)) := by
    unfold CellList.coords
    rw [List.pairwise_map]
    exact hs
  rw [← h] at hc
  unfold CellList.coords at hc
  rw [List.pairwise_map] at hc
  exact hc

theorem Sorted_set_state (c : CellList) (m : Nat) (v : Int) (hs : Sorted c) :
    Sorted (c.set (m * 3 + 2) v) :=
  Sorted_of_coords _ _ (CellList.coords_set_state c m v) hs

theorem NoDup_set_state (c : CellList) (m : Nat) (v : Int) (hd : NoDup c) :
    NoDup (c.set (m * 3 + 2) v) := by
  unfold NoDup at *
  rw [CellList.coords_set_state]; exact hd

/-- Writing the state slot of the record found at `(x, y)` changes the state
of that record and nothing else. -/
theorem records_set_found (c : CellList) (hd : NoDup c) (x y v : Int)
    (h : CellList.IndexOf c x y > -1) :
    CellList.records (c.set (CellList.IndexOf c x y + 2).toNat v) =
      putState (CellList.records c) x y v := by
  obtain ⟨m, _, hm, he, hx, hy⟩ := CellList.IndexOf_pos c x y h
  rw [he, CellList.records_set_state, hx, hy]
  unfold putState
  apply List.ext_getElem
  · simp
  · intro k h1 h2
    simp only [List.length_map, List.length_set] at h1 h2
    simp only [List.getElem_map, List.getElem_set]
    by_cases hk : m = k
    · subst hk
      rw [CellList.records_getElem c m h2, hx, hy]
      simp
    · rw [if_neg hk, if_neg]
      intro hc
      apply hk
      have hkc : k < (CellList.coords c).length := by simpa [CellList.coords] using h2
      have hmc : m < (CellList.coords c).length := by simpa [CellList.coords] using hm
      have e1 := CellList.coords_getElem c k hkc
      have e2 := CellList.coords_getElem c m hmc
      rw [CellList.records_getElem c k h2] at hc
      simp only at hc
      rw [hc.1, hc.2] at e1
      rw [hx, hy] at e2
      exact (List.Nodup.getElem_inj_iff hd).mp (e2.trans e1.symm)

/-- Nothing changes when no record is at `(x, y)`. -/
theorem putState_of_not_mem (rs : List (Int × Int × Int)) (x y v : Int)
    (h : (x, y) ∉ rs.map (fun r => (r.1, r.2.1))) : putState rs x y v = rs := by
  unfold putState
  conv_rhs => rw [← List.map_id rs]
  apply List.map_congr_left
  intro r hr
  rw [if_neg]
  · rfl
  · rintro ⟨h1, h2⟩
    exact h (List.mem_map.mpr ⟨r, hr, by rw [h1, h2]⟩)

theorem putState_coords (rs : List (Int × Int × Int)) (x y v : Int) :
    (putState rs x y v).map (fun r => (r.1, r.2.1)) = rs.map (fun r => (r.1, r.2.1)) := by
  unfold putState
  rw [List.map_map]
  apply List.map_congr_left
  intro r _
  simp only [Function.comp]
  split <;> rfl

/-! ## The sort -/

theorem cellLE_total (a b : Int × Int × Int) : cellLE a b ∨ cellLE b a := by
  unfold cellLE; omega

theorem cellLE_trans (a b c : Int × Int × Int) (h1 : cellLE a b) (h2 : cellLE b c) :
    cellLE a c := by
  unfold cellLE at *; omega

namespace CellList

theorem records_ofRecords_append (rs : List (Int × Int × Int)) (d : CellList) :
    records (ofRecords rs ++ d) = rs ++ records d := by
  rw [records_append _ _ (by rw [length_ofRecords]; omega), records_ofRecords]

theorem records_short (d : CellList) (h : d.length < 3) : records d = [] := by
  match d, h with
  | [], _ => rfl
  | [_], _ => rfl
  | [_, _], _ => rfl
  | _ :: _ :: _ :: _, h => simp at h; omega

/-- A flat list is its complete triples followed by what is left over. -/
theorem ofRecords_records_append_drop (c : CellList) :
    ofRecords (records c) ++ c.drop (3 * (records c).length) = c := by
  induction c using records.induct with
  | case1 x y v rest ih =>
    simp only [records, ofRecords, List.length_cons, List.cons_append]
    have e : 3 * ((records rest).length + 1) = 3 * (records rest).length + 1 + 1 + 1 := by ring
    rw [e]
    simp only [List.drop_succ_cons]
    rw [ih]
  | case2 c hc =>
    match c, hc with
    | [], _ => simp [records, ofRecords]
    | [_], _ => simp [records, ofRecords]
    | [_, _], _ => simp [records, ofRecords]
    | x :: y :: v :: rest, hc => exact absurd rfl (hc x y v rest)

end CellList

namespace simulationData

theorem block_length (nd : List Int) (i : Nat) (h : i * 8 + 8 ≤ nd.length) :
    (block nd i).length = 8 := by
  unfold block
  simp only [List.length_take, List.length_drop]
  omega

theorem blocks_flatten (nd : List Int) (n : Nat) :
    ((List.range n).map (block nd)).flatten = nd.take (8 * n) := by
  induction n with
  | zero => simp
  | succ k ih =>
    rw [List.range_succ, List.map_append, List.flatten_append, ih]
    simp only [List.map_cons, List.map_nil, List.flatten_cons, List.flatten_nil, List.append_nil]
    unfold block
    have e : 8 * (k + 1) = 8 * k + 8 := by ring
    rw [e, List.take_add, Nat.mul_comm k 8]

end simulationData

/-- `Less` is the strict order whose negation the sort establishes between
a record and its predecessors. -/
theorem Less_iff (c : CellList) (i j : Nat) (hi : i < (CellList.records c).length)
    (hj : j < (CellList.records c).length) :
    CellList.Less c i j = true ↔
      ¬ cellLE ((CellList.records c).get ⟨j, hj⟩) ((CellList.records c).get ⟨i, hi⟩) := by
  simp only [List.get_eq_getElem]
  rw [CellList.records_getElem c i hi, CellList.records_getElem c j hj]
  unfold CellList.Less cellLE
  simp only [Nat.add_zero, Bool.or_eq_true, Bool.and_eq_true, decide_eq_true_eq]
  constructor
  · intro h; omega
  · intro h; omega

/-- A store is sorted exactly when no record is `Less` than an earlier one. -/
theorem Sorted_iff_Less (c : CellList) :
    Sorted c ↔ ∀ i j, i < j → j < (CellList.records c).length → CellList.Less c j i = false := by
  unfold Sorted
  rw [List.pairwise_iff_getElem]
  constructor
  · intro h i j hij hj
    have hi : i < (CellList.records c).length := by omega
    have := h i j hi hj hij
    rw [Bool.eq_false_iff]
    intro hl
    exact (Less_iff c j i hj hi).mp hl this
  · intro h i j hi hj hij
    have := h i j hij hj
    by_contra hc
    have hl := (Less_iff c j i hj hi).mpr hc
    rw [this] at hl
    exact absurd hl (by simp)

/-- Two sorted arrangements of the same records, without duplicate
coordinates, are equal. -/
theorem sorted_perm_unique (l1 l2 : List (Int × Int × Int)) (hp : l1.Perm l2)
    (hd : (keys l1).Nodup) (h1 : l1.Pairwise cellLE) (h2 : l2.Pairwise cellLE) : l1 = l2 := by
  have hd2 : (keys l2).Nodup := (List.Perm.nodup_iff (hp.map _)).mp hd
  have strict : ∀ l : List (Int × Int × Int), (keys l).Nodup → l.Pairwise cellLE →
      l.Pairwise (fun a b => a.1 < b.1 ∨ (a.1 = b.1 ∧ a.2.1 < b.2.1)) := by
    intro l hn hl
    have hne : l.Pairwise (fun a b => (a.1, a.2.1) ≠ (b.1, b.2.1)) := by
      unfold keys at hn
      exact List.pairwise_map.mp hn
    refine (hl.and hne).imp ?_
    intro a b hab
    obtain ⟨h, hn⟩ := hab
    unfold cellLE at h
    simp only [ne_eq, Prod.mk.injEq, not_and] at hn
    omega
  haveI : IsAntisymm (Int × Int × Int)
      (fun a b => a.1 < b.1 ∨ (a.1 = b.1 ∧ a.2.1 < b.2.1)) :=
    ⟨fun a b hab hba => by exfalso; omega⟩
  exact List.eq_of_perm_of_sorted hp (strict l1 hd h1) (strict l2 hd2 h2)



theorem getD_set (c : CellList) (i k : Nat) (v : Int) :
    (c.set i v).getD k 0 = if i = k ∧ k < c.length then v else c.getD k 0 := by
  simp only [List.getD_eq_getElem?_getD, List.getElem?_set]
  by_cases h : i = k
  · subst h
    by_cases h2 : i < c.length
    · simp [h2]
    · simp [h2, List.getElem?_eq_none (Nat.le_of_not_lt h2)]
  · simp [h]

/-- `CellList.Swap` exchanges the triples of cells `i` and `j` and leaves
every other slot as it was. -/
theorem Swap_getD (c : CellList) (i j : Nat) (hi : i * 3 + 2 < c.length)
    (hj : j * 3 + 2 < c.length) (k t : Nat) (ht : t < 3) :
    (CellList.Swap c i j).getD (k * 3 + t) 0 =
      if k = i then c.getD (j * 3 + t) 0
      else if k = j then c.getD (i * 3 + t) 0
      else c.getD (k * 3 + t) 0 := by
  unfold CellList.Swap
  simp only [getD_set, List.length_set, Nat.add_zero]
  split_ifs <;> first | rfl | (exfalso; omega) | (congr 1; omega)

theorem Swap_length (c : CellList) (i j : Nat) : (CellList.Swap c i j).length = c.length := by
  unfold CellList.Swap
  simp only [List.length_set]

theorem Swap_records (c : CellList) (i j : Nat) (hi : i < (CellList.records c).length)
    (hj : j < (CellList.records c).length) :
    CellList.records (CellList.Swap c i j) =
      ((CellList.records c).set i ((CellList.records c).get ⟨j, hj⟩)).set j
        ((CellList.records c).get ⟨i, hi⟩) := by
  have hlen : (CellList.records (CellList.Swap c i j)).length = (CellList.records c).length := by
    rw [CellList.length_records, CellList.length_records, Swap_length]
  have hi3 : i * 3 + 2 < c.length := by rw [CellList.length_records] at hi; omega
  have hj3 : j * 3 + 2 < c.length := by rw [CellList.length_records] at hj; omega
  apply List.ext_getElem
  · simp [hlen]
  · intro k h1 h2
    have hk : k < (CellList.records c).length := by rw [← hlen]; exact h1
    rw [CellList.records_getElem _ k h1]
    have e0 := Swap_getD c i j hi3 hj3 k 0 (by omega)
    have e1 := Swap_getD c i j hi3 hj3 k 1 (by omega)
    have e2 := Swap_getD c i j hi3 hj3 k 2 (by omega)
    simp only [Nat.add_zero] at e0
    rw [e0, e1, e2]
    simp only [List.getElem_set, List.get_eq_getElem]
    have ri := CellList.records_getElem c i hi
    have rj := CellList.records_getElem c j hj
    have rk := CellList.records_getElem c k hk
    by_cases hkj : j = k
    · subst hkj
      by_cases hki : j = i
      · subst hki; simp [ri]
      · simp [hki, ri]
    · have hkj' : ¬ k = j := fun h => hkj h.symm
      by_cases hki : i = k
      · subst hki; simp [hkj, rj]
      · have hki' : ¬ k = i := fun h => hki h.symm
        simp only [hkj, hki, hkj', hki', if_false]
        exact rk.symm

theorem getD_append_take_drop (nd b : List Int) (p k : Nat) (hb : b.length = 8)
    (hp : p + 8 ≤ nd.length) :
    (nd.take p ++ b ++ nd.drop (p + 8)).getD k 0 =
      if p ≤ k ∧ k < p + 8 then b.getD (k - p) 0 else nd.getD k 0 := by
  simp only [List.getD_eq_getElem?_getD, List.append_assoc]
  by_cases h1 : k < p
  · rw [List.getElem?_append_left (by rw [List.length_take]; omega), List.getElem?_take_of_lt h1]
    rw [if_neg (by omega)]
  · have hl : (nd.take p).length = p := by rw [List.length_take]; omega
    rw [List.getElem?_append_right (by omega), hl]
    by_cases h2 : k < p + 8
    · rw [List.getElem?_append_left (by omega), if_pos ⟨by omega, h2⟩]
    · rw [List.getElem?_append_right (by omega), List.getElem?_drop, if_neg (by omega)]
      congr 2
      omega

theorem block_getD (nd : List Int) (i t : Nat) (ht : t < 8) :
    (simulationData.block nd i).getD t 0 = nd.getD (i * 8 + t) 0 := by
  unfold simulationData.block
  simp only [List.getD_eq_getElem?_getD, List.getElem?_take_of_lt ht, List.getElem?_drop]

/-- `simulationData.Swap` exchanges the records and the cache blocks of the
cells `i` and `j`. -/
theorem data_Swap_neighbours (s : simulationData) (i j : Nat)
    (hi : i * 8 + 8 ≤ s.neighbours.length) (hj : j * 8 + 8 ≤ s.neighbours.length)
    (k t : Nat) (ht : t < 8) :
    (s.Swap i j).neighbours.getD (k * 8 + t) 0 =
      if k = i then s.neighbours.getD (j * 8 + t) 0
      else if k = j then s.neighbours.getD (i * 8 + t) 0
      else s.neighbours.getD (k * 8 + t) 0 := by
  unfold simulationData.Swap
  simp only
  have hbi := simulationData.block_length s.neighbours i hi
  have hbj := simulationData.block_length s.neighbours j hj
  have hl1 : (s.neighbours.take (i * 8) ++ simulationData.block s.neighbours j ++
      s.neighbours.drop (i * 8 + 8)).length = s.neighbours.length := by
    simp only [List.length_append, List.length_take, List.length_drop, hbj]
    omega
  rw [getD_append_take_drop _ _ _ _ hbi (by rw [hl1]; exact hj),
    getD_append_take_drop _ _ _ _ hbj hi]
  by_cases hkj : k = j
  · subst hkj
    rw [if_pos (by omega), block_getD _ _ _ (by omega)]
    have e : i * 8 + (k * 8 + t - k * 8) = i * 8 + t := by omega
    rw [e]
    by_cases hki : k = i
    · subst hki; simp
    · simp [hki]
  · rw [if_neg (by omega)]
    by_cases hki : k = i
    · subst hki
      rw [if_pos (by omega), block_getD _ _ _ (by omega)]
      have e : j * 8 + (k * 8 + t - k * 8) = j * 8 + t := by omega
      rw [e]
      simp
    · rw [if_neg (by omega)]
      simp [hki, hkj]

/-- Exchanging two neighbouring entries of a list, written with `set`. -/
theorem set_set_adjacent (pre : List (Int × Int × Int)) (b x : Int × Int × Int)
    (post : List (Int × Int × Int)) :
    ((pre ++ b :: x :: post).set (pre.length + 1) b).set pre.length x =
      pre ++ x :: b :: post := by
  induction pre with
  | nil => rfl
  | cons a pre ih =>
    simp only [List.cons_append, List.length_cons, List.set_cons_succ, ih]

/-- `CellList.Swap(j+1, j)` exchanges the records `j` and `j+1`. -/
theorem Swap_records_adjacent (c : CellList) (pre post : List (Int × Int × Int))
    (b x : Int × Int × Int) (h : CellList.records c = pre ++ b :: x :: post) :
    CellList.records (CellList.Swap c (pre.length + 1) pre.length) =
      pre ++ x :: b :: post := by
  have hi : pre.length + 1 < (CellList.records c).length := by rw [h]; simp
  have hj : pre.length < (CellList.records c).length := by rw [h]; simp
  rw [Swap_records c _ _ hi hj]
  have e1 : (CellList.records c)[pre.length] = b := by
    rw [List.getElem_of_eq h, List.getElem_append_right (le_refl _)]
    simp
  have e2 : (CellList.records c)[pre.length + 1] = x := by
    rw [List.getElem_of_eq h, List.getElem_append_right (Nat.le_succ _)]
    simp
  simp only [List.get_eq_getElem]
  rw [e1, e2, h]
  exact set_set_adjacent pre b x post

/-- `Less(j+1, j)` holds exactly when record `j+1` has to move before record `j`. -/
theorem Less_adjacent (c : CellList) (pre post : List (Int × Int × Int))
    (b x : Int × Int × Int) (h : CellList.records c = pre ++ b :: x :: post) :
    CellList.Less c (pre.length + 1) pre.length = true ↔ ¬ cellLE b x := by
  have hi : pre.length + 1 < (CellList.records c).length := by rw [h]; simp
  have hj : pre.length < (CellList.records c).length := by rw [h]; simp
  rw [Less_iff c _ _ hi hj]
  have e1 : (CellList.records c)[pre.length] = b := by
    rw [List.getElem_of_eq h, List.getElem_append_right (le_refl _)]
    simp
  have e2 : (CellList.records c)[pre.length + 1] = x := by
    rw [List.getElem_of_eq h, List.getElem_append_right (Nat.le_succ _)]
    simp
  simp only [List.get_eq_getElem]
  rw [e1, e2]

namespace simulationData

theorem Len_eq (s : simulationData) : s.Len = (CellList.records s.cellData).length := by
  unfold simulationData.Len CellList.Len
  rw [CellList.length_records]

theorem Swap_cellData (s : simulationData) (i j : Nat) :
    (s.Swap i j).cellData = CellList.Swap s.cellData i j := rfl

theorem Swap_neighbours_length (s : simulationData) (i j : Nat)
    (hi : i * 8 + 8 ≤ s.neighbours.length) (hj : j * 8 + 8 ≤ s.neighbours.length) :
    (s.Swap i j).neighbours.length = s.neighbours.length := by
  unfold simulationData.Swap
  simp only
  have hbi := block_length s.neighbours i hi
  have hbj := block_length s.neighbours j hj
  have hl1 : (s.neighbours.take (i * 8) ++ block s.neighbours j ++
      s.neighbours.drop (i * 8 + 8)).length = s.neighbours.length := by
    simp only [List.length_append, List.length_take, List.length_drop, hbj]
    omega
  simp only [List.length_append, List.length_take, List.length_drop, hbi, hl1]
  omega

/-- The inner loop of the sort on the records: the record at `j` moves left
past every record it is `Less` than, up to the first one it is not. -/
theorem sink_records (j : Nat) :
    ∀ (s : simulationData) (pre post : List (Int × Int × Int)) (x : Int × Int × Int),
      CellList.records s.cellData = pre ++ x :: post → pre.length = j →
      CellList.records (SortCells.sink s j).cellData =
        (List.orderedInsert (fun a b => cellLE b a) x pre.reverse).reverse ++ post := by
  induction j with
  | zero =>
    intro s pre post x h hl
    have hp : pre = [] := List.length_eq_zero.mp hl
    subst hp
    simpa [SortCells.sink] using h
  | succ j ih =>
    intro s pre post x h hl
    rcases List.eq_nil_or_concat pre with hp | ⟨pre0, b, hp⟩
    · subst hp; simp at hl
    · rw [List.concat_eq_append] at hp
      subst hp
      have hl0 : pre0.length = j := by simpa using hl
      subst hl0
      have h2 : CellList.records s.cellData = pre0 ++ b :: x :: post := by
        rw [h]; simp
      have hless := Less_adjacent s.cellData pre0 post b x h2
      rw [List.reverse_append, List.reverse_singleton, List.singleton_append,
        List.orderedInsert]
      unfold SortCells.sink
      unfold simulationData.Less
      by_cases hc : CellList.Less s.cellData (pre0.length + 1) pre0.length = true
      · have hnb : ¬ cellLE b x := hless.mp hc
        rw [if_pos hc, if_neg hnb]
        have h3 : CellList.records (s.Swap (pre0.length + 1) pre0.length).cellData =
            pre0 ++ x :: b :: post := by
          rw [Swap_cellData]
          exact Swap_records_adjacent s.cellData pre0 post b x h2
        rw [ih _ pre0 (b :: post) x h3 rfl]
        simp
      · have hb : cellLE b x := by
          by_contra hn
          exact hc (hless.mpr hn)
        rw [if_neg hc, if_pos hb, h]
        simp

theorem sink_length (j : Nat) : ∀ s : simulationData,
    (SortCells.sink s j).cellData.length = s.cellData.length := by
  induction j with
  | zero => intro s; rfl
  | succ j ih =>
    intro s
    unfold SortCells.sink
    split
    · rw [ih, Swap_cellData, Swap_length]
    · rfl

theorem sink_fields (j : Nat) : ∀ s : simulationData,
    (SortCells.sink s j).tempData = s.tempData ∧
    (SortCells.sink s j).cellsChanged = s.cellsChanged ∧
    (SortCells.sink s j).staleNeighbours = s.staleNeighbours := by
  induction j with
  | zero => intro s; exact ⟨rfl, rfl, rfl⟩
  | succ j ih =>
    intro s
    unfold SortCells.sink
    split
    · exact ih _
    · exact ⟨rfl, rfl, rfl⟩

theorem sink_neighbours_length (j : Nat) : ∀ s : simulationData,
    j * 8 + 8 ≤ s.neighbours.length →
    (SortCells.sink s j).neighbours.length = s.neighbours.length := by
  induction j with
  | zero => intro s _; rfl
  | succ j ih =>
    intro s h
    unfold SortCells.sink
    split
    · have hs := Swap_neighbours_length s (j + 1) j h (by omega)
      rw [ih _ (by rw [hs]; omega), hs]
    · rfl

/-- On a store whose record `j` is not `Less` than its predecessor the inner
loop calls no `Swap`. -/
theorem sink_of_not_Less (s : simulationData) (j : Nat)
    (h : j = 0 ∨ CellList.Less s.cellData j (j - 1) = false) : SortCells.sink s j = s := by
  cases j with
  | zero => rfl
  | succ j =>
    rcases h with h | h
    · omega
    · unfold SortCells.sink simulationData.Less
      rw [Nat.add_sub_cancel] at h
      rw [h]
      rfl

theorem loop_length : ∀ (k i : Nat) (s : simulationData),
    (SortCells.loop k i s).cellData.length = s.cellData.length := by
  intro k
  induction k with
  | zero => intro i s; rfl
  | succ k ih =>
    intro i s
    unfold SortCells.loop
    rw [ih, sink_length]

theorem loop_fields : ∀ (k i : Nat) (s : simulationData),
    (SortCells.loop k i s).tempData = s.tempData ∧
    (SortCells.loop k i s).cellsChanged = s.cellsChanged ∧
    (SortCells.loop k i s).staleNeighbours = s.staleNeighbours := by
  intro k
  induction k with
  | zero => intro i s; exact ⟨rfl, rfl, rfl⟩
  | succ k ih =>
    intro i s
    unfold SortCells.loop
    obtain ⟨h1, h2, h3⟩ := ih (i + 1) (SortCells.sink s i)
    obtain ⟨g1, g2, g3⟩ := sink_fields i s
    exact ⟨h1.trans g1, h2.trans g2, h3.trans g3⟩

theorem loop_neighbours_length : ∀ (k i : Nat) (s : simulationData),
    (i + k) * 8 ≤ s.neighbours.length →
    (SortCells.loop k i s).neighbours.length = s.neighbours.length := by
  intro k
  induction k with
  | zero => intro i s _; rfl
  | succ k ih =>
    intro i s h
    unfold SortCells.loop
    have hs := sink_neighbours_length i s (by omega)
    rw [ih (i + 1) _ (by rw [hs]; omega), hs]

/-- The outer loop of the sort: with the first `i` records in order, the
rounds from `i` to the end leave all records in order, and rearrange them. -/
theorem loop_records : ∀ (k i : Nat) (s : simulationData),
    i + k = (CellList.records s.cellData).length →
    ((CellList.records s.cellData).take i).Pairwise cellLE →
    (CellList.records (SortCells.loop k i s).cellData).Pairwise cellLE ∧
    (CellList.records (SortCells.loop k i s).cellData).Perm (CellList.records s.cellData) := by
  intro k
  induction k with
  | zero =>
    intro i s hn hs
    rw [List.take_of_length_le (by omega)] at hs
    exact ⟨hs, List.Perm.refl _⟩
  | succ k ih =>
    intro i s hn hs
    have hi : i < (CellList.records s.cellData).length := by omega
    have hsplit : CellList.records s.cellData =
        (CellList.records s.cellData).take i ++
          (CellList.records s.cellData)[i] :: (CellList.records s.cellData).drop (i + 1) := by
      rw [← List.drop_eq_getElem_cons hi, List.take_append_drop]
    have hlen : ((CellList.records s.cellData).take i).length = i := by
      rw [List.length_take]; omega
    have hrec := sink_records i s _ _ _ hsplit hlen
    haveI : IsTotal (Int × Int × Int) (fun a b => cellLE b a) := ⟨fun a b => cellLE_total b a⟩
    haveI : IsTrans (Int × Int × Int) (fun a b => cellLE b a) :=
      ⟨fun a b c h1 h2 => cellLE_trans c b a h2 h1⟩
    have hsorted : (List.orderedInsert (fun a b => cellLE b a) (CellList.records s.cellData)[i]
        ((CellList.records s.cellData).take i).reverse).reverse.Pairwise cellLE := by
      rw [List.pairwise_reverse]
      exact List.Sorted.orderedInsert _ _ (List.pairwise_reverse.mpr hs)
    have hl1 : (List.orderedInsert (fun a b => cellLE b a) (CellList.records s.cellData)[i]
        ((CellList.records s.cellData).take i).reverse).reverse.length = i + 1 := by
      rw [List.length_reverse, List.orderedInsert_length, List.length_reverse, hlen]
    have hperm : (CellList.records (SortCells.sink s i).cellData).Perm
        (CellList.records s.cellData) := by
      rw [hrec]
      conv_rhs => rw [hsplit]
      have hp1 : (List.orderedInsert (fun a b => cellLE b a) (CellList.records s.cellData)[i]
          ((CellList.records s.cellData).take i).reverse).reverse.Perm
          ((CellList.records s.cellData)[i] :: (CellList.records s.cellData).take i) :=
        (List.reverse_perm _).trans
          ((List.perm_orderedInsert _ _ _).trans (List.Perm.cons _ (List.reverse_perm _)))
      refine (List.Perm.append_right _ hp1).trans ?_
      simp only [List.cons_append]
      exact List.perm_middle.symm
    unfold SortCells.loop
    have hn2 : i + 1 + k = (CellList.records (SortCells.sink s i).cellData).length := by
      rw [hperm.length_eq]; omega
    have hs2 : ((CellList.records (SortCells.sink s i).cellData).take (i + 1)).Pairwise cellLE := by
      rw [hrec, List.take_left' hl1]
      exact hsorted
    obtain ⟨h1, h2⟩ := ih (i + 1) _ hn2 hs2
    exact ⟨h1, h2.trans hperm⟩

theorem loop_of_sorted : ∀ (k i : Nat) (s : simulationData),
    i + k ≤ (CellList.records s.cellData).length → Sorted s.cellData →
    SortCells.loop k i s = s := by
  intro k
  induction k with
  | zero => intro i s _ _; rfl
  | succ k ih =>
    intro i s hn hs
    unfold SortCells.loop
    have e : SortCells.sink s i = s := by
      apply sink_of_not_Less
      by_cases h0 : i = 0
      · exact Or.inl h0
      · exact Or.inr ((Sorted_iff_Less s.cellData).mp hs (i - 1) i (by omega) (by omega))
    rw [e]
    exact ih (i + 1) s (by omega) hs

theorem SortCells_sorted (s : simulationData) : Sorted (SortCells s).cellData := by
  unfold Sorted SortCells
  rw [Len_eq]
  by_cases h0 : (CellList.records s.cellData).length = 0
  · rw [h0]
    have : CellList.records s.cellData = [] := List.length_eq_zero.mp h0
    show (CellList.records s.cellData).Pairwise cellLE
    rw [this]
    exact List.Pairwise.nil
  · refine (loop_records _ 1 s (by omega) ?_).1
    match CellList.records s.cellData with
    | [] => exact List.Pairwise.nil
    | a :: l => simp

theorem SortCells_perm (s : simulationData) :
    (CellList.records (SortCells s).cellData).Perm (CellList.records s.cellData) := by
  unfold SortCells
  rw [Len_eq]
  by_cases h0 : (CellList.records s.cellData).length = 0
  · rw [h0]
    exact List.Perm.refl _
  · refine (loop_records _ 1 s (by omega) ?_).2
    match CellList.records s.cellData with
    | [] => exact List.Pairwise.nil
    | a :: l => simp

theorem SortCells_length (s : simulationData) :
    (SortCells s).cellData.length = s.cellData.length :=
  loop_length _ _ s

theorem SortCells_tempData (s : simulationData) : (SortCells s).tempData = s.tempData :=
  (loop_fields _ _ s).1

theorem SortCells_stale (s : simulationData) :
    (SortCells s).staleNeighbours = s.staleNeighbours :=
  (loop_fields _ _ s).2.2

theorem SortCells_changed (s : simulationData) :
    (SortCells s).cellsChanged = s.cellsChanged :=
  (loop_fields _ _ s).2.1

/-- With a cache of at least eight entries per cell, sorting keeps its length. -/
theorem SortCells_neighbours_length (s : simulationData)
    (h : 8 * (CellList.records s.cellData).length ≤ s.neighbours.length) :
    (SortCells s).neighbours.length = s.neighbours.length := by
  unfold SortCells
  rw [Len_eq]
  by_cases h0 : (CellList.records s.cellData).length = 0
  · rw [h0]; rfl
  · exact loop_neighbours_length _ 1 s (by omega)

/-- Sorting a sorted store changes nothing. -/
theorem SortCells_of_sorted (s : simulationData) (hs : Sorted s.cellData) : SortCells s = s := by
  unfold SortCells
  rw [Len_eq]
  by_cases h0 : (CellList.records s.cellData).length = 0
  · rw [h0]; rfl
  · exact loop_of_sorted _ 1 s (by omega) hs

end simulationData

/-- For a duplicate-free store the result of the sort is the only sorted
arrangement of its records. -/
theorem SortCells_unique (s : simulationData) (hd : NoDup s.cellData)
    (l : List (Int × Int × Int)) (hp : l.Perm (CellList.records s.cellData))
    (hl : l.Pairwise cellLE) : CellList.records s.SortCells.cellData = l := by
  apply sorted_perm_unique
  · exact (simulationData.SortCells_perm s).trans hp.symm
  · exact (List.Perm.nodup_iff ((simulationData.SortCells_perm s).map _)).mpr hd
  · exact simulationData.SortCells_sorted s
  · exact hl

/-! ## Stores as finite maps -/

theorem mem_putState (rs : List (Int × Int × Int)) (x y w a b v : Int) :
    (a, b, v) ∈ putState rs x y w ↔
      if a = x ∧ b = y then v = w ∧ (x, y) ∈ rs.map (fun r => (r.1, r.2.1))
      else (a, b, v) ∈ rs := by
  unfold putState
  rw [List.mem_map]
  constructor
  · rintro ⟨r, hr, he⟩
    by_cases hc : r.1 = x ∧ r.2.1 = y
    · rw [if_pos hc] at he
      simp only [Prod.mk.injEq] at he
      obtain ⟨h1, h2, h3⟩ := he
      have hab : a = x ∧ b = y := ⟨by rw [← h1, hc.1], by rw [← h2, hc.2]⟩
      rw [if_pos hab]
      exact ⟨h3.symm, List.mem_map.mpr ⟨r, hr, by rw [hc.1, hc.2]⟩⟩
    · rw [if_neg hc] at he
      subst he
      rw [if_neg hc]
      exact hr
  · intro h
    by_cases hab : a = x ∧ b = y
    · rw [if_pos hab] at h
      obtain ⟨hv, hm⟩ := h
      rw [List.mem_map] at hm
      obtain ⟨r, hr, hrxy⟩ := hm
      simp only [Prod.mk.injEq] at hrxy
      refine ⟨r, hr, ?_⟩
      rw [if_pos hrxy, hrxy.1, hrxy.2, hab.1, hab.2, hv]
    · rw [if_neg hab] at h
      exact ⟨(a, b, v), h, by rw [if_neg hab]⟩

theorem stateAt_eq_some_iff (c : CellList) (hs : Sorted c) (hd : NoDup c) (x y v : Int) :
    stateAt c x y = some v ↔ (x, y, v) ∈ CellList.records c :=
  ⟨stateAt_mem c hs x y v, stateAt_of_mem c hs hd x y v⟩

theorem stateAt_isSome_iff (c : CellList) (hs : Sorted c) (x y : Int) :
    (stateAt c x y).isSome = true ↔ (x, y) ∈ CellList.coords c := by
  have := stateAt_eq_none c hs x y
  rw [← not_iff_not, ← this]
  cases stateAt c x y <;> simp

theorem stateAt_isSome_iff_IndexOf (c : CellList) (x y : Int) (hs : Sorted c) :
    (stateAt c x y).isSome = true ↔ CellList.IndexOf c x y > -1 := by
  rcases CellList.IndexOf_sorted c hs x y with ⟨h1, _⟩ | ⟨m, h1, h2, _⟩
  · simp [stateAt, h1]
  · rw [stateAt_of_found c x y m h1 h2]
    simp only [Option.isSome_some, true_iff]
    omega

theorem StoreOK_set_state (c : CellList) (m : Nat) (v : Int) (h : StoreOK c) :
    StoreOK (c.set (m * 3 + 2) v) :=
  ⟨by rw [List.length_set]; exact h.1, Sorted_set_state c m v h.2.1, NoDup_set_state c m v h.2.2⟩

theorem StoreOK_set_found (c : CellList) (x y v : Int) (h : StoreOK c)
    (hf : CellList.IndexOf c x y > -1) :
    StoreOK (c.set (CellList.IndexOf c x y + 2).toNat v) := by
  obtain ⟨m, _, _, he, _⟩ := CellList.IndexOf_pos c x y hf
  rw [he]
  exact StoreOK_set_state c m v h

/-! ## Set -/

theorem Set_cellData_found (s : simulationData) (x y st : Int) (hs : Sorted s.cellData)
    (hf : CellList.IndexOf s.cellData x y > -1) :
    (sim.Set s x y st).cellData = s.cellData.set (CellList.IndexOf s.cellData x y + 2).toNat st := by
  unfold sim.Set simulationData.Set
  simp only [hf, if_true]
  rw [simulationData.SortCells_of_sorted]
  obtain ⟨m, _, _, he, _⟩ := CellList.IndexOf_pos s.cellData x y hf
  simp only [he]
  exact Sorted_set_state _ _ _ hs

theorem Set_cellData_noop (s : simulationData) (x y st : Int) (hs : Sorted s.cellData)
    (hf : ¬ CellList.IndexOf s.cellData x y > -1) (he : st = CellEmpty) :
    sim.Set s x y st = s := by
  unfold sim.Set simulationData.Set
  simp only [hf, if_false, he, if_true]
  exact simulationData.SortCells_of_sorted s hs

theorem Set_records_new (s : simulationData) (x y st : Int) (h3 : s.cellData.length % 3 = 0)
    (hf : ¬ CellList.IndexOf s.cellData x y > -1) (he : st ≠ CellEmpty) :
    (CellList.records (sim.Set s x y st).cellData).Perm
      (CellList.records s.cellData ++ [(x, y, st)]) ∧
    (sim.Set s x y st).cellData.length = s.cellData.length + 3 := by
  unfold sim.Set simulationData.Set
  simp only [hf, if_false, he]
  constructor
  · refine (simulationData.SortCells_perm _).trans ?_
    simp only
    rw [CellList.records_append _ _ h3]
    exact List.Perm.refl _
  · rw [simulationData.SortCells_length]
    simp

/-- Package-level `Set` keeps the store well formed and acts on it as on a
finite map: it binds `(x, y)` to `st`, unless `(x, y)` is absent and `st` is
`CellEmpty`. -/
theorem Set_stateAt (s : simulationData) (x y st : Int) (h : StoreOK s.cellData) :
    StoreOK (sim.Set s x y st).cellData ∧
    ∀ a b, stateAt (sim.Set s x y st).cellData a b =
      if a = x ∧ b = y then
        (if (stateAt s.cellData x y).isSome = true ∨ st ≠ CellEmpty then some st else none)
      else stateAt s.cellData a b := by
  obtain ⟨h3, hs, hd⟩ := h
  by_cases hf : CellList.IndexOf s.cellData x y > -1
  · have hc := Set_cellData_found s x y st hs hf
    have hok := StoreOK_set_found s.cellData x y st ⟨h3, hs, hd⟩ hf
    rw [hc]
    refine ⟨hok, fun a b => ?_⟩
    have hsome : (stateAt s.cellData x y).isSome = true :=
      (stateAt_isSome_iff_IndexOf _ x y hs).mpr hf
    have hmem : (x, y) ∈ CellList.coords s.cellData := (stateAt_isSome_iff _ hs x y).mp hsome
    apply Option.ext
    intro v
    simp only [Option.mem_def]
    rw [stateAt_eq_some_iff _ hok.2.1 hok.2.2, records_set_found _ hd x y st hf, mem_putState]
    by_cases hab : a = x ∧ b = y
    · simp only [hab, and_self, if_true, hsome, true_or]
      constructor
      · rintro ⟨hv, _⟩; rw [hv]
      · intro hv; exact ⟨(Option.some.inj hv).symm, hmem⟩
    · simp only [hab, if_false]
      exact (stateAt_eq_some_iff _ hs hd a b v).symm
  · have hnone : stateAt s.cellData x y = none := by
      unfold stateAt; rw [if_neg hf]
    have hnm : (x, y) ∉ CellList.coords s.cellData := (stateAt_eq_none _ hs x y).mp hnone
    by_cases he : st = CellEmpty
    · rw [Set_cellData_noop s x y st hs hf he]
      refine ⟨⟨h3, hs, hd⟩, fun a b => ?_⟩
      by_cases hab : a = x ∧ b = y
      · simp [hab, hnone, he]
      · simp [hab]
    · obtain ⟨hp, hl⟩ := Set_records_new s x y st h3 hf he
      have hok : StoreOK (sim.Set s x y st).cellData := by
        refine ⟨by omega, simulationData.SortCells_sorted _, ?_⟩
        unfold NoDup CellList.coords
        refine (List.Perm.nodup_iff (hp.map _)).mpr ?_
        rw [List.map_append, List.nodup_append]
        refine ⟨hd, by simp, ?_⟩
        intro p hp1 hp2
        simp only [List.map_cons, List.map_nil, List.mem_singleton] at hp2
        subst hp2
        exact hnm hp1
      refine ⟨hok, fun a b => ?_⟩
      apply Option.ext
      intro v
      simp only [Option.mem_def]
      rw [stateAt_eq_some_iff _ hok.2.1 hok.2.2, hp.mem_iff, List.mem_append,
        List.mem_singleton]
      by_cases hab : a = x ∧ b = y
      · have hcond : (stateAt s.cellData x y).isSome = true ∨ st ≠ CellEmpty := Or.inr he
        simp only [hab, and_self, if_true, if_pos hcond]
        constructor
        · rintro (hm | hm)
          · exact absurd (List.mem_map.mpr ⟨_, hm, rfl⟩) hnm
          · simp only [Prod.mk.injEq, true_and] at hm; rw [hm]
        · intro hv; right; rw [Option.some.inj hv]
      · simp only [hab, if_false]
        rw [stateAt_eq_some_iff _ hs hd]
        constructor
        · rintro (hm | hm)
          · exact hm
          · simp only [Prod.mk.injEq] at hm
            exact absurd ⟨hm.1, hm.2.1⟩ hab
        · intro hm; exact Or.inl hm

/-! ## Sequences of Set calls -/

theorem StoreOK_nil : StoreOK [] := by decide

/-- What `stateAt` returning a state says about `IndexOf`. -/
theorem stateAt_some_unfold (c : CellList) (x y v : Int) (h : stateAt c x y = some v) :
    ∃ n : Nat, CellList.IndexOf c x y = (n : Int) ∧ c.get? n = some x ∧
      c.get? (n + 1) = some y ∧ c.get? (n + 2) = some v := by
  unfold stateAt at h
  by_cases hf : CellList.IndexOf c x y > -1
  · rw [if_pos hf] at h
    obtain ⟨m, h1, hm, he, hx, hy⟩ := CellList.IndexOf_pos c x y hf
    have hlen : m * 3 + 3 ≤ c.length := by rw [CellList.length_records] at hm; omega
    rw [he] at h
    refine ⟨m * 3, h1, ?_, ?_, h⟩
    · rw [← hx]; simp [List.getD, List.getElem?_eq_getElem (show m * 3 < c.length by omega)]
    · rw [← hy]; simp [List.getD, List.getElem?_eq_getElem (show m * 3 + 1 < c.length by omega)]
  · rw [if_neg hf] at h; exact absurd h (by simp)

theorem stateAt_none_unfold (c : CellList) (x y : Int) (hs : Sorted c)
    (h : stateAt c x y = none) : CellList.IndexOf c x y = -1 := by
  rcases CellList.IndexOf_sorted c hs x y with ⟨h1, _⟩ | ⟨m, h1, h2, _⟩
  · exact h1
  · rw [stateAt_of_found c x y m h1 h2] at h; exact absurd h (by simp)

theorem runSets_snoc (s : simulationData) (calls : List (Int × Int × Int))
    (c : Int × Int × Int) :
    runSets s (calls ++ [c]) = sim.Set (runSets s calls) c.1 c.2.1 c.2.2 := by
  unfold runSets
  rw [List.foldl_append]
  rfl

theorem lastSet_snoc (calls : List (Int × Int × Int)) (c : Int × Int × Int) (x y : Int) :
    lastSet (calls ++ [c]) x y =
      if c.1 = x ∧ c.2.1 = y then some c.2.2 else lastSet calls x y := by
  unfold lastSet
  rw [List.reverse_append]
  simp only [List.reverse_cons, List.reverse_nil, List.nil_append, List.singleton_append,
    List.find?_cons]
  by_cases h : c.1 = x ∧ c.2.1 = y
  · simp [h]
  · simp [h]

theorem everSet_snoc (calls : List (Int × Int × Int)) (c : Int × Int × Int) (x y : Int) :
    everSet (calls ++ [c]) x y =
      (everSet calls x y || decide (c.1 = x ∧ c.2.1 = y ∧ c.2.2 ≠ CellEmpty)) := by
  unfold everSet
  simp [List.any_append]

theorem lastSet_isSome_of_everSet (calls : List (Int × Int × Int)) (x y : Int)
    (h : everSet calls x y = true) : (lastSet calls x y).isSome = true := by
  unfold everSet at h
  rw [List.any_eq_true] at h
  obtain ⟨c, hc, hp⟩ := h
  simp only [decide_eq_true_eq] at hp
  unfold lastSet
  rw [Option.isSome_map', List.find?_isSome]
  exact ⟨c, List.mem_reverse.mpr hc, by simp [hp.1, hp.2.1]⟩

/-- After any sequence of `Set` calls the store is well formed and binds
`(x, y)` to the state of the last call at `(x, y)`, provided some call there
had a state other than `CellEmpty`. -/
theorem runSets_stateAt (calls : List (Int × Int × Int)) :
    StoreOK (runSets empty calls).cellData ∧
    ∀ x y, stateAt (runSets empty calls).cellData x y =
      if everSet calls x y = true then lastSet calls x y else none := by
  induction calls using List.reverseRecOn with
  | nil =>
    refine ⟨StoreOK_nil, fun x y => ?_⟩
    simp [runSets, empty, stateAt, CellList.IndexOf, everSet]
  | append_singleton calls c ih =>
    obtain ⟨hok, hst⟩ := ih
    rw [runSets_snoc]
    obtain ⟨hok2, hst2⟩ := Set_stateAt (runSets empty calls) c.1 c.2.1 c.2.2 hok
    refine ⟨hok2, fun x y => ?_⟩
    rw [hst2 x y, lastSet_snoc, everSet_snoc]
    by_cases hxy : c.1 = x ∧ c.2.1 = y
    · have hxy' : x = c.1 ∧ y = c.2.1 := ⟨hxy.1.symm, hxy.2.symm⟩
      rw [if_pos hxy', if_pos hxy, hst c.1 c.2.1]
      obtain ⟨rfl, rfl⟩ := hxy'
      by_cases he : everSet calls c.1 c.2.1 = true
      · have := lastSet_isSome_of_everSet calls _ _ he
        simp [he, this]
      · simp [he]
    · have hxy' : ¬ (x = c.1 ∧ y = c.2.1) := fun h => hxy ⟨h.1.symm, h.2.symm⟩
      rw [if_neg hxy', if_neg hxy, hst x y]
      have hd : decide (c.1 = x ∧ c.2.1 = y ∧ c.2.2 ≠ CellEmpty) = false := by
        rw [decide_eq_false_iff_not]
        exact fun h => hxy ⟨h.1, h.2.1⟩
      rw [hd, Bool.or_false]

/-- C3: after any finite sequence of package-level `Set` calls on the empty
engine, `IndexOf` at `(x, y)` returns `-1` when no call set `(x, y)` to a
state other than `CellEmpty` (never set, or only set to empty while absent),
and otherwise finds a record at `(x, y)` whose state is the one of the most
recent call at `(x, y)`. -/
theorem Set_sequence_lookup (calls : List (Int × Int × Int)) (x y : Int) :
    (everSet calls x y = false →
      CellList.IndexOf (runSets empty calls).cellData x y = -1) ∧
    (everSet calls x y = true →
      ∃ (n : Nat) (st : Int), lastSet calls x y = some st ∧
        CellList.IndexOf (runSets empty calls).cellData x y = (n : Int) ∧
        (runSets empty calls).cellData.get? n = some x ∧
        (runSets empty calls).cellData.get? (n + 1) = some y ∧
        (runSets empty calls).cellData.get? (n + 2) = some st) := by
  obtain ⟨hok, hst⟩ := runSets_stateAt calls
  constructor
  · intro h
    apply stateAt_none_unfold _ x y hok.2.1
    rw [hst x y, h]; rfl
  · intro h
    have h1 := hst x y
    rw [if_pos h] at h1
    obtain ⟨st, hl⟩ := Option.isSome_iff_exists.mp (lastSet_isSome_of_everSet calls x y h)
    rw [hl] at h1
    obtain ⟨n, hn⟩ := stateAt_some_unfold _ x y st h1
    exact ⟨n, st, hl, hn⟩

theorem Set_sequence_lookup_witness :
    everSet [(1, 0, 1), (0, 0, 2), (1, 0, 0), (0, 0, 3)] 0 0 = true ∧
    lastSet [(1, 0, 1), (0, 0, 2), (1, 0, 0), (0, 0, 3)] 0 0 = some 3 ∧
    (runSets empty [(1, 0, 1), (0, 0, 2), (1, 0, 0), (0, 0, 3)]).cellData = [0, 0, 3, 1, 0, 0] ∧
    ∃ (n : Nat) (st : Int), lastSet [(1, 0, 1), (0, 0, 2), (1, 0, 0), (0, 0, 3)] 0 0 = some st ∧
      CellList.IndexOf (runSets empty [(1, 0, 1), (0, 0, 2), (1, 0, 0), (0, 0, 3)]).cellData 0 0
        = (n : Int) ∧
      (runSets empty [(1, 0, 1), (0, 0, 2), (1, 0, 0), (0, 0, 3)]).cellData.get? n = some 0 ∧
      (runSets empty [(1, 0, 1), (0, 0, 2), (1, 0, 0), (0, 0, 3)]).cellData.get? (n + 1) = some 0 ∧
      (runSets empty [(1, 0, 1), (0, 0, 2), (1, 0, 0), (0, 0, 3)]).cellData.get? (n + 2) = some st :=
  ⟨by decide, by decide, by decide,
    (Set_sequence_lookup [(1, 0, 1), (0, 0, 2), (1, 0, 0), (0, 0, 3)] 0 0).2 (by decide)⟩

/-! ## Load -/

theorem wrap32_add_inj (a b x : Int) (ha : isInt32 a) (hb : isInt32 b)
    (h : wrap32 (a + x) = wrap32 (b + x)) : a = b := by
  unfold wrap32 at h
  unfold isInt32 at ha hb
  omega

theorem wrap32_of_isInt32 (v : Int) (h : isInt32 v) : wrap32 v = v := by
  unfold wrap32
  unfold isInt32 at h
  omega

theorem wrap32_isInt32 (v : Int) : isInt32 (wrap32 v) := by
  unfold wrap32 isInt32
  omega

namespace CellList

theorem getD_of_coords (a c : CellList) (hl : a.length = c.length) (h3 : c.length % 3 = 0)
    (hc : coords a = coords c) (k : Nat) :
    a.getD (k * 3) 0 = c.getD (k * 3) 0 ∧ a.getD (k * 3 + 1) 0 = c.getD (k * 3 + 1) 0 := by
  by_cases hk : k < (coords c).length
  · have hk' : k < (coords a).length := by rw [hc]; exact hk
    have e1 := coords_getElem a k hk'
    have e2 := coords_getElem c k hk
    have : (coords a)[k] = (coords c)[k] := by simp only [hc]
    rw [e1, e2] at this
    simp only [Prod.mk.injEq] at this
    exact this
  · have hk2 : c.length ≤ k * 3 := by
      simp only [coords, List.length_map, length_records] at hk
      omega
    have hk3 : a.length ≤ k * 3 := by omega
    rw [List.getD_eq_default _ _ hk2, List.getD_eq_default _ _ hk3,
      List.getD_eq_default _ _ (by omega : c.length ≤ k * 3 + 1),
      List.getD_eq_default _ _ (by omega : a.length ≤ k * 3 + 1)]
    exact ⟨rfl, rfl⟩

theorem IndexOf_of_coords (a c : CellList) (hl : a.length = c.length) (h3 : c.length % 3 = 0)
    (hc : coords a = coords c) (x y : Int) : IndexOf a x y = IndexOf c x y :=
  IndexOf_congr a c x y hl (fun k => (getD_of_coords a c hl h3 hc k).1)
    (fun k => (getD_of_coords a c hl h3 hc k).2)

end CellList

/-- The loop of `Load` on a list made of a part `a` with the coordinates of
`c1` and an appended part `b`: found records are overwritten in `a`, the
others are appended. -/
theorem Load_loop_records (c1 : CellList) (x y : Int) (h3 : c1.length % 3 = 0)
    (hs : Sorted c1) (hd : NoDup c1) :
    ∀ (c2 a b : CellList), a.length = c1.length → CellList.coords a = CellList.coords c1 →
      b.length % 3 = 0 →
      (CellList.Load.loop c1 x y (a ++ b) c2).length % 3 = 0 ∧
      CellList.records (CellList.Load.loop c1 x y (a ++ b) c2) =
        (offsetRecs x y c2).foldl (fun acc q => putState acc q.1 q.2.1 q.2.2)
            (CellList.records a) ++
          (CellList.records b ++
            (offsetRecs x y c2).filter (fun q => decide ((q.1, q.2.1) ∉ CellList.coords c1))) := by
  intro c2
  induction c2 using CellList.records.induct with
  | case1 px py cv rest ih =>
    intro a b hl hc hb
    have ha3 : a.length % 3 = 0 := by omega
    by_cases hf : CellList.IndexOf c1 (wrap32 (px + x)) (wrap32 (py + y)) > -1
    · obtain ⟨m, h1, hm, he, _, _⟩ := CellList.IndexOf_pos c1 _ _ hf
      have hlt : m * 3 + 2 < a.length := by
        rw [CellList.length_records] at hm; omega
      have hmem : (wrap32 (px + x), wrap32 (py + y)) ∈ CellList.coords c1 := by
        rcases CellList.IndexOf_sorted c1 hs (wrap32 (px + x)) (wrap32 (py + y)) with ⟨h, _⟩ | h
        · omega
        · obtain ⟨k, _, hk, hx, hy, _⟩ := h
          have := CellList.mem_coords_of_lt c1 k hk
          rw [hx, hy] at this; exact this
      have e : CellList.Load.loop c1 x y (a ++ b) (px :: py :: cv :: rest) =
          CellList.Load.loop c1 x y (a.set (m * 3 + 2) cv ++ b) rest := by
        simp only [CellList.Load.loop, hf, if_true, he]
        rw [List.set_append_left _ _ hlt]
      have hia : CellList.IndexOf a (wrap32 (px + x)) (wrap32 (py + y)) =
          CellList.IndexOf c1 (wrap32 (px + x)) (wrap32 (py + y)) :=
        CellList.IndexOf_of_coords a c1 hl h3 hc _ _
      have hda : NoDup a := by unfold NoDup; rw [hc]; exact hd
      have hra : CellList.records (a.set (m * 3 + 2) cv) =
          putState (CellList.records a) (wrap32 (px + x)) (wrap32 (py + y)) cv := by
        have := records_set_found a hda (wrap32 (px + x)) (wrap32 (py + y)) cv (by rw [hia]; exact hf)
        rw [hia, he] at this
        exact this
      rw [e]
      have := ih (a.set (m * 3 + 2) cv) b (by rw [List.length_set]; exact hl)
        (by rw [CellList.coords_set_state]; exact hc) hb
      refine ⟨this.1, ?_⟩
      rw [this.2, hra]
      simp only [offsetRecs, CellList.records, List.map_cons, List.foldl_cons, List.filter_cons]
      simp [hmem]
    · have hnm : (wrap32 (px + x), wrap32 (py + y)) ∉ CellList.coords c1 := by
        rcases CellList.IndexOf_sorted c1 hs (wrap32 (px + x)) (wrap32 (py + y)) with ⟨_, h⟩ | h
        · exact h
        · obtain ⟨k, hk, _⟩ := h
          omega
      have e : CellList.Load.loop c1 x y (a ++ b) (px :: py :: cv :: rest) =
          CellList.Load.loop c1 x y
            (a ++ (b ++ [wrap32 (px + x), wrap32 (py + y), cv])) rest := by
        simp only [CellList.Load.loop, hf, if_false, List.append_assoc]
      rw [e]
      have := ih a (b ++ [wrap32 (px + x), wrap32 (py + y), cv]) hl hc
        (by simp only [List.length_append, List.length_cons, List.length_nil]; omega)
      refine ⟨this.1, ?_⟩
      rw [this.2, CellList.records_append b _ hb]
      have hput : putState (CellList.records a) (wrap32 (px + x)) (wrap32 (py + y)) cv =
          CellList.records a :=
        putState_of_not_mem _ _ _ _ (by
          have : (CellList.records a).map (fun r => (r.1, r.2.1)) = CellList.coords a := rfl
          rw [this, hc]; exact hnm)
      simp only [offsetRecs, CellList.records, List.map_cons, List.foldl_cons, List.filter_cons,
        hput]
      simp [hnm]
  | case2 c2 hc2 =>
    intro a b hl hc hb
    have hr : CellList.records c2 = [] := by
      match c2, hc2 with
      | [], _ => rfl
      | [_], _ => rfl
      | [_, _], _ => rfl
      | p :: q :: v :: rest, hc2 => exact absurd rfl (hc2 p q v rest)
    have e : CellList.Load.loop c1 x y (a ++ b) c2 = a ++ b := by
      match c2, hc2 with
      | [], _ => rfl
      | [_], _ => rfl
      | [_, _], _ => rfl
      | p :: q :: v :: rest, hc2 => exact absurd rfl (hc2 p q v rest)
    rw [e]
    refine ⟨by simp only [List.length_append]; omega, ?_⟩
    rw [CellList.records_append a b (by omega)]
    simp [offsetRecs, hr]

theorem keys_putState (rs : List (Int × Int × Int)) (x y v : Int) :
    keys (putState rs x y v) = keys rs := putState_coords rs x y v

theorem keys_foldl_putState (offs rs : List (Int × Int × Int)) :
    keys (offs.foldl (fun acc q => putState acc q.1 q.2.1 q.2.2) rs) = keys rs := by
  induction offs generalizing rs with
  | nil => rfl
  | cons q offs ih => rw [List.foldl_cons, ih, keys_putState]

theorem mem_keys_of_mem (rs : List (Int × Int × Int)) (a b v : Int) (h : (a, b, v) ∈ rs) :
    (a, b) ∈ keys rs := List.mem_map.mpr ⟨_, h, rfl⟩

theorem mem_foldl_putState (offs : List (Int × Int × Int)) (hn : (keys offs).Nodup) :
    ∀ (rs : List (Int × Int × Int)) (a b v : Int),
      (a, b, v) ∈ offs.foldl (fun acc q => putState acc q.1 q.2.1 q.2.2) rs ↔
        if (a, b) ∈ keys offs then (a, b) ∈ keys rs ∧ (a, b, v) ∈ offs else (a, b, v) ∈ rs := by
  induction offs with
  | nil => intro rs a b v; simp [keys]
  | cons q offs ih =>
    intro rs a b v
    have hq : (q.1, q.2.1) ∉ keys offs := (List.nodup_cons.mp hn).1
    have hn2 : (keys offs).Nodup := (List.nodup_cons.mp hn).2
    rw [List.foldl_cons, ih hn2, keys_putState, mem_putState]
    by_cases hin : (a, b) ∈ keys offs
    · have hne : ¬ (a = q.1 ∧ b = q.2.1) := by
        rintro ⟨h1, h2⟩; rw [h1, h2] at hin; exact hq hin
      have hin2 : (a, b) ∈ keys (q :: offs) := List.mem_cons_of_mem _ hin
      rw [if_pos hin, if_pos hin2]
      constructor
      · rintro ⟨h1, h2⟩; exact ⟨h1, List.mem_cons_of_mem _ h2⟩
      · rintro ⟨h1, h2⟩
        refine ⟨h1, ?_⟩
        rcases List.mem_cons.mp h2 with h | h
        · exfalso; apply hne; rw [← h]; exact ⟨rfl, rfl⟩
        · exact h
    · rw [if_neg hin]
      by_cases hab : a = q.1 ∧ b = q.2.1
      · have hin2 : (a, b) ∈ keys (q :: offs) := by
          rw [hab.1, hab.2]; exact List.mem_cons_self _ _
        rw [if_pos hab, if_pos hin2]
        constructor
        · rintro ⟨h1, h2⟩
          refine ⟨by rw [hab.1, hab.2]; exact h2, ?_⟩
          rw [h1, hab.1, hab.2]; exact List.mem_cons_self _ _
        · rintro ⟨h1, h2⟩
          refine ⟨?_, by rw [← hab.1, ← hab.2]; exact h1⟩
          rcases List.mem_cons.mp h2 with h | h
          · rw [← h]
          · exact absurd (mem_keys_of_mem _ _ _ _ h) hin
      · have hin2 : (a, b) ∉ keys (q :: offs) := by
          intro h
          rcases List.mem_cons.mp h with h | h
          · simp only [Prod.mk.injEq] at h; exact hab h
          · exact hin h
        rw [if_neg hab, if_neg hin2]

theorem mem_of_mem_records (c : CellList) (r : Int × Int × Int)
    (h : r ∈ CellList.records c) : r.1 ∈ c ∧ r.2.1 ∈ c ∧ r.2.2 ∈ c := by
  induction c using CellList.records.induct with
  | case1 x y v rest ih =>
    simp only [CellList.records, List.mem_cons] at h
    rcases h with h | h
    · subst h; simp
    · have := ih h
      simp only [List.mem_cons]
      exact ⟨Or.inr (Or.inr (Or.inr this.1)), Or.inr (Or.inr (Or.inr this.2.1)),
        Or.inr (Or.inr (Or.inr this.2.2))⟩
  | case2 c hc =>
    match c, hc, h with
    | [], _, h => simp [CellList.records] at h
    | [_], _, h => simp [CellList.records] at h
    | [_, _], _, h => simp [CellList.records] at h
    | x :: y :: v :: rest, hc, _ => exact absurd rfl (hc x y v rest)

theorem keys_offsetRecs (x y : Int) (P : CellList) :
    keys (offsetRecs x y P) =
      (CellList.coords P).map (fun p => (wrap32 (p.1 + x), wrap32 (p.2 + y))) := by
  simp [keys, offsetRecs, CellList.coords, List.map_map, Function.comp]

theorem keys_offsetRecs_nodup (x y : Int) (P : CellList) (hP : NoDup P)
    (h32 : ∀ v ∈ P, isInt32 v) : (keys (offsetRecs x y P)).Nodup := by
  rw [keys_offsetRecs]
  apply List.Nodup.map_on _ hP
  intro p hp q hq he
  unfold CellList.coords at hp hq
  rw [List.mem_map] at hp hq
  obtain ⟨r, hr, rfl⟩ := hp
  obtain ⟨t, ht, rfl⟩ := hq
  have hr' := mem_of_mem_records P r hr
  have ht' := mem_of_mem_records P t ht
  simp only [Prod.mk.injEq] at he ⊢
  exact ⟨wrap32_add_inj _ _ x (h32 _ hr'.1) (h32 _ ht'.1) he.1,
    wrap32_add_inj _ _ y (h32 _ hr'.2.1) (h32 _ ht'.2.1) he.2⟩

/-- The records of `CellList.Load` on a well-formed store. -/
theorem Load_records (c1 : CellList) (x y : Int) (c2 : CellList) (h : StoreOK c1) :
    (CellList.Load c1 x y c2).length % 3 = 0 ∧
    CellList.records (CellList.Load c1 x y c2) =
      (offsetRecs x y c2).foldl (fun acc q => putState acc q.1 q.2.1 q.2.2)
          (CellList.records c1) ++
        (offsetRecs x y c2).filter (fun q => decide ((q.1, q.2.1) ∉ CellList.coords c1)) := by
  have := Load_loop_records c1 x y h.1 h.2.1 h.2.2 c2 c1 [] rfl rfl (by simp)
  simp only [List.append_nil, CellList.records, List.nil_append] at this
  exact this

theorem Load_mem_records (c1 : CellList) (x y : Int) (c2 : CellList) (h : StoreOK c1)
    (hP : NoDup c2) (h32 : ∀ v ∈ c2, isInt32 v) (a b v : Int) :
    (a, b, v) ∈ CellList.records (CellList.Load c1 x y c2) ↔
      (a, b, v) ∈ offsetRecs x y c2 ∨
      ((a, b, v) ∈ CellList.records c1 ∧ (a, b) ∉ keys (offsetRecs x y c2)) := by
  have hn := keys_offsetRecs_nodup x y c2 hP h32
  rw [(Load_records c1 x y c2 h).2, List.mem_append, mem_foldl_putState _ hn, List.mem_filter]
  have hk : keys (CellList.records c1) = CellList.coords c1 := rfl
  rw [hk]
  by_cases hin : (a, b) ∈ keys (offsetRecs x y c2)
  · rw [if_pos hin]
    simp only [decide_eq_true_eq]
    constructor
    · rintro (⟨_, h2⟩ | ⟨h2, _⟩) <;> exact Or.inl h2
    · rintro (h2 | ⟨_, h2⟩)
      · by_cases hc : (a, b) ∈ CellList.coords c1
        · exact Or.inl ⟨hc, h2⟩
        · exact Or.inr ⟨h2, hc⟩
      · exact absurd hin h2
  · rw [if_neg hin]
    simp only [decide_eq_true_eq]
    constructor
    · rintro (h2 | ⟨h2, _⟩)
      · exact Or.inr ⟨h2, hin⟩
      · exact Or.inl h2
    · rintro (h2 | ⟨h2, _⟩)
      · exact absurd (mem_keys_of_mem _ _ _ _ h2) hin
      · exact Or.inl h2

theorem Load_nodup (c1 : CellList) (x y : Int) (c2 : CellList) (h : StoreOK c1)
    (hP : NoDup c2) (h32 : ∀ v ∈ c2, isInt32 v) : NoDup (CellList.Load c1 x y c2) := by
  have hn := keys_offsetRecs_nodup x y c2 hP h32
  unfold NoDup
  have hk : ∀ c : CellList, CellList.coords c = keys (CellList.records c) := fun _ => rfl
  rw [hk, (Load_records c1 x y c2 h).2]
  unfold keys
  rw [List.map_append]
  rw [List.nodup_append]
  refine ⟨?_, ?_, ?_⟩
  · have := keys_foldl_putState (offsetRecs x y c2) (CellList.records c1)
    unfold keys at this
    rw [this]; exact h.2.2
  · exact (List.filter_sublist _).map _ |>.nodup hn
  · intro p hp1 hp2
    have := keys_foldl_putState (offsetRecs x y c2) (CellList.records c1)
    unfold keys at this
    rw [this] at hp1
    rw [List.mem_map] at hp2
    obtain ⟨q, hq, rfl⟩ := hp2
    have := (List.mem_filter.mp hq).2
    simp only [decide_eq_true_eq] at this
    exact this hp1

theorem update_cellData (s : simulationData) : s.update.cellData = s.cellData := rfl

theorem Load_cellData_perm (s : simulationData) (x y : Int) (P : CellList) :
    (CellList.records (sim.Load s x y P).cellData).Perm
      (CellList.records (CellList.Load s.cellData x y P)) ∧
    (sim.Load s x y P).cellData.length = (CellList.Load s.cellData x y P).length ∧
    Sorted (sim.Load s x y P).cellData := by
  unfold sim.Load simulationData.Load
  exact ⟨simulationData.SortCells_perm _, simulationData.SortCells_length _,
    simulationData.SortCells_sorted _⟩

theorem length_foldl_putState (offs rs : List (Int × Int × Int)) :
    (offs.foldl (fun acc q => putState acc q.1 q.2.1 q.2.2) rs).length = rs.length := by
  have := congrArg List.length (keys_foldl_putState offs rs)
  simpa [keys] using this

/-- C5 (counterexample): on the store `[0,0,1, 1,0,2]`, sorted and
duplicate-free, `Load(1, 0, Cells())` passes the cell buffer itself as the
patch. The first patch record `(0,0,1)` lands on the cell at `(1,0)` and
overwrites its state with 1; the second patch record is that same cell, read
after the write, so `(2,0)` is loaded with state 1, where the patch held
state 2 for it when the call was made. With the patch in an array of its own
`(2,0)` gets state 2. -/
theorem Load_shared_counterexample :
    StoreOK (sim.Load empty 0 0 [0, 0, 1, 1, 0, 2]).cellData ∧
    sim.Cells (sim.Load empty 0 0 [0, 0, 1, 1, 0, 2]) = [0, 0, 1, 1, 0, 2] ∧
    NoDup [0, 0, 1, 1, 0, 2] ∧
    (1, 0, 2) ∈ CellList.records (sim.Cells (sim.Load empty 0 0 [0, 0, 1, 1, 0, 2])) ∧
    (sim.LoadCells (sim.Load empty 0 0 [0, 0, 1, 1, 0, 2]) 1 0 6).cellData =
      [0, 0, 1, 1, 0, 1, 2, 0, 1] ∧
    (sim.LoadCells (sim.Load empty 0 0 [0, 0, 1, 1, 0, 2]) 1 0 8).cellData =
      [0, 0, 1, 1, 0, 1, 2, 0, 1] ∧
    stateAt (sim.LoadCells (sim.Load empty 0 0 [0, 0, 1, 1, 0, 2]) 1 0 8).cellData 2 0 = some 1 ∧
    (sim.Load (sim.Load empty 0 0 [0, 0, 1, 1, 0, 2]) 1 0 [0, 0, 1, 1, 0, 2]).cellData =
      [0, 0, 1, 1, 0, 1, 2, 0, 2] := by
  decide

/-- C5 (amended): package-level `Load` of a patch with pairwise distinct
coordinates, held in an array of its own, into a sorted duplicate-free
store: the store stays well formed, every offset coordinate of the patch is
bound to the patch's state, every other coordinate is bound as before
(present with its old state, or absent), and the cell count grows by the
number of offset coordinates that were absent. -/
theorem Load_spec (s : simulationData) (x y : Int) (P : CellList)
    (hs : StoreOK s.cellData) (hP : NoDup P) (h32 : ∀ v ∈ P, isInt32 v) :
    StoreOK (sim.Load s x y P).cellData ∧
    (∀ p ∈ CellList.records P,
      stateAt (sim.Load s x y P).cellData (wrap32 (p.1 + x)) (wrap32 (p.2.1 + y)) = some p.2.2) ∧
    (∀ a b, (a, b) ∉ keys (offsetRecs x y P) →
      stateAt (sim.Load s x y P).cellData a b = stateAt s.cellData a b) ∧
    (∀ a b v, (a, b, v) ∈ CellList.records (sim.Load s x y P).cellData ↔
      (a, b, v) ∈ offsetRecs x y P ∨
      ((a, b, v) ∈ CellList.records s.cellData ∧ (a, b) ∉ keys (offsetRecs x y P))) ∧
    sim.CellCount (sim.Load s x y P) = sim.CellCount s +
      ((offsetRecs x y P).filter
        (fun q => decide ((q.1, q.2.1) ∉ CellList.coords s.cellData))).length := by
  obtain ⟨hperm, hlen, hsorted⟩ := Load_cellData_perm s x y P
  have hrec := Load_records s.cellData x y P hs
  have hnd : NoDup (sim.Load s x y P).cellData := by
    unfold NoDup CellList.coords
    exact (List.Perm.nodup_iff (hperm.map _)).mpr (Load_nodup s.cellData x y P hs hP h32)
  have hok : StoreOK (sim.Load s x y P).cellData := ⟨by rw [hlen]; exact hrec.1, hsorted, hnd⟩
  have hmem : ∀ a b v, (a, b, v) ∈ CellList.records (sim.Load s x y P).cellData ↔
      (a, b, v) ∈ offsetRecs x y P ∨
      ((a, b, v) ∈ CellList.records s.cellData ∧ (a, b) ∉ keys (offsetRecs x y P)) := by
    intro a b v
    rw [hperm.mem_iff]
    exact Load_mem_records s.cellData x y P hs hP h32 a b v
  refine ⟨hok, ?_, ?_, hmem, ?_⟩
  · intro p hp
    apply stateAt_of_mem _ hsorted hnd
    rw [hmem]
    left
    exact List.mem_map.mpr ⟨p, hp, rfl⟩
  · intro a b hab
    apply Option.ext
    intro v
    simp only [Option.mem_def]
    rw [stateAt_eq_some_iff _ hsorted hnd, stateAt_eq_some_iff _ hs.2.1 hs.2.2, hmem]
    constructor
    · rintro (h | ⟨h, _⟩)
      · exact absurd (mem_keys_of_mem _ _ _ _ h) hab
      · exact h
    · intro h; exact Or.inr ⟨h, hab⟩
  · unfold sim.CellCount simulationData.CellCount
    rw [hlen, ← CellList.length_records, ← CellList.length_records, hrec.2, List.length_append,
      length_foldl_putState]

theorem Load_spec_witness :
    StoreOK (sim.Load empty 0 0 [0, 0, 1, 1, 0, 2]).cellData ∧
    NoDup [1, 0, 0, -1, 5, 3] ∧
    (sim.Load (sim.Load empty 0 0 [0, 0, 1, 1, 0, 2]) 0 0 [1, 0, 0, -1, 5, 3]).cellData =
      [-1, 5, 3, 0, 0, 1, 1, 0, 0] ∧
    sim.CellCount (sim.Load (sim.Load empty 0 0 [0, 0, 1, 1, 0, 2]) 0 0 [1, 0, 0, -1, 5, 3]) =
      sim.CellCount (sim.Load empty 0 0 [0, 0, 1, 1, 0, 2]) +
      ((offsetRecs 0 0 [1, 0, 0, -1, 5, 3]).filter
        (fun q => decide ((q.1, q.2.1) ∉
          CellList.coords (sim.Load empty 0 0 [0, 0, 1, 1, 0, 2]).cellData))).length :=
  ⟨by decide, by decide, by decide,
    (Load_spec (sim.Load empty 0 0 [0, 0, 1, 1, 0, 2]) 0 0 [1, 0, 0, -1, 5, 3]
      (by decide) (by decide) (by decide)).2.2.2.2⟩

/-- C4: `Load` of a patch that names the same coordinates twice, into the
empty list, returns a list with two records at these coordinates. -/
theorem Load_duplicate_patch :
    Sorted [] ∧ NoDup [] ∧
    CellList.Load [] 0 0 [0, 0, 1, 0, 0, 2] = [0, 0, 1, 0, 0, 2] ∧
    ¬ NoDup (CellList.Load [] 0 0 [0, 0, 1, 0, 0, 2]) := by
  decide

/-! ## Unload -/

/-- One round of a loop that looks `(x, y)` up and writes the state slot of
the record found: the records change as by `putState`. -/
theorem records_set_lookup (c : CellList) (hs : Sorted c) (hd : NoDup c) (x y v : Int) :
    CellList.records
      (if CellList.IndexOf c x y > -1 then c.set (CellList.IndexOf c x y + 2).toNat v else c) =
      putState (CellList.records c) x y v := by
  by_cases hf : CellList.IndexOf c x y > -1
  · rw [if_pos hf]; exact records_set_found c hd x y v hf
  · rw [if_neg hf]
    symm
    apply putState_of_not_mem
    rcases CellList.IndexOf_sorted c hs x y with ⟨_, h⟩ | ⟨m, h, _⟩
    · exact h
    · omega

theorem coords_set_lookup (c : CellList) (x y v : Int) :
    CellList.coords
      (if CellList.IndexOf c x y > -1 then c.set (CellList.IndexOf c x y + 2).toNat v else c) =
      CellList.coords c := by
  by_cases hf : CellList.IndexOf c x y > -1
  · rw [if_pos hf]
    obtain ⟨m, _, _, he, _⟩ := CellList.IndexOf_pos c x y hf
    rw [he, CellList.coords_set_state]
  · rw [if_neg hf]

theorem length_set_lookup (c : CellList) (x y v : Int) :
    (if CellList.IndexOf c x y > -1 then c.set (CellList.IndexOf c x y + 2).toNat v else c).length =
      c.length := by
  split <;> simp

theorem Unload_loop_step (c1 : CellList) (px py pv : Int) (rest : CellList) :
    CellList.Unload.loop c1 (px :: py :: pv :: rest) =
      CellList.Unload.loop
        (if CellList.IndexOf c1 px py > -1 then
          c1.set (CellList.IndexOf c1 px py + 2).toNat CellEmpty else c1) rest := by
  simp only [CellList.Unload.loop]
  split <;> rfl

theorem Unload_loop_records (c2 : CellList) :
    ∀ c1 : CellList, Sorted c1 → NoDup c1 →
      CellList.coords (CellList.Unload.loop c1 c2) = CellList.coords c1 ∧
      (CellList.Unload.loop c1 c2).length = c1.length ∧
      CellList.records (CellList.Unload.loop c1 c2) =
        (CellList.records c1).map
          (fun r => if (r.1, r.2.1) ∈ CellList.coords c2 then (r.1, r.2.1, CellEmpty) else r) := by
  induction c2 using CellList.records.induct with
  | case1 px py pv rest ih =>
    intro c1 hs hd
    rw [Unload_loop_step]
    have hco := coords_set_lookup c1 px py CellEmpty
    have hre := records_set_lookup c1 hs hd px py CellEmpty
    have hle := length_set_lookup c1 px py CellEmpty
    obtain ⟨i1, i2, i3⟩ := ih _ (Sorted_of_coords _ _ hco hs) (by unfold NoDup; rw [hco]; exact hd)
    refine ⟨i1.trans hco, i2.trans hle, ?_⟩
    rw [i3, hre]
    unfold putState
    rw [List.map_map]
    apply List.map_congr_left
    intro r _
    simp only [Function.comp, CellList.coords, CellList.records, List.map_cons, List.mem_cons,
      Prod.mk.injEq]
    by_cases h1 : r.1 = px ∧ r.2.1 = py
    · simp [h1]
    · simp only [h1, if_false, false_or]
  | case2 c2 hc2 =>
    intro c1 hs hd
    have hr : CellList.records c2 = [] := by
      match c2, hc2 with
      | [], _ => rfl
      | [_], _ => rfl
      | [_, _], _ => rfl
      | p :: q :: v :: rest, hc2 => exact absurd rfl (hc2 p q v rest)
    have e : CellList.Unload.loop c1 c2 = c1 := by
      match c2, hc2 with
      | [], _ => rfl
      | [_], _ => rfl
      | [_, _], _ => rfl
      | p :: q :: v :: rest, hc2 => exact absurd rfl (hc2 p q v rest)
    rw [e]
    refine ⟨rfl, rfl, ?_⟩
    simp [CellList.coords, hr]

theorem Unload_eq_filter (c1 c2 : CellList) (hs : Sorted c1) (hd : NoDup c1) :
    CellList.Unload c1 c2 =
      CellList.ofRecords ((CellList.records c1).filter
        (fun r => decide (r.2.2 ≠ CellEmpty ∧ (r.1, r.2.1) ∉ CellList.coords c2))) := by
  unfold CellList.Unload
  rw [CellList.Trim_eq_filter, (Unload_loop_records c2 c1 hs hd).2.2]
  congr 1
  induction CellList.records c1 with
  | nil => rfl
  | cons r rs ih =>
    simp only [List.map_cons, List.filter_cons, ih]
    by_cases h1 : (r.1, r.2.1) ∈ CellList.coords c2
    · simp [h1]
    · simp [h1]

/-- C6: on a sorted duplicate-free list, `Unload` returns exactly the records
that are not empty and whose coordinates do not occur in the patch, in their
original order; so no record of the result is at a coordinate of the patch. -/
theorem Unload_spec (c1 c2 : CellList) (hs : Sorted c1) (hd : NoDup c1) :
    (∀ r ∈ CellList.records (CellList.Unload c1 c2), (r.1, r.2.1) ∉ CellList.coords c2) ∧
    CellList.records (CellList.Unload c1 c2) =
      (CellList.records c1).filter
        (fun r => decide (r.2.2 ≠ CellEmpty ∧ (r.1, r.2.1) ∉ CellList.coords c2)) ∧
    CellList.Unload c1 c2 = CellList.ofRecords (CellList.records (CellList.Unload c1 c2)) := by
  have h := Unload_eq_filter c1 c2 hs hd
  have hr : CellList.records (CellList.Unload c1 c2) =
      (CellList.records c1).filter
        (fun r => decide (r.2.2 ≠ CellEmpty ∧ (r.1, r.2.1) ∉ CellList.coords c2)) := by
    rw [h, CellList.records_ofRecords]
  refine ⟨?_, hr, ?_⟩
  · intro r hr2
    rw [hr] at hr2
    have := (List.mem_filter.mp hr2).2
    simp only [decide_eq_true_eq] at this
    exact this.2
  · rw [hr]; exact h

theorem Unload_spec_witness :
    Sorted [0, 0, 1, 0, 1, 0, 2, 5, 3, 4, 4, 2] ∧ NoDup [0, 0, 1, 0, 1, 0, 2, 5, 3, 4, 4, 2] ∧
    CellList.Unload [0, 0, 1, 0, 1, 0, 2, 5, 3, 4, 4, 2] [2, 5, 1, 9, 9, 1] = [0, 0, 1, 4, 4, 2] ∧
    ∀ r ∈ CellList.records
        (CellList.Unload [0, 0, 1, 0, 1, 0, 2, 5, 3, 4, 4, 2] [2, 5, 1, 9, 9, 1]),
      (r.1, r.2.1) ∉ CellList.coords [2, 5, 1, 9, 9, 1] :=
  ⟨by decide, by decide, by decide,
    (Unload_spec [0, 0, 1, 0, 1, 0, 2, 5, 3, 4, 4, 2] [2, 5, 1, 9, 9, 1]
      (by decide) (by decide)).1⟩

/-! ## Buffer lengths -/

theorem Load_loop_length (c1 : CellList) (x y : Int) (c2 : CellList) :
    ∀ nl : CellList, (CellList.Load.loop c1 x y nl c2).length % 3 = nl.length % 3 := by
  induction c2 using CellList.records.induct with
  | case1 px py cv rest ih =>
    intro nl
    simp only [CellList.Load.loop]
    split
    · rw [ih]; simp
    · rw [ih]; simp
  | case2 c2 hc2 =>
    intro nl
    match c2, hc2 with
    | [], _ => rfl
    | [_], _ => rfl
    | [_, _], _ => rfl
    | p :: q :: v :: rest, hc2 => exact absurd rfl (hc2 p q v rest)

theorem UpdateList_loop_step (cd : CellList) (px py pv : Int) (rest : CellList) :
    simulationData.UpdateList.loop cd (px :: py :: pv :: rest) =
      simulationData.UpdateList.loop
        (if CellList.IndexOf cd px py > -1 then
          cd.set (CellList.IndexOf cd px py + 2).toNat pv else cd) rest := by
  simp only [simulationData.UpdateList.loop]
  split <;> rfl

theorem UpdateList_loop_coords (v : CellList) :
    ∀ cd : CellList,
      CellList.coords (simulationData.UpdateList.loop cd v) = CellList.coords cd ∧
      (simulationData.UpdateList.loop cd v).length = cd.length := by
  induction v using CellList.records.induct with
  | case1 px py pv rest ih =>
    intro cd
    rw [UpdateList_loop_step]
    obtain ⟨i1, i2⟩ := ih (if CellList.IndexOf cd px py > -1 then
          cd.set (CellList.IndexOf cd px py + 2).toNat pv else cd)
    exact ⟨i1.trans (coords_set_lookup cd px py pv), i2.trans (length_set_lookup cd px py pv)⟩
  | case2 v hv =>
    intro cd
    match v, hv with
    | [], _ => exact ⟨rfl, rfl⟩
    | [_], _ => exact ⟨rfl, rfl⟩
    | [_, _], _ => exact ⟨rfl, rfl⟩
    | p :: q :: w :: rest, hv => exact absurd rfl (hv p q w rest)

theorem LenOK_empty : LenOK empty := by decide

theorem LenOK_update (s : simulationData) (h : s.cellData.length % 3 = 0) : LenOK s.update := by
  unfold LenOK simulationData.update simulationData.CellCount CellList.Len
  simp only
  refine ⟨h, ?_, ?_⟩
  · split
    · rw [List.length_take]; omega
    · rw [List.length_replicate]; omega
  · split
    · rw [List.length_take]; omega
    · rw [List.length_replicate]; omega

theorem LenOK_data_Load (s : simulationData) (x y : Int) (v : CellList) (h : LenOK s) :
    LenOK (s.Load x y v) := by
  unfold simulationData.Load
  apply LenOK_update
  simp only [CellList.Load]
  rw [Load_loop_length]; exact h.1

theorem LenOK_data_Unload (s : simulationData) (v : CellList) : LenOK (s.Unload v) := by
  unfold simulationData.Unload
  apply LenOK_update
  exact CellList.length_Trim_mod _

theorem LenOK_data_Trim (s : simulationData) : LenOK s.Trim := by
  unfold simulationData.Trim
  apply LenOK_update
  exact CellList.length_Trim_mod _

theorem LenOK_data_UpdateList (s : simulationData) (v : CellList) (h : LenOK s) :
    LenOK (s.UpdateList v) := by
  unfold simulationData.UpdateList
  split
  · exact h
  · unfold LenOK simulationData.CellCount at *
    simp only [(UpdateList_loop_coords v s.cellData).2]
    exact h

theorem LenOK_data_Set (s : simulationData) (x y st : Int) (h : LenOK s) :
    LenOK (s.Set x y st) := by
  unfold simulationData.Set
  simp only
  split
  · unfold LenOK simulationData.CellCount at *
    simp only [List.length_set]
    exact h
  · split
    · exact h
    · unfold LenOK simulationData.CellCount at *
      simp only [List.length_append, List.length_cons, List.length_nil]
      omega

theorem LenOK_SortCells (s : simulationData) (h : LenOK s) : LenOK s.SortCells := by
  have h1 := simulationData.SortCells_length s
  have h2 := simulationData.SortCells_neighbours_length s (by
    rw [CellList.length_records]
    unfold LenOK simulationData.CellCount at h
    omega)
  unfold LenOK simulationData.CellCount at *
  rw [h1, h2, simulationData.SortCells_tempData]
  exact h

theorem computeNeighbours_loop_length (cells : CellList) (rest : CellList) :
    ∀ (cn r : List Int), simulationData.computeNeighbours.loop cells rest cn = some r →
      r.length = cn.length := by
  induction rest using CellList.records.induct with
  | case1 x y v rest ih =>
    intro cn r h
    simp only [simulationData.computeNeighbours.loop] at h
    split at h
    · exact absurd h (by simp)
    · rename_i hlen
      split at h
      · rename_i tl htl
        have := ih _ _ htl
        rw [← Option.some.inj h]
        simp only [List.length_append, this, List.length_drop,
          simulationData.neighbourIndices, List.length_cons, List.length_nil]
        omega
      · exact absurd h (by simp)
  | case2 rest hr =>
    intro cn r h
    match rest, hr, h with
    | [], _, h => simp only [simulationData.computeNeighbours.loop] at h; rw [← Option.some.inj h]
    | [_], _, h => simp only [simulationData.computeNeighbours.loop] at h; rw [← Option.some.inj h]
    | [_, _], _, h =>
      simp only [simulationData.computeNeighbours.loop] at h; rw [← Option.some.inj h]
    | p :: q :: w :: rest, hr, _ => exact absurd rfl (hr p q w rest)

theorem Step_loop_length (t0 : CellList) (rest : CellList) :
    ∀ (t1 : CellList) (cn : List Int) (r : CellList),
      simulationData.Step.loop t0 rest t1 cn = some r → r.length = t1.length := by
  induction rest using CellList.records.induct with
  | case1 x y v rest ih =>
    intro t1 cn r h
    simp only [simulationData.Step.loop] at h
    split at h
    · exact absurd h (by simp)
    · split at h
      · rename_i a b c t1rest
        split at h
        · exact absurd h (by simp)
        · split at h
          · rename_i tl htl
            have := ih _ _ _ htl
            rw [← Option.some.inj h]
            simp [this]
          · exact absurd h (by simp)
      · exact absurd h (by simp)
  | case2 rest hr =>
    intro t1 cn r h
    match rest, hr, h with
    | [], _, h => simp only [simulationData.Step.loop] at h; rw [← Option.some.inj h]
    | [_], _, h => simp only [simulationData.Step.loop] at h; rw [← Option.some.inj h]
    | [_, _], _, h => simp only [simulationData.Step.loop] at h; rw [← Option.some.inj h]
    | p :: q :: w :: rest, hr, _ => exact absurd rfl (hr p q w rest)

/-- `Step` in one piece: the cache used is the recomputed one when the
cache is stale and the stored one otherwise. -/
theorem Step_eq (s : simulationData) :
    s.Step =
      match (if s.staleNeighbours = true then
          simulationData.computeNeighbours.loop s.cellData s.cellData s.neighbours
        else some s.neighbours) with
      | none => none
      | some cn =>
        match simulationData.Step.loop s.cellData s.cellData s.tempData cn with
        | none => none
        | some t1 =>
          some { cellData := t1, tempData := s.cellData, neighbours := cn,
                 cellsChanged := true, staleNeighbours := false } := by
  unfold simulationData.Step simulationData.computeNeighbours
  by_cases hst : s.staleNeighbours = true
  · simp only [hst, if_true]
    cases simulationData.computeNeighbours.loop s.cellData s.cellData s.neighbours with
    | none => rfl
    | some cn => rfl
  · simp only [hst]
    rfl

theorem Step_some (s s1 : simulationData) (h : s.Step = some s1) :
    ∃ cn t1,
      (if s.staleNeighbours = true then
          simulationData.computeNeighbours.loop s.cellData s.cellData s.neighbours
        else some s.neighbours) = some cn ∧
      simulationData.Step.loop s.cellData s.cellData s.tempData cn = some t1 ∧
      s1 = { cellData := t1, tempData := s.cellData, neighbours := cn,
             cellsChanged := true, staleNeighbours := false } := by
  rw [Step_eq] at h
  split at h
  · exact absurd h (by simp)
  · rename_i cn hcn
    split at h
    · exact absurd h (by simp)
    · rename_i t1 ht1
      exact ⟨cn, t1, hcn, ht1, (Option.some.inj h).symm⟩

theorem LenOK_Step (s s1 : simulationData) (h : LenOK s) (hs : s.Step = some s1) :
    LenOK s1 := by
  obtain ⟨cn, t1, hcn, ht1, rfl⟩ := Step_some s s1 hs
  have hl1 := Step_loop_length _ _ _ _ _ ht1
  have hl2 : cn.length = s.neighbours.length := by
    split at hcn
    · exact computeNeighbours_loop_length _ _ _ _ hcn
    · rw [← Option.some.inj hcn]
  unfold LenOK simulationData.CellCount at *
  simp only
  rw [hl1, hl2]
  refine ⟨by omega, by omega, by rw [h.2.1]; exact h.2.2⟩

/-! ## Step -/

theorem neighbourIndices_eq_map (c : CellList) (x y : Int) :
    simulationData.neighbourIndices c x y =
      (neighbourCoords x y).map (fun p => CellList.IndexOf c p.1 p.2) := rfl

theorem neighbourIndices_length (c : CellList) (x y : Int) :
    (simulationData.neighbourIndices c x y).length = 8 := rfl

theorem countHeads_map (c : CellList) (ps : List (Int × Int)) :
    simulationData.Step.countHeads c (ps.map (fun p => CellList.IndexOf c p.1 p.2)) =
      some (ps.countP (fun p => decide (stateAt c p.1 p.2 = some CellHead))) := by
  induction ps with
  | nil => rfl
  | cons p ps ih =>
    simp only [List.map_cons, simulationData.Step.countHeads, ih, List.countP_cons]
    by_cases hf : CellList.IndexOf c p.1 p.2 > -1
    · obtain ⟨m, h1, hm, he, _, _⟩ := CellList.IndexOf_pos c p.1 p.2 hf
      have hst := stateAt_of_found c p.1 p.2 m h1 hm
      have hget := CellList.get?_state c m hm
      rw [List.get?_eq_getElem?] at hget
      simp only [hf, if_true, he, hget, hst, Option.some.injEq, decide_eq_true_eq]
      split
      · rfl
      · rfl
    · have hst : stateAt c p.1 p.2 = none := by unfold stateAt; rw [if_neg hf]
      simp [hf, hst]

theorem Step_rule_eq (c : CellList) (r : Int × Int × Int) :
    simulationData.Step.rule c (simulationData.neighbourIndices c r.1 r.2.1) r.2.2 =
      some (stepState c r) := by
  unfold simulationData.Step.rule stepState cachedHeads
  rw [neighbourIndices_eq_map, countHeads_map]
  simp only
  split
  · rfl
  · split
    · rfl
    · split <;> rfl

theorem computeNeighbours_loop_eq (cells : CellList) (rest : CellList) :
    ∀ cn : List Int, 8 * (CellList.records rest).length ≤ cn.length →
      simulationData.computeNeighbours.loop cells rest cn =
        some ((CellList.coords rest).flatMap
            (fun p => simulationData.neighbourIndices cells p.1 p.2) ++
          cn.drop (8 * (CellList.records rest).length)) := by
  induction rest using CellList.records.induct with
  | case1 x y v rest ih =>
    intro cn h
    simp only [CellList.records, List.length_cons] at h
    have h8 : ¬ cn.length < 8 := by omega
    simp only [simulationData.computeNeighbours.loop, h8, if_false]
    rw [ih (cn.drop 8) (by rw [List.length_drop]; omega)]
    simp only [CellList.coords, CellList.records, List.map_cons, List.flatMap_cons,
      List.length_cons, List.drop_drop, List.append_assoc]
    have e : 8 + 8 * (CellList.records rest).length = 8 * ((CellList.records rest).length + 1) := by
      ring
    rw [e]
  | case2 rest hr =>
    intro cn _
    match rest, hr with
    | [], _ => simp [simulationData.computeNeighbours.loop, CellList.coords, CellList.records]
    | [_], _ => simp [simulationData.computeNeighbours.loop, CellList.coords, CellList.records]
    | [_, _], _ => simp [simulationData.computeNeighbours.loop, CellList.coords, CellList.records]
    | p :: q :: w :: rest, hr => exact absurd rfl (hr p q w rest)

theorem Step_loop_eq (t0 : CellList) (rest : CellList) :
    ∀ (t1 : CellList) (extra : List Int), 3 * (CellList.records rest).length ≤ t1.length →
      simulationData.Step.loop t0 rest t1
          ((CellList.coords rest).flatMap
            (fun p => simulationData.neighbourIndices t0 p.1 p.2) ++ extra) =
        some (CellList.ofRecords
            ((CellList.records rest).map (fun r => (r.1, r.2.1, stepState t0 r))) ++
          t1.drop (3 * (CellList.records rest).length)) := by
  induction rest using CellList.records.induct with
  | case1 x y v rest ih =>
    intro t1 extra h
    simp only [CellList.records, List.length_cons] at h
    match t1, h with
    | a :: b :: c :: t1rest, h =>
      have hlen : 3 * (CellList.records rest).length ≤ t1rest.length := by
        simp only [List.length_cons] at h; omega
      simp only [CellList.coords, CellList.records, List.map_cons, List.flatMap_cons,
        List.append_assoc]
      have hcn : ∀ tl : List Int,
          ¬ (simulationData.neighbourIndices t0 x y ++ tl).length < 8 := by
        intro tl
        rw [List.length_append, neighbourIndices_length]; omega
      have htake : ∀ tl : List Int,
          (simulationData.neighbourIndices t0 x y ++ tl).take 8 =
            simulationData.neighbourIndices t0 x y := by
        intro tl
        rw [List.take_append_of_le_length (by rw [neighbourIndices_length])]
        exact List.take_of_length_le (by rw [neighbourIndices_length])
      have hdrop : ∀ tl : List Int,
          (simulationData.neighbourIndices t0 x y ++ tl).drop 8 = tl := by
        intro tl
        exact List.drop_left' (neighbourIndices_length t0 x y)
      simp only [simulationData.Step.loop, hcn, if_false, htake, hdrop]
      have hrule := Step_rule_eq t0 (x, y, v)
      simp only at hrule
      rw [hrule]
      have := ih t1rest extra hlen
      simp only [CellList.coords] at this
      rw [this]
      simp only [CellList.ofRecords, List.length_cons, List.cons_append]
      have e : 3 * ((CellList.records rest).length + 1) =
          3 * (CellList.records rest).length + 1 + 1 + 1 := by ring
      rw [e]
      simp only [List.drop_succ_cons]
    | [], h => simp at h
    | [_], h => simp at h; omega
    | [_, _], h => simp at h; omega
  | case2 rest hr =>
    intro t1 extra _
    match rest, hr with
    | [], _ => simp [simulationData.Step.loop, CellList.coords, CellList.records, CellList.ofRecords]
    | [_], _ => simp [simulationData.Step.loop, CellList.coords, CellList.records, CellList.ofRecords]
    | [_, _], _ =>
      simp [simulationData.Step.loop, CellList.coords, CellList.records, CellList.ofRecords]
    | p :: q :: w :: rest, hr => exact absurd rfl (hr p q w rest)

theorem freshCache_length (c : CellList) : (freshCache c).length = 8 * (CellList.records c).length := by
  unfold freshCache CellList.coords
  induction CellList.records c with
  | nil => rfl
  | cons r rs ih =>
    simp only [List.map_cons, List.flatMap_cons, List.length_append, neighbourIndices_length,
      List.length_cons, ih]
    ring

/-- From a state with buffers in lockstep and a cache that is valid unless
marked stale, `Step` does not panic and yields the stepped store. -/
theorem Step_of_inv (s : simulationData) (hl : LenOK s)
    (hc : s.staleNeighbours = false → CacheOK s) :
    s.Step = some { cellData := stepCells s.cellData, tempData := s.cellData,
                    neighbours := freshCache s.cellData, cellsChanged := true,
                    staleNeighbours := false } := by
  obtain ⟨h3, ht, hn⟩ := hl
  unfold simulationData.CellCount at hn
  have hrl := CellList.length_records s.cellData
  have hcn : (if s.staleNeighbours = true then
        simulationData.computeNeighbours.loop s.cellData s.cellData s.neighbours
      else some s.neighbours) = some (freshCache s.cellData) := by
    by_cases hst : s.staleNeighbours = true
    · rw [if_pos hst, computeNeighbours_loop_eq _ _ _ (by omega)]
      rw [List.drop_of_length_le (by omega), List.append_nil]
      rfl
    · rw [if_neg hst]
      have := hc (by simpa using hst)
      unfold CacheOK at this
      rw [this]
  have hloop : simulationData.Step.loop s.cellData s.cellData s.tempData
      (freshCache s.cellData) = some (stepCells s.cellData) := by
    have := Step_loop_eq s.cellData s.cellData s.tempData [] (by omega)
    rw [List.append_nil, List.drop_of_length_le (by omega), List.append_nil] at this
    exact this
  rw [Step_eq, hcn]
  simp only [hloop]

theorem stepCells_records (c : CellList) :
    CellList.records (stepCells c) =
      (CellList.records c).map (fun r => (r.1, r.2.1, stepState c r)) :=
  CellList.records_ofRecords _

theorem stepCells_coords (c : CellList) : CellList.coords (stepCells c) = CellList.coords c := by
  unfold CellList.coords
  rw [stepCells_records, List.map_map]
  rfl

theorem stepCells_length (c : CellList) (h3 : c.length % 3 = 0) :
    (stepCells c).length = c.length := by
  unfold stepCells
  rw [CellList.length_ofRecords, List.length_map, CellList.length_records]
  omega

theorem neighbourIndices_congr (a c : CellList) (hl : a.length = c.length)
    (h3 : c.length % 3 = 0) (hc : CellList.coords a = CellList.coords c) (x y : Int) :
    simulationData.neighbourIndices a x y = simulationData.neighbourIndices c x y := by
  unfold simulationData.neighbourIndices
  simp only [CellList.IndexOf_of_coords a c hl h3 hc]

theorem freshCache_congr (a c : CellList) (hl : a.length = c.length)
    (h3 : c.length % 3 = 0) (hc : CellList.coords a = CellList.coords c) :
    freshCache a = freshCache c := by
  unfold freshCache
  rw [hc]
  congr 1
  funext p
  exact neighbourIndices_congr a c hl h3 hc p.1 p.2

theorem Unload_loop_coords (c2 : CellList) :
    ∀ c1 : CellList,
      CellList.coords (CellList.Unload.loop c1 c2) = CellList.coords c1 ∧
      (CellList.Unload.loop c1 c2).length = c1.length := by
  induction c2 using CellList.records.induct with
  | case1 px py pv rest ih =>
    intro c1
    rw [Unload_loop_step]
    obtain ⟨i1, i2⟩ := ih (if CellList.IndexOf c1 px py > -1 then
          c1.set (CellList.IndexOf c1 px py + 2).toNat CellEmpty else c1)
    exact ⟨i1.trans (coords_set_lookup c1 px py CellEmpty),
      i2.trans (length_set_lookup c1 px py CellEmpty)⟩
  | case2 v hv =>
    intro c1
    match v, hv with
    | [], _ => exact ⟨rfl, rfl⟩
    | [_], _ => exact ⟨rfl, rfl⟩
    | [_, _], _ => exact ⟨rfl, rfl⟩
    | p :: q :: w :: rest, hv => exact absurd rfl (hv p q w rest)

/-- The block of cell `i` in a list of eight-entry blocks. -/
theorem block_flatMap (f : Int × Int → List Int) (hf : ∀ p, (f p).length = 8) :
    ∀ (l : List (Int × Int)) (i : Nat) (h : i < l.length),
      simulationData.block (l.flatMap f) i = f (l.get ⟨i, h⟩) := by
  intro l
  induction l with
  | nil => intro i h; simp at h
  | cons p l ih =>
    intro i h
    cases i with
    | zero =>
      unfold simulationData.block
      simp only [Nat.zero_mul, List.drop_zero, List.flatMap_cons, List.get_cons_zero]
      rw [List.take_append_of_le_length (by rw [hf])]
      exact List.take_of_length_le (by rw [hf])
    | succ k =>
      have hk : k < l.length := by simpa using h
      have := ih k hk
      unfold simulationData.block at *
      simp only [List.flatMap_cons, List.get_cons_succ]
      have e : (k + 1) * 8 = (f p).length + k * 8 := by rw [hf]; ring
      rw [e, List.drop_append]
      exact this

/-! ## The engine invariant -/

theorem update_stale (s : simulationData) : s.update.staleNeighbours = true := rfl

theorem EngineOK_empty : EngineOK empty := by
  refine ⟨LenOK_empty, by decide, fun _ => by decide⟩

/-- What data-level `Set` does to the store on a sorted state: either the
coordinates and the cache are untouched, or the cache is marked stale. -/
theorem data_Set_cases (s : simulationData) (x y st : Int) :
    ((s.Set x y st).staleNeighbours = s.staleNeighbours ∧
      (s.Set x y st).neighbours = s.neighbours ∧
      CellList.coords (s.Set x y st).cellData = CellList.coords s.cellData ∧
      (s.Set x y st).cellData.length = s.cellData.length) ∨
    ((s.Set x y st).staleNeighbours = true ∧ CellList.IndexOf s.cellData x y = -1 ∧
      st ≠ CellEmpty) := by
  by_cases hf : CellList.IndexOf s.cellData x y > -1
  · left
    have e : s.Set x y st =
        { s with
          cellsChanged := decide (s.cellData.getD (CellList.IndexOf s.cellData x y + 2).toNat 0 ≠ st)
          cellData := s.cellData.set (CellList.IndexOf s.cellData x y + 2).toNat st } := by
      unfold simulationData.Set
      simp only [hf, if_true]
    rw [e]
    obtain ⟨m, _, _, he, _⟩ := CellList.IndexOf_pos s.cellData x y hf
    simp only [he]
    exact ⟨trivial, trivial, CellList.coords_set_state _ _ _, List.length_set _ _ _⟩
  · by_cases he : st = CellEmpty
    · left
      have e : s.Set x y st = s := by
        unfold simulationData.Set
        simp only [hf, if_false, he, if_true]
      rw [e]
      exact ⟨rfl, rfl, rfl, rfl⟩
    · right
      have e : (s.Set x y st).staleNeighbours = true := by
        unfold simulationData.Set
        simp only [hf, if_false, he]
      have := CellList.IndexOf_ge s.cellData x y
      exact ⟨e, by omega, he⟩

theorem EngineOK_Set (s : simulationData) (x y st : Int) (h : EngineOK s) :
    EngineOK (sim.Set s x y st) := by
  obtain ⟨hl, hs, hc⟩ := h
  unfold sim.Set
  refine ⟨LenOK_SortCells _ (LenOK_data_Set s x y st hl), simulationData.SortCells_sorted _, ?_⟩
  intro hst
  rw [simulationData.SortCells_stale] at hst
  rcases data_Set_cases s x y st with ⟨h1, h2, h3, h4⟩ | ⟨h1, _⟩
  · have hsorted : Sorted (s.Set x y st).cellData := Sorted_of_coords _ _ h3 hs
    rw [simulationData.SortCells_of_sorted _ hsorted]
    unfold CacheOK
    rw [h2, freshCache_congr _ _ h4 hl.1 h3]
    exact hc (by rw [← h1]; exact hst)
  · rw [h1] at hst; exact absurd hst (by simp)

theorem EngineOK_Load (s : simulationData) (x y : Int) (v : CellList) (h : EngineOK s) :
    EngineOK (sim.Load s x y v) := by
  unfold sim.Load
  refine ⟨LenOK_SortCells _ (LenOK_data_Load s x y v h.1), simulationData.SortCells_sorted _, ?_⟩
  intro hst
  rw [simulationData.SortCells_stale] at hst
  exact absurd hst (by simp [simulationData.Load, update_stale])

theorem Sorted_Unload (c1 c2 : CellList) (hs : Sorted c1) : Sorted (CellList.Unload c1 c2) := by
  unfold CellList.Unload
  apply Sorted_Trim
  exact Sorted_of_coords _ _ (Unload_loop_coords c2 c1).1 hs

theorem EngineOK_Unload (s : simulationData) (v : CellList) (h : EngineOK s) :
    EngineOK (sim.Unload s v) := by
  unfold sim.Unload
  refine ⟨LenOK_data_Unload s v, ?_, ?_⟩
  · exact Sorted_Unload _ _ h.2.1
  · intro hst
    exact absurd hst (by simp [simulationData.Unload, update_stale])

theorem EngineOK_Trim (s : simulationData) (h : EngineOK s) : EngineOK (sim.Trim s) := by
  unfold sim.Trim
  refine ⟨LenOK_data_Trim s, ?_, ?_⟩
  · exact Sorted_Trim _ h.2.1
  · intro hst
    exact absurd hst (by simp [simulationData.Trim, update_stale])

theorem SetList_cases (s : simulationData) (v : CellList) :
    (sim.SetList s v).staleNeighbours = s.staleNeighbours ∧
    (sim.SetList s v).neighbours = s.neighbours ∧
    (sim.SetList s v).tempData = s.tempData ∧
    CellList.coords (sim.SetList s v).cellData = CellList.coords s.cellData ∧
    (sim.SetList s v).cellData.length = s.cellData.length := by
  unfold sim.SetList simulationData.UpdateList
  split
  · exact ⟨rfl, rfl, rfl, rfl, rfl⟩
  · exact ⟨rfl, rfl, rfl, (UpdateList_loop_coords v s.cellData).1,
      (UpdateList_loop_coords v s.cellData).2⟩

theorem EngineOK_SetList (s : simulationData) (v : CellList) (h : EngineOK s) :
    EngineOK (sim.SetList s v) := by
  obtain ⟨hl, hs, hc⟩ := h
  obtain ⟨h1, h2, _, h3, h4⟩ := SetList_cases s v
  refine ⟨LenOK_data_UpdateList s v hl, Sorted_of_coords _ _ h3 hs, ?_⟩
  intro hst
  unfold CacheOK
  rw [h2, freshCache_congr _ _ h4 hl.1 h3]
  exact hc (by rw [← h1]; exact hst)

theorem EngineOK_Step (s : simulationData) (h : EngineOK s) :
    ∃ s1, s.Step = some s1 ∧ EngineOK s1 ∧ s1.cellData = stepCells s.cellData ∧
      s1.staleNeighbours = false := by
  obtain ⟨hl, hs, hc⟩ := h
  have hstep := Step_of_inv s hl hc
  refine ⟨_, hstep, ⟨LenOK_Step _ _ hl hstep, ?_, ?_⟩, rfl, rfl⟩
  · exact Sorted_of_coords _ _ (stepCells_coords _) hs
  · intro _
    unfold CacheOK
    simp only
    exact (freshCache_congr _ _ (stepCells_length _ hl.1) hl.1 (stepCells_coords _)).symm

/-- Every operation runs (no panic) from a state that satisfies the engine
invariant, and keeps the invariant. -/
theorem EngineOK_run (s : simulationData) (op : Op) (h : EngineOK s) :
    ∃ s1, op.run s = some s1 ∧ EngineOK s1 := by
  cases op with
  | set x y st => exact ⟨_, rfl, EngineOK_Set s x y st h⟩
  | load x y v => exact ⟨_, rfl, EngineOK_Load s x y v h⟩
  | unload v => exact ⟨_, rfl, EngineOK_Unload s v h⟩
  | trim => exact ⟨_, rfl, EngineOK_Trim s h⟩
  | setList v => exact ⟨_, rfl, EngineOK_SetList s v h⟩
  | step =>
    obtain ⟨s1, h1, h2, _⟩ := EngineOK_Step s h
    exact ⟨s1, h1, h2⟩

theorem EngineOK_of_reachable (ok : Op → Prop) (s : simulationData) (h : ReachableBy ok s) :
    EngineOK s := by
  induction h with
  | init => exact EngineOK_empty
  | next op _ _ hrun ih =>
    obtain ⟨s2, h2, hok⟩ := EngineOK_run _ op ih
    rw [hrun] at h2
    rw [Option.some.inj h2]
    exact hok

/-! ## Invariants of the engine -/

theorem Step_loop_coords (t0 : CellList) (rest : CellList) :
    ∀ (t1 : CellList) (cn : List Int) (r : CellList),
      simulationData.Step.loop t0 rest t1 cn = some r →
      CellList.coords r =
        CellList.coords rest ++ CellList.coords (t1.drop (3 * (CellList.records rest).length)) := by
  induction rest using CellList.records.induct with
  | case1 x y v rest ih =>
    intro t1 cn r h
    simp only [simulationData.Step.loop] at h
    split at h
    · exact absurd h (by simp)
    · split at h
      · rename_i a b c t1rest
        split at h
        · exact absurd h (by simp)
        · split at h
          · rename_i w _ tl htl
            have := ih _ _ _ htl
            rw [← Option.some.inj h]
            simp only [CellList.coords, CellList.records, List.map_cons, List.length_cons,
              List.cons_append] at this ⊢
            have e : 3 * ((CellList.records rest).length + 1) =
                3 * (CellList.records rest).length + 1 + 1 + 1 := by ring
            rw [e]
            simp only [List.drop_succ_cons]
            rw [this]
          · exact absurd h (by simp)
      · exact absurd h (by simp)
  | case2 rest hr =>
    intro t1 cn r h
    have hrr : CellList.records rest = [] := by
      match rest, hr with
      | [], _ => rfl
      | [_], _ => rfl
      | [_, _], _ => rfl
      | p :: q :: w :: rest, hr => exact absurd rfl (hr p q w rest)
    have e : simulationData.Step.loop t0 rest t1 cn = some t1 := by
      match rest, hr with
      | [], _ => rfl
      | [_], _ => rfl
      | [_, _], _ => rfl
      | p :: q :: w :: rest, hr => exact absurd rfl (hr p q w rest)
    rw [e] at h
    rw [← Option.some.inj h]
    simp [CellList.coords, hrr]

theorem Step_coords (s s1 : simulationData) (hl : LenOK s) (h : s.Step = some s1) :
    CellList.coords s1.cellData = CellList.coords s.cellData := by
  obtain ⟨cn, t1, _, ht1, rfl⟩ := Step_some s s1 h
  have := Step_loop_coords _ _ _ _ _ ht1
  simp only
  have h3 := hl.1
  rw [this, List.drop_of_length_le (by rw [CellList.length_records, hl.2.1]; omega)]
  simp [CellList.coords, CellList.records]

/-- C10: the buffers of the engine are in lockstep in the empty state and
after every operation applied to a state in which they are: `len(cellData)`
is a multiple of 3, `len(tempData) = len(cellData)` and `len(neighbours) =
8 * CellCount()`; every reachable state is such a state, and `Step` runs
from it. -/
theorem lengths_in_lockstep :
    LenOK empty ∧
    (∀ s : simulationData, LenOK s →
      (∀ x y st, LenOK (s.Set x y st)) ∧ (∀ x y v, LenOK (s.Load x y v)) ∧
      (∀ v, LenOK (s.Unload v)) ∧ LenOK s.Trim ∧ (∀ v, LenOK (s.UpdateList v)) ∧
      (∀ s1, s.Step = some s1 → LenOK s1) ∧ LenOK s.SortCells) ∧
    (∀ s : simulationData, ReachableBy Op.any s →
      LenOK s ∧ ∃ s1, s.Step = some s1 ∧ LenOK s1) := by
  refine ⟨LenOK_empty, fun s h => ⟨fun x y st => LenOK_data_Set s x y st h,
    fun x y v => LenOK_data_Load s x y v h, fun v => LenOK_data_Unload s v,
    LenOK_data_Trim s, fun v => LenOK_data_UpdateList s v h,
    fun s1 hs => LenOK_Step s s1 h hs, LenOK_SortCells s h⟩, fun s hr => ?_⟩
  have hok := EngineOK_of_reachable _ s hr
  obtain ⟨s1, h1, h2, _⟩ := EngineOK_Step s hok
  exact ⟨hok.1, s1, h1, h2.1⟩

theorem lengths_in_lockstep_witness :
    LenOK (sim.Set (sim.Set empty 0 0 1) 1 0 2) ∧
    (sim.Set (sim.Set empty 0 0 1) 1 0 2).Step =
      some ⟨[0, 0, 2, 1, 0, 3], [0, 0, 1, 1, 0, 2],
        [-1, -1, -1, 3, -1, -1, -1, -1, -1, -1, 0, -1, -1, -1, -1, -1], true, false⟩ ∧
    LenOK ⟨[0, 0, 2, 1, 0, 3], [0, 0, 1, 1, 0, 2],
        [-1, -1, -1, 3, -1, -1, -1, -1, -1, -1, 0, -1, -1, -1, -1, -1], true, false⟩ :=
  ⟨by decide, by decide,
    (lengths_in_lockstep.2.1 (sim.Set (sim.Set empty 0 0 1) 1 0 2) (by decide)).2.2.2.2.2.1 _
      (by decide)⟩

/-- C9: the live store is non-decreasing by (x, then y) in the empty state
and after every public operation applied to a state in which it is, for
all arguments (for `Step`, on states whose buffers are in lockstep, as they
are in every engine state); every operation runs from a reachable state.
`Set` and `Load` end in the sort, which moves records with `Swap` until none
is `Less` than its predecessor; a store is non-decreasing exactly when none of
its records is `Less` than an earlier one. -/
theorem store_stays_sorted :
    Sorted empty.cellData ∧
    (∀ s : simulationData, Sorted s.cellData →
      (∀ x y st, Sorted (sim.Set s x y st).cellData) ∧
      (∀ x y v, Sorted (sim.Load s x y v).cellData) ∧
      (∀ v, Sorted (sim.Unload s v).cellData) ∧
      Sorted (sim.Trim s).cellData ∧
      (∀ v, Sorted (sim.SetList s v).cellData) ∧
      (LenOK s → ∀ s1, s.Step = some s1 → Sorted s1.cellData)) ∧
    (∀ s : simulationData, ReachableBy Op.any s →
      Sorted s.cellData ∧ ∀ op : Op, ∃ s1, op.run s = some s1 ∧ Sorted s1.cellData) ∧
    (∀ c : CellList, Sorted c ↔
      ∀ i j, i < j → j < CellList.Len c → CellList.Less c j i = false) := by
  refine ⟨by decide, fun s hs => ⟨fun x y st => simulationData.SortCells_sorted _,
    fun x y v => simulationData.SortCells_sorted _, fun v => Sorted_Unload _ _ hs,
    Sorted_Trim _ hs, fun v => Sorted_of_coords _ _ (SetList_cases s v).2.2.2.1 hs,
    fun hl s1 h1 => Sorted_of_coords _ _ (Step_coords s s1 hl h1) hs⟩, fun s hr => ?_,
    fun c => ?_⟩
  · have hok := EngineOK_of_reachable _ s hr
    refine ⟨hok.2.1, fun op => ?_⟩
    obtain ⟨s1, h1, h2⟩ := EngineOK_run s op hok
    exact ⟨s1, h1, h2.2.1⟩
  · have h := Sorted_iff_Less c
    rw [CellList.length_records] at h
    exact h

theorem store_stays_sorted_witness :
    Sorted (sim.Set empty 5 5 1).cellData ∧
    (simulationData.Set (sim.Set empty 5 5 1) 0 7 2).cellData = [5, 5, 1, 0, 7, 2] ∧
    CellList.Less [5, 5, 1, 0, 7, 2] 1 0 = true ∧
    (sim.Set (sim.Set empty 5 5 1) 0 7 2).cellData = [0, 7, 2, 5, 5, 1] ∧
    Sorted (sim.Set (sim.Set empty 5 5 1) 0 7 2).cellData :=
  ⟨by decide, by decide, by decide, by decide,
    (store_stays_sorted.2.1 (sim.Set empty 5 5 1) (by decide)).1 0 7 2⟩

theorem Set_stale_cases (s : simulationData) (x y st : Int) (hs : Sorted s.cellData) :
    ((sim.Set s x y st).staleNeighbours = s.staleNeighbours ∧
      CellList.coords (sim.Set s x y st).cellData = CellList.coords s.cellData) ∨
    (sim.Set s x y st).staleNeighbours = true := by
  unfold sim.Set
  rcases data_Set_cases s x y st with ⟨h1, _, h3, _⟩ | ⟨h1, _⟩
  · left
    rw [simulationData.SortCells_of_sorted _ (Sorted_of_coords _ _ h3 hs)]
    exact ⟨h1, h3⟩
  · right
    rw [simulationData.SortCells_stale]; exact h1

/-- C8: in every reachable state, when `staleNeighbours` is false the cache
block of every cell holds the eight `IndexOf` results on the current store,
in the order N, S, W, E, NW, NE, SW, SE (`-1` exactly for an absent
coordinate); an operation that changes the sequence of coordinates leaves
`staleNeighbours` true, no operation other than `Step` turns it from true to
false, and `Step` leaves it false. -/
theorem cache_valid_unless_stale :
    (∀ s : simulationData, ReachableBy Op.any s → s.staleNeighbours = false →
      ∀ (i : Nat) (h : i < (CellList.coords s.cellData).length),
        simulationData.block s.neighbours i =
          simulationData.neighbourIndices s.cellData
            ((CellList.coords s.cellData).get ⟨i, h⟩).1
            ((CellList.coords s.cellData).get ⟨i, h⟩).2) ∧
    (∀ s : simulationData, ReachableBy Op.any s → ∀ x y : Int,
      (CellList.IndexOf s.cellData x y = -1 ↔ (x, y) ∉ CellList.coords s.cellData)) ∧
    (∀ s : simulationData, ReachableBy Op.any s → ∀ (op : Op) (s1 : simulationData),
      op.run s = some s1 →
        (CellList.coords s1.cellData ≠ CellList.coords s.cellData →
          s1.staleNeighbours = true) ∧
        (op ≠ Op.step → s1.staleNeighbours = false → s.staleNeighbours = false) ∧
        (op = Op.step → s1.staleNeighbours = false)) := by
  refine ⟨fun s hr hst i h => ?_, fun s hr x y => ?_, fun s hr op s1 hrun => ?_⟩
  · have hok := EngineOK_of_reachable _ s hr
    have hc := hok.2.2 hst
    unfold CacheOK freshCache at hc
    rw [hc]
    exact block_flatMap (fun p => simulationData.neighbourIndices s.cellData p.1 p.2)
      (fun p => neighbourIndices_length _ _ _) _ i h
  · have hok := EngineOK_of_reachable _ s hr
    rcases CellList.IndexOf_sorted s.cellData hok.2.1 x y with ⟨h1, h2⟩ | ⟨m, h1, h2, h3, h4, _⟩
    · simp [h1, h2]
    · have hmem := CellList.mem_coords_of_lt s.cellData m h2
      rw [h3, h4] at hmem
      have : CellList.IndexOf s.cellData x y ≠ -1 := by omega
      simp [this, hmem]
  · have hok := EngineOK_of_reachable _ s hr
    cases op with
    | set x y st =>
      have e : s1 = sim.Set s x y st := (Option.some.inj hrun).symm
      subst e
      rcases Set_stale_cases s x y st hok.2.1 with ⟨h1, h2⟩ | h1
      · exact ⟨fun hne => absurd h2 hne, fun _ h => by rw [← h1]; exact h,
          fun h => absurd h (by simp)⟩
      · exact ⟨fun _ => h1, fun _ h => by rw [h1] at h; exact absurd h (by simp),
          fun h => absurd h (by simp)⟩
    | load x y v =>
      have e : s1 = sim.Load s x y v := (Option.some.inj hrun).symm
      subst e
      have h1 : (sim.Load s x y v).staleNeighbours = true := by
        unfold sim.Load
        rw [simulationData.SortCells_stale]
        rfl
      exact ⟨fun _ => h1, fun _ h => by rw [h1] at h; exact absurd h (by simp),
        fun h => absurd h (by simp)⟩
    | unload v =>
      have e : s1 = sim.Unload s v := (Option.some.inj hrun).symm
      subst e
      have h1 : (sim.Unload s v).staleNeighbours = true := rfl
      exact ⟨fun _ => h1, fun _ h => by rw [h1] at h; exact absurd h (by simp),
        fun h => absurd h (by simp)⟩
    | trim =>
      have e : s1 = sim.Trim s := (Option.some.inj hrun).symm
      subst e
      have h1 : (sim.Trim s).staleNeighbours = true := rfl
      exact ⟨fun _ => h1, fun _ h => by rw [h1] at h; exact absurd h (by simp),
        fun h => absurd h (by simp)⟩
    | setList v =>
      have e : s1 = sim.SetList s v := (Option.some.inj hrun).symm
      subst e
      obtain ⟨h1, _, _, h3, _⟩ := SetList_cases s v
      exact ⟨fun hne => absurd h3 hne, fun _ h => by rw [← h1]; exact h,
        fun h => absurd h (by simp)⟩
    | step =>
      obtain ⟨s2, h2, _, h4, h5⟩ := EngineOK_Step s hok
      have hrun' : s.Step = some s1 := hrun
      rw [h2] at hrun'
      have e : s2 = s1 := Option.some.inj hrun'
      subst e
      refine ⟨fun hne => absurd ?_ hne, fun h => absurd rfl h, fun _ => h5⟩
      rw [h4]; exact stepCells_coords _

theorem cache_valid_unless_stale_witness :
    ReachableBy Op.any
      ⟨[0, 0, 2, 1, 0, 3], [0, 0, 1, 1, 0, 2],
        [-1, -1, -1, 3, -1, -1, -1, -1, -1, -1, 0, -1, -1, -1, -1, -1], true, false⟩ ∧
    simulationData.block
        [-1, -1, -1, 3, -1, -1, -1, -1, -1, -1, 0, -1, -1, -1, -1, -1] 1 =
      [-1, -1, 0, -1, -1, -1, -1, -1] ∧
    simulationData.block
        [-1, -1, -1, 3, -1, -1, -1, -1, -1, -1, 0, -1, -1, -1, -1, -1] 1 =
      simulationData.neighbourIndices [0, 0, 2, 1, 0, 3] 1 0 :=
  ⟨ReachableBy.next Op.step
      (ReachableBy.next (Op.set 1 0 2)
        (ReachableBy.next (Op.set 0 0 1) ReachableBy.init trivial rfl) trivial rfl)
      trivial (by decide),
    by decide,
    cache_valid_unless_stale.1
      ⟨[0, 0, 2, 1, 0, 3], [0, 0, 1, 1, 0, 2],
        [-1, -1, -1, 3, -1, -1, -1, -1, -1, -1, 0, -1, -1, -1, -1, -1], true, false⟩
      (ReachableBy.next Op.step
        (ReachableBy.next (Op.set 1 0 2)
          (ReachableBy.next (Op.set 0 0 1) ReachableBy.init trivial rfl) trivial rfl)
        trivial (by decide))
      rfl 1 (by decide)⟩

/-! ## The transition rule -/

theorem countP_or_of_disjoint {α : Type} (l : List α) (P Q : α → Bool)
    (h : ∀ a ∈ l, ¬ (P a = true ∧ Q a = true)) :
    l.countP (fun a => P a || Q a) = l.countP P + l.countP Q := by
  induction l with
  | nil => rfl
  | cons a l ih =>
    have ih' := ih (fun b hb => h b (List.mem_cons_of_mem _ hb))
    have ha := h a (List.mem_cons_self _ _)
    simp only [List.countP_cons, ih']
    cases hp : P a <;> cases hq : Q a <;> simp_all <;> omega

theorem countP_key (rs : List (Int × Int × Int)) (hn : (keys rs).Nodup) (a b v : Int) :
    rs.countP (fun r => decide ((r.1, r.2.1) = (a, b) ∧ r.2.2 = v)) =
      if (a, b, v) ∈ rs then 1 else 0 := by
  induction rs with
  | nil => simp
  | cons r rs ih =>
    have hn2 : (keys rs).Nodup := (List.nodup_cons.mp hn).2
    have hr : (r.1, r.2.1) ∉ keys rs := (List.nodup_cons.mp hn).1
    rw [List.countP_cons, ih hn2]
    by_cases hm : (r.1, r.2.1) = (a, b) ∧ r.2.2 = v
    · have e : r = (a, b, v) := by
        obtain ⟨h1, h2⟩ := hm
        simp only [Prod.mk.injEq] at h1
        ext <;> simp [h1.1, h1.2, h2]
      have hnot : (a, b, v) ∉ rs := by
        intro hin
        apply hr
        rw [hm.1]
        exact mem_keys_of_mem _ _ _ _ hin
      simp [hm, hnot, e]
    · have hne : (a, b, v) ≠ r := by
        intro e
        apply hm
        rw [← e]
        exact ⟨rfl, rfl⟩
      simp only [hm, decide_False, Bool.false_eq_true, if_false, Nat.add_zero, List.mem_cons, hne,
        false_or]

/-- Counting via lookups at pairwise distinct coordinates is counting the
records at these coordinates. -/
theorem countP_stateAt (c : CellList) (hs : Sorted c) (hd : NoDup c) (v : Int) :
    ∀ ps : List (Int × Int), ps.Nodup →
      ps.countP (fun p => decide (stateAt c p.1 p.2 = some v)) =
        (CellList.records c).countP (fun r => decide ((r.1, r.2.1) ∈ ps ∧ r.2.2 = v)) := by
  intro ps
  induction ps with
  | nil => intro _; simp
  | cons p ps ih =>
    intro hn
    have hn2 : ps.Nodup := (List.nodup_cons.mp hn).2
    have hp : p ∉ ps := (List.nodup_cons.mp hn).1
    rw [List.countP_cons, ih hn2]
    have hsplit : (CellList.records c).countP
        (fun r => decide ((r.1, r.2.1) ∈ p :: ps ∧ r.2.2 = v)) =
        (CellList.records c).countP (fun r => decide ((r.1, r.2.1) ∈ ps ∧ r.2.2 = v)) +
        (CellList.records c).countP (fun r => decide ((r.1, r.2.1) = (p.1, p.2) ∧ r.2.2 = v)) := by
      rw [← countP_or_of_disjoint]
      · apply List.countP_congr
        intro r _
        simp only [List.mem_cons, Bool.or_eq_true, decide_eq_true_eq]
        constructor
        · rintro ⟨h1 | h1, h2⟩
          · exact Or.inr ⟨h1, h2⟩
          · exact Or.inl ⟨h1, h2⟩
        · rintro (⟨h1, h2⟩ | ⟨h1, h2⟩)
          · exact ⟨Or.inr h1, h2⟩
          · exact ⟨Or.inl h1, h2⟩
      · intro r _
        simp only [decide_eq_true_eq]
        rintro ⟨⟨h1, _⟩, ⟨h2, _⟩⟩
        rw [h2] at h1
        exact hp h1
    rw [hsplit, countP_key _ hd]
    congr 1
    by_cases hst : stateAt c p.1 p.2 = some v
    · have := (stateAt_eq_some_iff c hs hd p.1 p.2 v).mp hst
      simp [hst, this]
    · have : (p.1, p.2, v) ∉ CellList.records c :=
        fun h => hst ((stateAt_eq_some_iff c hs hd p.1 p.2 v).mpr h)
      simp [hst, this]

theorem mooreNeighbours_nodup (x y : Int) : (mooreNeighbours x y).Nodup := by
  unfold mooreNeighbours
  simp only [List.nodup_cons, List.mem_cons, Prod.mk.injEq, List.mem_singleton, List.not_mem_nil,
    not_false_eq_true, List.nodup_nil, and_true, not_or]
  omega

theorem neighbourCoords_inside (x y : Int) (hx : insideInt32 x) (hy : insideInt32 y) :
    neighbourCoords x y = mooreNeighbours x y := by
  unfold insideInt32 at hx hy
  have e1 : wrap32 (x - 1) = x - 1 := by unfold wrap32; omega
  have e2 : wrap32 (x + 1) = x + 1 := by unfold wrap32; omega
  have e3 : wrap32 (y - 1) = y - 1 := by unfold wrap32; omega
  have e4 : wrap32 (y + 1) = y + 1 := by unfold wrap32; omega
  unfold neighbourCoords mooreNeighbours
  rw [e1, e2, e3, e4]

theorem cachedHeads_eq (c : CellList) (hs : Sorted c) (hd : NoDup c) (x y : Int)
    (hx : insideInt32 x) (hy : insideInt32 y) : cachedHeads c x y = headNeighbours c x y := by
  unfold cachedHeads headNeighbours
  rw [neighbourCoords_inside x y hx hy]
  exact countP_stateAt c hs hd CellHead _ (mooreNeighbours_nodup x y)

theorem stepState_eq (c : CellList) (hs : Sorted c) (hd : NoDup c) (r : Int × Int × Int)
    (hx : insideInt32 r.1) (hy : insideInt32 r.2.1) : stepState c r = nextState c r := by
  unfold stepState nextState
  rw [cachedHeads_eq c hs hd r.1 r.2.1 hx hy]
  by_cases h1 : r.2.2 = CellWire
  · have h2 : r.2.2 ≠ CellHead := by rw [h1]; decide
    have h3 : r.2.2 ≠ CellTail := by rw [h1]; decide
    simp only [h1, if_true] at *
    simp only [h2, h3, if_false]
  · simp only [h1, if_false]

theorem NoDup_of_coords (a c : CellList) (h : CellList.coords a = CellList.coords c)
    (hd : NoDup c) : NoDup a := by
  unfold NoDup; rw [h]; exact hd

theorem NoDup_Unload (c1 c2 : CellList) (hd : NoDup c1) : NoDup (CellList.Unload c1 c2) := by
  unfold CellList.Unload
  apply NoDup_Trim
  exact NoDup_of_coords _ _ (Unload_loop_coords c2 c1).1 hd

/-- Operations with duplicate-free `int32` patches keep the store free of
duplicate coordinates. -/
theorem NoDup_run (s s1 : simulationData) (op : Op) (hok : EngineOK s) (hd : NoDup s.cellData)
    (hop : op.distinctPatch) (hrun : op.run s = some s1) : NoDup s1.cellData := by
  have hst : StoreOK s.cellData := ⟨hok.1.1, hok.2.1, hd⟩
  cases op with
  | set x y st =>
    rw [← Option.some.inj hrun]
    exact (Set_stateAt s x y st hst).1.2.2
  | load x y v =>
    rw [← Option.some.inj hrun]
    obtain ⟨hperm, _, _⟩ := Load_cellData_perm s x y v
    unfold NoDup CellList.coords
    exact (List.Perm.nodup_iff (hperm.map _)).mpr (Load_nodup s.cellData x y v hst hop.1 hop.2)
  | unload v =>
    rw [← Option.some.inj hrun]
    exact NoDup_Unload _ _ hd
  | trim =>
    rw [← Option.some.inj hrun]
    exact NoDup_Trim _ hd
  | setList v =>
    rw [← Option.some.inj hrun]
    exact NoDup_of_coords _ _ (SetList_cases s v).2.2.2.1 hd
  | step =>
    exact NoDup_of_coords _ _ (Step_coords s s1 hok.1 hrun) hd

theorem NoDup_of_reachable (s : simulationData) (h : ReachableBy Op.distinctPatch s) :
    NoDup s.cellData := by
  induction h with
  | init => decide
  | next op hr hop hrun ih =>
    exact NoDup_run _ _ op (EngineOK_of_reachable _ _ hr) ih hop hrun

/-- C1: from every state reachable by `Set`, `Load` of patches with pairwise
distinct coordinates, `Unload`, `Trim`, `SetList` and `Step`, whose cells are
strictly inside the `int32` range, an executed `Step` runs and yields the
same coordinates in the same order, each cell with the state `nextState`
gives it: tail for a head, wire for a tail, empty for an empty cell, and for
a wire head exactly when 1 or 2 cells of the old store at its eight Moore
neighbours hold a head, wire otherwise. -/
theorem Step_applies_rule (s : simulationData) (hr : ReachableBy Op.distinctPatch s)
    (hin : ∀ r ∈ CellList.records s.cellData, insideInt32 r.1 ∧ insideInt32 r.2.1) :
    ∃ s1, s.Step = some s1 ∧
      s1.cellData = CellList.ofRecords
        ((CellList.records s.cellData).map (fun r => (r.1, r.2.1, nextState s.cellData r))) ∧
      CellList.coords s1.cellData = CellList.coords s.cellData ∧
      ∀ r ∈ CellList.records s.cellData,
        (r.2.2 = CellHead → nextState s.cellData r = CellTail) ∧
        (r.2.2 = CellTail → nextState s.cellData r = CellWire) ∧
        (r.2.2 = CellEmpty → nextState s.cellData r = CellEmpty) ∧
        (r.2.2 = CellWire →
          (nextState s.cellData r = CellHead ↔
            (headNeighbours s.cellData r.1 r.2.1 = 1 ∨ headNeighbours s.cellData r.1 r.2.1 = 2)) ∧
          (nextState s.cellData r ≠ CellHead → nextState s.cellData r = CellWire)) := by
  have hok := EngineOK_of_reachable _ s hr
  have hd := NoDup_of_reachable s hr
  obtain ⟨s1, h1, _, h3, _⟩ := EngineOK_Step s hok
  have hcells : stepCells s.cellData = CellList.ofRecords
      ((CellList.records s.cellData).map (fun r => (r.1, r.2.1, nextState s.cellData r))) := by
    unfold stepCells
    congr 1
    apply List.map_congr_left
    intro r hrm
    rw [stepState_eq s.cellData hok.2.1 hd r (hin r hrm).1 (hin r hrm).2]
  refine ⟨s1, h1, by rw [h3, hcells], by rw [h3]; exact stepCells_coords _, ?_⟩
  intro r _
  have hWH : CellWire ≠ CellHead := by decide
  have hWT : CellWire ≠ CellTail := by decide
  have hTH : CellTail ≠ CellHead := by decide
  have hEH : CellEmpty ≠ CellHead := by decide
  have hET : CellEmpty ≠ CellTail := by decide
  have hEW : CellEmpty ≠ CellWire := by decide
  unfold nextState
  refine ⟨fun h => ?_, fun h => ?_, fun h => ?_, fun h => ?_⟩
  · rw [if_pos h]
  · rw [h, if_neg hTH, if_pos rfl]
  · rw [h, if_neg hEH, if_neg hET, if_neg hEW]
  · rw [h, if_neg hWH, if_neg hWT, if_pos rfl]
    constructor
    · constructor
      · intro hh
        by_contra hc
        rw [if_neg hc] at hh
        exact hWH hh
      · intro hc
        rw [if_pos hc]
    · intro hh
      by_cases hc : headNeighbours s.cellData r.1 r.2.1 = 1 ∨ headNeighbours s.cellData r.1 r.2.1 = 2
      · rw [if_pos hc] at hh; exact absurd rfl hh
      · rw [if_neg hc]

theorem Step_applies_rule_witness :
    ReachableBy Op.distinctPatch (sim.Load empty 0 0 [1, 0, 2, 0, 1, 1, 2, 1, 3, 1, 2, 1]) ∧
    (sim.Load empty 0 0 [1, 0, 2, 0, 1, 1, 2, 1, 3, 1, 2, 1]).cellData =
      [0, 1, 1, 1, 0, 2, 1, 2, 1, 2, 1, 3] ∧
    (∀ r ∈ CellList.records (sim.Load empty 0 0 [1, 0, 2, 0, 1, 1, 2, 1, 3, 1, 2, 1]).cellData,
      insideInt32 r.1 ∧ insideInt32 r.2.1) ∧
    CellList.ofRecords ((CellList.records [0, 1, 1, 1, 0, 2, 1, 2, 1, 2, 1, 3]).map
      (fun r => (r.1, r.2.1, nextState [0, 1, 1, 1, 0, 2, 1, 2, 1, 2, 1, 3] r))) =
      [0, 1, 2, 1, 0, 3, 1, 2, 1, 2, 1, 1] ∧
    ∃ s1, (sim.Load empty 0 0 [1, 0, 2, 0, 1, 1, 2, 1, 3, 1, 2, 1]).Step = some s1 ∧
      s1.cellData = CellList.ofRecords
        ((CellList.records (sim.Load empty 0 0 [1, 0, 2, 0, 1, 1, 2, 1, 3, 1, 2, 1]).cellData).map
          (fun r => (r.1, r.2.1,
            nextState (sim.Load empty 0 0 [1, 0, 2, 0, 1, 1, 2, 1, 3, 1, 2, 1]).cellData r))) :=
  ⟨ReachableBy.next (Op.load 0 0 [1, 0, 2, 0, 1, 1, 2, 1, 3, 1, 2, 1]) ReachableBy.init
      ⟨by decide, by decide⟩ rfl,
    by decide, by decide, by decide,
    (Step_applies_rule (sim.Load empty 0 0 [1, 0, 2, 0, 1, 1, 2, 1, 3, 1, 2, 1])
      (ReachableBy.next (Op.load 0 0 [1, 0, 2, 0, 1, 1, 2, 1, 3, 1, 2, 1]) ReachableBy.init
        ⟨by decide, by decide⟩ rfl)
      (by decide)).imp (fun _ h => ⟨h.1, h.2.1⟩)⟩

/-! ## The clock preset; the history stacks -/

/-- C11: loading `components.Clock4` at (0, 0) into the empty engine and
stepping four times gives back the store right after the load; the stores
after one, two and three steps differ from it. -/
theorem Clock4_period :
    (sim.Load empty 0 0 components.Clock4).cellData = [0, 1, 1, 1, 0, 2, 1, 2, 1, 2, 1, 3] ∧
    (stepN 1 (sim.Load empty 0 0 components.Clock4)).map (fun s => s.cellData) =
      some [0, 1, 2, 1, 0, 3, 1, 2, 1, 2, 1, 1] ∧
    (stepN 2 (sim.Load empty 0 0 components.Clock4)).map (fun s => s.cellData) =
      some [0, 1, 3, 1, 0, 1, 1, 2, 2, 2, 1, 1] ∧
    (stepN 3 (sim.Load empty 0 0 components.Clock4)).map (fun s => s.cellData) =
      some [0, 1, 1, 1, 0, 1, 1, 2, 3, 2, 1, 2] ∧
    (stepN 4 (sim.Load empty 0 0 components.Clock4)).map (fun s => s.cellData) =
      some (sim.Load empty 0 0 components.Clock4).cellData ∧
    (∀ n, n = 1 ∨ n = 2 ∨ n = 3 →
      (stepN n (sim.Load empty 0 0 components.Clock4)).map (fun s => s.cellData) ≠
        some (sim.Load empty 0 0 components.Clock4).cellData) := by
  refine ⟨by decide, by decide, by decide, by decide, by decide, ?_⟩
  rintro n (rfl | rfl | rfl) <;> decide

theorem Clock4_period_witness :
    (stepN 2 (sim.Load empty 0 0 components.Clock4)).map (fun s => s.cellData) ≠
      some (sim.Load empty 0 0 components.Clock4).cellData :=
  Clock4_period.2.2.2.2.2 2 (Or.inr (Or.inl rfl))

namespace History

theorem getLast?_snoc (u : List historyState) (e : historyState) :
    (u ++ [e]).getLast? = some e := by
  simp

theorem Undo_snoc (u r : List historyState) (e : historyState) (data : simulationData) :
    Undo ⟨u ++ [e], r⟩ data = (⟨u, r ++ [e]⟩, sim.SetList data e.before) := by
  unfold Undo
  simp

theorem Redo_snoc (u r : List historyState) (e : historyState) (data : simulationData) :
    Redo ⟨u, r ++ [e]⟩ data = (⟨u ++ [e], r⟩, sim.SetList data e.after) := by
  unfold Redo
  simp

theorem Undo_nil (r : List historyState) (data : simulationData) :
    Undo ⟨[], r⟩ data = (⟨[], r⟩, data) := by
  unfold Undo
  simp

theorem Redo_nil (u : List historyState) (data : simulationData) :
    Redo ⟨u, []⟩ data = (⟨u, []⟩, data) := by
  unfold Redo
  simp

theorem exists_snoc_of_ne_nil (l : List historyState) (h : l ≠ []) :
    ∃ u e, l = u ++ [e] :=
  ⟨l.dropLast, l.getLast h, (List.dropLast_append_getLast h).symm⟩

end History

/-- C15: `changeHandler` pushes the entry on top of the undo stack and
empties the redo stack. -/
theorem changeHandler_spec (h : History) (before after : CellList) :
    (h.changeHandler before after).undo = h.undo ++ [⟨before, after⟩] ∧
    (h.changeHandler before after).redo = [] := by
  unfold History.changeHandler
  exact ⟨rfl, List.take_zero h.redo⟩

/-- C16: `Undo` on an empty undo stack and `Redo` on an empty redo stack
change nothing; otherwise `Undo` moves the top undo entry to the top of the
redo stack (applying its `before` fragment), `Redo` moves the top redo entry
back (applying its `after` fragment), and `Undo` followed by `Redo` leaves
both stacks as they were. -/
theorem Undo_Redo_stacks (h : History) (data : simulationData) :
    (h.undo = [] → h.Undo data = (h, data)) ∧
    (h.redo = [] → h.Redo data = (h, data)) ∧
    (∀ u e, h.undo = u ++ [e] →
      h.Undo data = (⟨u, h.redo ++ [e]⟩, sim.SetList data e.before)) ∧
    (∀ r e, h.redo = r ++ [e] →
      h.Redo data = (⟨h.undo ++ [e], r⟩, sim.SetList data e.after)) ∧
    (h.undo ≠ [] → ((h.Undo data).1.Redo (h.Undo data).2).1 = h) := by
  obtain ⟨hu, hr⟩ := h
  refine ⟨?_, ?_, ?_, ?_, ?_⟩
  · intro h0
    simp only at h0
    subst h0
    exact History.Undo_nil _ _
  · intro h0
    simp only at h0
    subst h0
    exact History.Redo_nil _ _
  · intro u e h0
    simp only at h0
    subst h0
    exact History.Undo_snoc _ _ _ _
  · intro r e h0
    simp only at h0
    subst h0
    exact History.Redo_snoc _ _ _ _
  · intro hne
    obtain ⟨u, e, rfl⟩ := History.exists_snoc_of_ne_nil hu hne
    rw [History.Undo_snoc, History.Redo_snoc]

theorem Undo_Redo_stacks_witness :
    (⟨[⟨[0, 0, 1], [0, 0, 2]⟩, ⟨[1, 1, 0], [1, 1, 3]⟩], []⟩ : History).undo ≠ [] ∧
    ((⟨[⟨[0, 0, 1], [0, 0, 2]⟩, ⟨[1, 1, 0], [1, 1, 3]⟩], []⟩ : History).Undo empty).1 =
      ⟨[⟨[0, 0, 1], [0, 0, 2]⟩], [⟨[1, 1, 0], [1, 1, 3]⟩]⟩ ∧
    (((⟨[⟨[0, 0, 1], [0, 0, 2]⟩, ⟨[1, 1, 0], [1, 1, 3]⟩], []⟩ : History).Undo empty).1.Redo
      ((⟨[⟨[0, 0, 1], [0, 0, 2]⟩, ⟨[1, 1, 0], [1, 1, 3]⟩], []⟩ : History).Undo empty).2).1 =
      ⟨[⟨[0, 0, 1], [0, 0, 2]⟩, ⟨[1, 1, 0], [1, 1, 3]⟩], []⟩ :=
  ⟨by decide, by decide,
    (Undo_Redo_stacks ⟨[⟨[0, 0, 1], [0, 0, 2]⟩, ⟨[1, 1, 0], [1, 1, 3]⟩], []⟩ empty).2.2.2.2
      (by decide)⟩

/-! ## Undo, Redo and the engine flags -/

theorem SetList_flags (data : simulationData) (v : CellList) :
    (sim.SetList data v).staleNeighbours = data.staleNeighbours ∧
    (v ≠ [] → (sim.SetList data v).cellsChanged = true) ∧
    (v = [] → sim.SetList data v = data) := by
  unfold sim.SetList simulationData.UpdateList
  refine ⟨?_, ?_, ?_⟩
  · split <;> rfl
  · intro hv
    have : ¬ v.length = 0 := fun h => hv (List.eq_nil_of_length_eq_zero h)
    rw [if_neg this]
  · intro hv
    subst hv
    rfl

/-- C17 fails: `Undo` through `SetList` never touches `staleNeighbours`, and
with an empty `before` fragment it does not set the changed flag either. -/
theorem Undo_flags_counterexample :
    (⟨[⟨[0, 0, 1], [0, 0, 2]⟩], []⟩ : History).undo ≠ [] ∧
    ((⟨[⟨[0, 0, 1], [0, 0, 2]⟩], []⟩ : History).Undo empty).2.staleNeighbours = false ∧
    (⟨[⟨[], [0, 0, 2]⟩], []⟩ : History).undo ≠ [] ∧
    ((⟨[⟨[], [0, 0, 2]⟩], []⟩ : History).Undo empty).2.cellsChanged = false := by
  decide

/-- C17 as amended: `Undo` on a non-empty undo stack (`Redo` on a non-empty
redo stack) applies the `before` (`after`) fragment of the top entry; the
changed flag is true afterwards when that fragment is not empty, the engine
is untouched when it is empty, and `staleNeighbours` is left as it was. -/
theorem Undo_Redo_flags (h : History) (data : simulationData) :
    (h.undo ≠ [] → ∃ u e, h.undo = u ++ [e] ∧
      (e.before ≠ [] → (h.Undo data).2.cellsChanged = true) ∧
      (e.before = [] → (h.Undo data).2 = data) ∧
      (h.Undo data).2.staleNeighbours = data.staleNeighbours) ∧
    (h.redo ≠ [] → ∃ r e, h.redo = r ++ [e] ∧
      (e.after ≠ [] → (h.Redo data).2.cellsChanged = true) ∧
      (e.after = [] → (h.Redo data).2 = data) ∧
      (h.Redo data).2.staleNeighbours = data.staleNeighbours) := by
  obtain ⟨hu, hr⟩ := h
  constructor
  · intro hne
    obtain ⟨u, e, rfl⟩ := History.exists_snoc_of_ne_nil hu hne
    rw [History.Undo_snoc]
    obtain ⟨h1, h2, h3⟩ := SetList_flags data e.before
    exact ⟨u, e, rfl, h2, h3, h1⟩
  · intro hne
    obtain ⟨r, e, rfl⟩ := History.exists_snoc_of_ne_nil hr hne
    rw [History.Redo_snoc]
    obtain ⟨h1, h2, h3⟩ := SetList_flags data e.after
    exact ⟨r, e, rfl, h2, h3, h1⟩

theorem Undo_Redo_flags_witness :
    (⟨[⟨[0, 0, 1], [0, 0, 2]⟩], []⟩ : History).undo ≠ [] ∧
    ((⟨[⟨[0, 0, 1], [0, 0, 2]⟩], []⟩ : History).Undo (sim.Set empty 0 0 2)).2.cellData =
      [0, 0, 1] ∧
    ∃ u e, (⟨[⟨[0, 0, 1], [0, 0, 2]⟩], []⟩ : History).undo = u ++ [e] ∧
      (e.before ≠ [] →
        ((⟨[⟨[0, 0, 1], [0, 0, 2]⟩], []⟩ : History).Undo (sim.Set empty 0 0 2)).2.cellsChanged
          = true) ∧
      (e.before = [] →
        ((⟨[⟨[0, 0, 1], [0, 0, 2]⟩], []⟩ : History).Undo (sim.Set empty 0 0 2)).2 =
          sim.Set empty 0 0 2) ∧
      ((⟨[⟨[0, 0, 1], [0, 0, 2]⟩], []⟩ : History).Undo (sim.Set empty 0 0 2)).2.staleNeighbours
        = (sim.Set empty 0 0 2).staleNeighbours :=
  ⟨by decide, by decide,
    (Undo_Redo_flags ⟨[⟨[0, 0, 1], [0, 0, 2]⟩], []⟩ (sim.Set empty 0 0 2)).1 (by decide)⟩

/-! ## Undo of a Set edit -/

/-- One round of a lookup-and-write loop on a well-formed store, as a map
update: the binding of `(x, y)`, if there is one, becomes `v`. -/
theorem stateAt_set_lookup (c : CellList) (h : StoreOK c) (x y v : Int) :
    StoreOK (if CellList.IndexOf c x y > -1 then
        c.set (CellList.IndexOf c x y + 2).toNat v else c) ∧
    ∀ a b, stateAt (if CellList.IndexOf c x y > -1 then
        c.set (CellList.IndexOf c x y + 2).toNat v else c) a b =
      if a = x ∧ b = y then (stateAt c x y).map (fun _ => v) else stateAt c a b := by
  have hco := coords_set_lookup c x y v
  have hle := length_set_lookup c x y v
  have hre := records_set_lookup c h.2.1 h.2.2 x y v
  have hok : StoreOK (if CellList.IndexOf c x y > -1 then
      c.set (CellList.IndexOf c x y + 2).toNat v else c) :=
    ⟨by rw [hle]; exact h.1, Sorted_of_coords _ _ hco h.2.1, by unfold NoDup; rw [hco]; exact h.2.2⟩
  refine ⟨hok, fun a b => ?_⟩
  apply Option.ext
  intro w
  simp only [Option.mem_def]
  rw [stateAt_eq_some_iff _ hok.2.1 hok.2.2, hre, mem_putState]
  by_cases hab : a = x ∧ b = y
  · rw [if_pos hab, if_pos hab]
    have hk : (CellList.records c).map (fun r => (r.1, r.2.1)) = CellList.coords c := rfl
    rw [hk, ← stateAt_isSome_iff c h.2.1 x y]
    cases hst : stateAt c x y with
    | none => simp
    | some z =>
      simp only [Option.isSome_some, and_true, Option.map_some', Option.some.injEq]
      exact eq_comm
  · rw [if_neg hab, if_neg hab]
    exact (stateAt_eq_some_iff c h.2.1 h.2.2 a b w).symm

theorem UpdateList_single (s : simulationData) (x y v : Int) :
    (sim.SetList s [x, y, v]).cellData =
      if CellList.IndexOf s.cellData x y > -1 then
        s.cellData.set (CellList.IndexOf s.cellData x y + 2).toNat v else s.cellData := by
  unfold sim.SetList simulationData.UpdateList
  simp only [List.length_cons, List.length_nil]
  rw [if_neg (by omega)]
  simp only [UpdateList_loop_step]
  rfl

theorem fragmentOf_single (c : CellList) (x y : Int) :
    fragmentOf c [(x, y)] = [x, y, (stateAt c x y).getD CellEmpty] := rfl

theorem CellCount_Set (s : simulationData) (x y st : Int) (h : StoreOK s.cellData) :
    sim.CellCount (sim.Set s x y st) =
      if (stateAt s.cellData x y).isSome = true ∨ st = CellEmpty then sim.CellCount s
      else sim.CellCount s + 1 := by
  unfold sim.CellCount simulationData.CellCount
  by_cases hf : CellList.IndexOf s.cellData x y > -1
  · have hsome := (stateAt_isSome_iff_IndexOf _ x y h.2.1).mpr hf
    rw [Set_cellData_found s x y st h.2.1 hf, if_pos (Or.inl hsome), List.length_set]
  · have hnone : ¬ (stateAt s.cellData x y).isSome = true :=
      fun hc => hf ((stateAt_isSome_iff_IndexOf _ x y h.2.1).mp hc)
    by_cases he : st = CellEmpty
    · rw [Set_cellData_noop s x y st h.2.1 hf he, if_pos (Or.inr he)]
    · rw [(Set_records_new s x y st h.1 hf he).2, if_neg (by
        rintro (h1 | h1)
        · exact hnone h1
        · exact he h1)]
      omega

/-- C13 fails: undoing a `Set` that added a cell leaves the cell in the
store, with state `CellEmpty`, so neither `CellCount()` nor the lookup at
`(0, 0)` is back at its value before the edit. -/
theorem Undo_Set_counterexample :
    StoreOK empty.cellData ∧
    sim.CellCount empty = 0 ∧ stateAt empty.cellData 0 0 = none ∧
    sim.CellCount
      (((⟨[], []⟩ : History).changeHandler (fragmentOf empty.cellData [(0, 0)]) [0, 0, 1]).Undo
        (sim.Set empty 0 0 1)).2 = 1 ∧
    stateAt
      (((⟨[], []⟩ : History).changeHandler (fragmentOf empty.cellData [(0, 0)]) [0, 0, 1]).Undo
        (sim.Set empty 0 0 1)).2.cellData 0 0 = some CellEmpty := by
  decide

/-- C13 as amended: after a `Set` edit recorded with `before` = the cell's
old state (`CellEmpty` when absent) and `after` = the new state, `Undo`
restores the state found at every coordinate when an absent coordinate is
read as `CellEmpty`; every coordinate other than `(x, y)` is exactly as
before; when the cell existed before the edit, or the edit set `CellEmpty`,
`CellCount()` and every lookup are restored; when the edit added the cell,
the cell stays in the store holding `CellEmpty` and `CellCount()` stays one
above its old value. -/
theorem Undo_Set (s : simulationData) (x y st : Int) (h : History)
    (hs : StoreOK s.cellData) :
    (∀ a b,
      (stateAt ((h.changeHandler (fragmentOf s.cellData [(x, y)]) [x, y, st]).Undo
          (sim.Set s x y st)).2.cellData a b).getD CellEmpty =
        (stateAt s.cellData a b).getD CellEmpty) ∧
    (∀ a b, ¬ (a = x ∧ b = y) →
      stateAt ((h.changeHandler (fragmentOf s.cellData [(x, y)]) [x, y, st]).Undo
          (sim.Set s x y st)).2.cellData a b = stateAt s.cellData a b) ∧
    ((stateAt s.cellData x y).isSome = true ∨ st = CellEmpty →
      sim.CellCount ((h.changeHandler (fragmentOf s.cellData [(x, y)]) [x, y, st]).Undo
          (sim.Set s x y st)).2 = sim.CellCount s ∧
      ∀ a b,
        stateAt ((h.changeHandler (fragmentOf s.cellData [(x, y)]) [x, y, st]).Undo
            (sim.Set s x y st)).2.cellData a b = stateAt s.cellData a b) ∧
    (stateAt s.cellData x y = none → st ≠ CellEmpty →
      sim.CellCount ((h.changeHandler (fragmentOf s.cellData [(x, y)]) [x, y, st]).Undo
          (sim.Set s x y st)).2 = sim.CellCount s + 1 ∧
      stateAt ((h.changeHandler (fragmentOf s.cellData [(x, y)]) [x, y, st]).Undo
          (sim.Set s x y st)).2.cellData x y = some CellEmpty) := by
  have hundo : ((h.changeHandler (fragmentOf s.cellData [(x, y)]) [x, y, st]).Undo
      (sim.Set s x y st)).2 =
      sim.SetList (sim.Set s x y st) [x, y, (stateAt s.cellData x y).getD CellEmpty] := by
    unfold History.changeHandler
    rw [History.Undo_snoc, fragmentOf_single]
  rw [hundo]
  obtain ⟨hok1, hst1⟩ := Set_stateAt s x y st hs
  have hcd := UpdateList_single (sim.Set s x y st) x y ((stateAt s.cellData x y).getD CellEmpty)
  obtain ⟨_, hst2⟩ := stateAt_set_lookup (sim.Set s x y st).cellData hok1 x y
    ((stateAt s.cellData x y).getD CellEmpty)
  rw [← hcd] at hst2
  have hcount : sim.CellCount
      (sim.SetList (sim.Set s x y st) [x, y, (stateAt s.cellData x y).getD CellEmpty]) =
      sim.CellCount (sim.Set s x y st) := by
    unfold sim.CellCount simulationData.CellCount
    rw [(SetList_cases _ _).2.2.2.2]
  have hother : ∀ a b, ¬ (a = x ∧ b = y) →
      stateAt (sim.SetList (sim.Set s x y st)
        [x, y, (stateAt s.cellData x y).getD CellEmpty]).cellData a b = stateAt s.cellData a b := by
    intro a b hab
    rw [hst2 a b, if_neg hab, hst1 a b, if_neg hab]
  have hat : stateAt (sim.SetList (sim.Set s x y st)
        [x, y, (stateAt s.cellData x y).getD CellEmpty]).cellData x y =
      if (stateAt s.cellData x y).isSome = true ∨ st ≠ CellEmpty then
        some ((stateAt s.cellData x y).getD CellEmpty) else none := by
    rw [hst2 x y, if_pos ⟨rfl, rfl⟩, hst1 x y, if_pos ⟨rfl, rfl⟩]
    split <;> rfl
  refine ⟨?_, hother, ?_, ?_⟩
  · intro a b
    by_cases hab : a = x ∧ b = y
    · obtain ⟨rfl, rfl⟩ := hab
      rw [hat]
      split
      · rfl
      · rename_i hc
        push_neg at hc
        have : stateAt s.cellData a b = none := by
          cases hh : stateAt s.cellData a b with
          | none => rfl
          | some z => rw [hh] at hc; exact absurd rfl hc.1
        rw [this]
    · rw [hother a b hab]
  · intro hc
    constructor
    · rw [hcount, CellCount_Set s x y st hs, if_pos hc]
    · intro a b
      by_cases hab : a = x ∧ b = y
      · obtain ⟨rfl, rfl⟩ := hab
        rw [hat]
        cases hh : stateAt s.cellData a b with
        | none =>
          rw [hh] at hc
          rcases hc with hc | hc
          · exact absurd hc (by simp)
          · rw [if_neg (by simp [hc])]
        | some z => simp
      · exact hother a b hab
  · intro hnone hne
    constructor
    · rw [hcount, CellCount_Set s x y st hs, if_neg (by
        rw [hnone]
        rintro (h1 | h1)
        · exact absurd h1 (by simp)
        · exact hne h1)]
    · rw [hat, if_pos (Or.inr hne), hnone]
      rfl

theorem Undo_Set_witness :
    StoreOK (sim.Set empty 0 0 1).cellData ∧
    ((stateAt (sim.Set empty 0 0 1).cellData 0 0).isSome = true ∨ (3 : Int) = CellEmpty) ∧
    (((⟨[], []⟩ : History).changeHandler (fragmentOf (sim.Set empty 0 0 1).cellData [(0, 0)])
        [0, 0, 3]).Undo (sim.Set (sim.Set empty 0 0 1) 0 0 3)).2.cellData = [0, 0, 1] ∧
    (sim.CellCount
      (((⟨[], []⟩ : History).changeHandler (fragmentOf (sim.Set empty 0 0 1).cellData [(0, 0)])
        [0, 0, 3]).Undo (sim.Set (sim.Set empty 0 0 1) 0 0 3)).2 =
        sim.CellCount (sim.Set empty 0 0 1) ∧
      ∀ a b,
        stateAt (((⟨[], []⟩ : History).changeHandler
            (fragmentOf (sim.Set empty 0 0 1).cellData [(0, 0)]) [0, 0, 3]).Undo
            (sim.Set (sim.Set empty 0 0 1) 0 0 3)).2.cellData a b =
          stateAt (sim.Set empty 0 0 1).cellData a b) :=
  ⟨by decide, by decide, by decide,
    (Undo_Set (sim.Set empty 0 0 1) 0 0 3 ⟨[], []⟩ (by decide)).2.2.1 (by decide)⟩

/-! ## Undo followed by Redo -/

theorem eq_of_getD_eq (a b : List Int) (hl : a.length = b.length)
    (h : ∀ i, a.getD i 0 = b.getD i 0) : a = b := by
  apply List.ext_getElem hl
  intro i h1 h2
  have := h i
  rw [List.getD_eq_getElem a 0 h1, List.getD_eq_getElem b 0 h2] at this
  exact this

/-- The flat slot a lookup-and-write round at `(x, y)` writes in `c`. -/
theorem getD_set_lookup (c : CellList) (x y v : Int) (i : Nat) :
    (if CellList.IndexOf c x y > -1 then
        c.set (CellList.IndexOf c x y + 2).toNat v else c).getD i 0 =
      if CellList.IndexOf c x y > -1 ∧ i = (CellList.IndexOf c x y + 2).toNat then v
      else c.getD i 0 := by
  by_cases hf : CellList.IndexOf c x y > -1
  · obtain ⟨m, _, hm, he, _, _⟩ := CellList.IndexOf_pos c x y hf
    have hlt : m * 3 + 2 < c.length := by rw [CellList.length_records] at hm; omega
    rw [if_pos hf, he, getD_set]
    by_cases hi : i = m * 3 + 2
    · subst hi
      rw [if_pos ⟨rfl, hlt⟩, if_pos ⟨hf, rfl⟩]
    · rw [if_neg (fun h => hi h.1.symm), if_neg (fun h => hi h.2)]
  · rw [if_neg hf, if_neg (fun h => hf h.1)]

theorem IndexOf_set_lookup (c : CellList) (x y v a b : Int) :
    CellList.IndexOf (if CellList.IndexOf c x y > -1 then
        c.set (CellList.IndexOf c x y + 2).toNat v else c) a b = CellList.IndexOf c a b := by
  by_cases hf : CellList.IndexOf c x y > -1
  · obtain ⟨m, _, _, he, _⟩ := CellList.IndexOf_pos c x y hf
    rw [if_pos hf, he, CellList.IndexOf_set_state]
  · rw [if_neg hf]

/-- The loop of `UpdateList` keeps every lookup and changes only state slots
found for coordinates of the fragment. -/
theorem UpdateList_loop_getD (v : CellList) :
    ∀ c : CellList,
      (∀ a b, CellList.IndexOf (simulationData.UpdateList.loop c v) a b =
        CellList.IndexOf c a b) ∧
      ∀ i : Nat,
        (∀ k ∈ CellList.coords v,
          ¬ (CellList.IndexOf c k.1 k.2 > -1 ∧ i = (CellList.IndexOf c k.1 k.2 + 2).toNat)) →
        (simulationData.UpdateList.loop c v).getD i 0 = c.getD i 0 := by
  induction v using CellList.records.induct with
  | case1 px py pv rest ih =>
    intro c
    rw [UpdateList_loop_step]
    obtain ⟨i1, i2⟩ := ih (if CellList.IndexOf c px py > -1 then
      c.set (CellList.IndexOf c px py + 2).toNat pv else c)
    constructor
    · intro a b
      rw [i1, IndexOf_set_lookup]
    · intro i hi
      rw [i2 i, getD_set_lookup, if_neg]
      · exact hi (px, py) (by simp [CellList.coords, CellList.records])
      · intro k hk
        rw [IndexOf_set_lookup]
        exact hi k (by
          simp only [CellList.coords, CellList.records, List.map_cons, List.mem_cons]
          exact Or.inr hk)
  | case2 v hv =>
    intro c
    have e : simulationData.UpdateList.loop c v = c := by
      match v, hv with
      | [], _ => rfl
      | [_], _ => rfl
      | [_, _], _ => rfl
      | p :: q :: w :: rest, hv => exact absurd rfl (hv p q w rest)
    rw [e]
    exact ⟨fun _ _ => rfl, fun _ _ => rfl⟩

/-- Applying the fragment that records the states of `c1` at the coordinates
`ks` to a list `u` with the lookups of `c1` restores the slots found for
`ks` to their values in `c1`. -/
theorem UpdateList_loop_fragment (c1 : CellList) (ks : List (Int × Int)) :
    ∀ u : CellList, (∀ a b, CellList.IndexOf u a b = CellList.IndexOf c1 a b) →
      ∀ i : Nat, (simulationData.UpdateList.loop u (fragmentOf c1 ks)).getD i 0 =
        if ∃ k ∈ ks, CellList.IndexOf c1 k.1 k.2 > -1 ∧
            i = (CellList.IndexOf c1 k.1 k.2 + 2).toNat then c1.getD i 0
        else u.getD i 0 := by
  induction ks with
  | nil =>
    intro u _ i
    simp [fragmentOf, CellList.ofRecords, simulationData.UpdateList.loop]
  | cons k ks ih =>
    intro u hu i
    have hfrag : fragmentOf c1 (k :: ks) =
        k.1 :: k.2 :: (stateAt c1 k.1 k.2).getD CellEmpty :: fragmentOf c1 ks := rfl
    rw [hfrag, UpdateList_loop_step]
    rw [ih _ (fun a b => by rw [IndexOf_set_lookup]; exact hu a b) i, getD_set_lookup, hu]
    by_cases hrest : ∃ k' ∈ ks, CellList.IndexOf c1 k'.1 k'.2 > -1 ∧
        i = (CellList.IndexOf c1 k'.1 k'.2 + 2).toNat
    · rw [if_pos hrest, if_pos]
      obtain ⟨k', hk', hp⟩ := hrest
      exact ⟨k', List.mem_cons_of_mem _ hk', hp⟩
    · rw [if_neg hrest]
      by_cases hk : CellList.IndexOf c1 k.1 k.2 > -1 ∧
          i = (CellList.IndexOf c1 k.1 k.2 + 2).toNat
      · rw [if_pos hk, if_pos ⟨k, List.mem_cons_self _ _, hk⟩]
        obtain ⟨m, h1, hm, he, _, _⟩ := CellList.IndexOf_pos c1 k.1 k.2 hk.1
        rw [stateAt_of_found c1 k.1 k.2 m h1 hm, hk.2, he]
        rfl
      · rw [if_neg hk, if_neg]
        rintro ⟨k', hk', hp⟩
        rcases List.mem_cons.mp hk' with h | h
        · subst h; exact hk hp
        · exact hrest ⟨k', h, hp⟩

theorem UpdateList_loop_length (v c : CellList) :
    (simulationData.UpdateList.loop c v).length = c.length :=
  (UpdateList_loop_coords v c).2

theorem SetList_cellData (s : simulationData) (v : CellList) :
    (sim.SetList s v).cellData = simulationData.UpdateList.loop s.cellData v := by
  unfold sim.SetList simulationData.UpdateList
  split
  · rename_i h
    have : v = [] := List.eq_nil_of_length_eq_zero h
    subst this
    rfl
  · rfl

theorem coords_fragmentOf (c : CellList) (ks : List (Int × Int)) :
    CellList.coords (fragmentOf c ks) = ks := by
  unfold fragmentOf CellList.coords
  rw [CellList.records_ofRecords, List.map_map]
  conv_rhs => rw [← List.map_id ks]
  apply List.map_congr_left
  intro k _
  rfl

/-- Applying a fragment over the coordinates `ks` and then the fragment that
records the states of `c1` at `ks` gives `c1` back. -/
theorem UpdateList_undo_redo (c1 before : CellList) (ks : List (Int × Int))
    (hb : ∀ k ∈ CellList.coords before, k ∈ ks) :
    simulationData.UpdateList.loop (simulationData.UpdateList.loop c1 before)
      (fragmentOf c1 ks) = c1 := by
  obtain ⟨hidx, hget⟩ := UpdateList_loop_getD before c1
  apply eq_of_getD_eq
  · rw [UpdateList_loop_length, UpdateList_loop_length]
  · intro i
    rw [UpdateList_loop_fragment c1 ks _ hidx i]
    split
    · rfl
    · rename_i hne
      apply hget
      intro k hk hp
      exact hne ⟨k, hb k hk, hp⟩

/-- C14: for an edit (`Set`, `Load` or `Unload`) recorded in the history with
the states of the coordinates it affected before and after it, `Undo`
followed by `Redo` leaves the cell store equal to the store right after the
edit, and the history as it was after recording. -/
theorem Undo_Redo_restores (s s1 : simulationData) (op : Op) (h : History)
    (_hop : op.isEdit) (_hrun : op.run s = some s1) :
    (((h.changeHandler (fragmentOf s.cellData op.affected)
          (fragmentOf s1.cellData op.affected)).Undo s1).1.Redo
        ((h.changeHandler (fragmentOf s.cellData op.affected)
          (fragmentOf s1.cellData op.affected)).Undo s1).2).2.cellData = s1.cellData ∧
    (((h.changeHandler (fragmentOf s.cellData op.affected)
          (fragmentOf s1.cellData op.affected)).Undo s1).1.Redo
        ((h.changeHandler (fragmentOf s.cellData op.affected)
          (fragmentOf s1.cellData op.affected)).Undo s1).2).1 =
      h.changeHandler (fragmentOf s.cellData op.affected)
        (fragmentOf s1.cellData op.affected) := by
  have hU : (h.changeHandler (fragmentOf s.cellData op.affected)
      (fragmentOf s1.cellData op.affected)).Undo s1 =
      (⟨h.undo, [⟨fragmentOf s.cellData op.affected, fragmentOf s1.cellData op.affected⟩]⟩,
        sim.SetList s1 (fragmentOf s.cellData op.affected)) := by
    unfold History.changeHandler
    rw [History.Undo_snoc, List.take_zero, List.nil_append]
  have hR : (⟨h.undo, [⟨fragmentOf s.cellData op.affected,
      fragmentOf s1.cellData op.affected⟩]⟩ : History).Redo
        (sim.SetList s1 (fragmentOf s.cellData op.affected)) =
      (⟨h.undo ++ [⟨fragmentOf s.cellData op.affected, fragmentOf s1.cellData op.affected⟩], []⟩,
        sim.SetList (sim.SetList s1 (fragmentOf s.cellData op.affected))
          (fragmentOf s1.cellData op.affected)) := by
    have := History.Redo_snoc h.undo []
      ⟨fragmentOf s.cellData op.affected, fragmentOf s1.cellData op.affected⟩
      (sim.SetList s1 (fragmentOf s.cellData op.affected))
    rw [List.nil_append] at this
    exact this
  rw [hU]
  simp only
  rw [hR]
  constructor
  · simp only
    rw [SetList_cellData, SetList_cellData]
    apply UpdateList_undo_redo
    intro k hk
    rw [coords_fragmentOf] at hk
    exact hk
  · unfold History.changeHandler
    rw [List.take_zero]

theorem Undo_Redo_restores_witness :
    Op.isEdit (Op.load 0 0 [0, 0, 1, 1, 0, 2]) ∧
    Op.run (Op.load 0 0 [0, 0, 1, 1, 0, 2]) (sim.Set empty 0 0 3) =
      some (sim.Load (sim.Set empty 0 0 3) 0 0 [0, 0, 1, 1, 0, 2]) ∧
    (sim.Load (sim.Set empty 0 0 3) 0 0 [0, 0, 1, 1, 0, 2]).cellData = [0, 0, 1, 1, 0, 2] ∧
    (((⟨[], []⟩ : History).changeHandler
        (fragmentOf (sim.Set empty 0 0 3).cellData (Op.load 0 0 [0, 0, 1, 1, 0, 2]).affected)
        (fragmentOf (sim.Load (sim.Set empty 0 0 3) 0 0 [0, 0, 1, 1, 0, 2]).cellData
          (Op.load 0 0 [0, 0, 1, 1, 0, 2]).affected)).Undo
      (sim.Load (sim.Set empty 0 0 3) 0 0 [0, 0, 1, 1, 0, 2])).2.cellData = [0, 0, 3, 1, 0, 0] ∧
    ((((⟨[], []⟩ : History).changeHandler
        (fragmentOf (sim.Set empty 0 0 3).cellData (Op.load 0 0 [0, 0, 1, 1, 0, 2]).affected)
        (fragmentOf (sim.Load (sim.Set empty 0 0 3) 0 0 [0, 0, 1, 1, 0, 2]).cellData
          (Op.load 0 0 [0, 0, 1, 1, 0, 2]).affected)).Undo
      (sim.Load (sim.Set empty 0 0 3) 0 0 [0, 0, 1, 1, 0, 2])).1.Redo
      (((⟨[], []⟩ : History).changeHandler
        (fragmentOf (sim.Set empty 0 0 3).cellData (Op.load 0 0 [0, 0, 1, 1, 0, 2]).affected)
        (fragmentOf (sim.Load (sim.Set empty 0 0 3) 0 0 [0, 0, 1, 1, 0, 2]).cellData
          (Op.load 0 0 [0, 0, 1, 1, 0, 2]).affected)).Undo
      (sim.Load (sim.Set empty 0 0 3) 0 0 [0, 0, 1, 1, 0, 2])).2).2.cellData =
      (sim.Load (sim.Set empty 0 0 3) 0 0 [0, 0, 1, 1, 0, 2]).cellData :=
  ⟨trivial, rfl, by decide, by decide,
    (Undo_Redo_restores (sim.Set empty 0 0 3)
      (sim.Load (sim.Set empty 0 0 3) 0 0 [0, 0, 1, 1, 0, 2])
      (Op.load 0 0 [0, 0, 1, 1, 0, 2]) ⟨[], []⟩ trivial rfl).1⟩

/-! ## Empty cells and the step -/

theorem stepState_ne_empty (c : CellList) (r : Int × Int × Int) :
    stepState c r ≠ CellEmpty ↔ r.2.2 ≠ CellEmpty := by
  have hWE : CellWire ≠ CellEmpty := by decide
  have hHE : CellHead ≠ CellEmpty := by decide
  have hTE : CellTail ≠ CellEmpty := by decide
  unfold stepState
  by_cases h1 : r.2.2 = CellWire
  · rw [if_pos h1, h1]
    split
    · exact ⟨fun _ => hWE, fun _ => hHE⟩
    · exact Iff.rfl
  · rw [if_neg h1]
    by_cases h2 : r.2.2 = CellHead
    · rw [if_pos h2, h2]
      exact ⟨fun _ => hHE, fun _ => hTE⟩
    · rw [if_neg h2]
      by_cases h3 : r.2.2 = CellTail
      · rw [if_pos h3, h3]
        exact ⟨fun _ => hTE, fun _ => hWE⟩
      · rw [if_neg h3]

theorem stateAt_Trim_head (c : CellList) (hs : Sorted c) (hd : NoDup c) (x y : Int) :
    stateAt (CellList.Trim c) x y = some CellHead ↔ stateAt c x y = some CellHead := by
  rw [stateAt_eq_some_iff _ (Sorted_Trim c hs) (NoDup_Trim c hd),
    stateAt_eq_some_iff _ hs hd, CellList.records_Trim, List.mem_filter]
  constructor
  · exact fun h => h.1
  · intro h
    have hHE : CellHead ≠ CellEmpty := by decide
    exact ⟨h, by simpa using hHE⟩

theorem cachedHeads_Trim (c : CellList) (hs : Sorted c) (hd : NoDup c) (x y : Int) :
    cachedHeads (CellList.Trim c) x y = cachedHeads c x y := by
  unfold cachedHeads
  apply List.countP_congr
  intro p _
  simp only [decide_eq_true_eq]
  exact stateAt_Trim_head c hs hd p.1 p.2

theorem stepState_Trim (c : CellList) (hs : Sorted c) (hd : NoDup c) (r : Int × Int × Int) :
    stepState (CellList.Trim c) r = stepState c r := by
  unfold stepState
  rw [cachedHeads_Trim c hs hd]

/-- Trimming commutes with the stepped store. -/
theorem stepCells_Trim (c : CellList) (hs : Sorted c) (hd : NoDup c) :
    stepCells (CellList.Trim c) = CellList.Trim (stepCells c) := by
  rw [CellList.Trim_eq_filter (stepCells c), stepCells_records]
  unfold stepCells
  rw [CellList.records_Trim]
  congr 1
  rw [List.filter_map]
  have hf : (fun r : Int × Int × Int => decide (r.2.2 ≠ CellEmpty)) ∘
      (fun r => (r.1, r.2.1, stepState c r)) =
      fun r : Int × Int × Int => decide (r.2.2 ≠ CellEmpty) := by
    funext r
    simp only [Function.comp, decide_eq_decide]
    exact stepState_ne_empty c r
  rw [hf]
  apply List.map_congr_left
  intro r _
  rw [stepState_Trim c hs hd]

theorem EngineOK_Trim_step (s : simulationData) : LenOK (sim.Trim s) ∧
    ((sim.Trim s).staleNeighbours = false → CacheOK (sim.Trim s)) := by
  refine ⟨LenOK_data_Trim s, ?_⟩
  intro hst
  exact absurd hst (by simp [sim.Trim, simulationData.Trim, update_stale])

/-- C12: for an engine state with a sorted duplicate-free store, trimming and
then stepping gives the same cell list as stepping and then trimming; both
steps run. -/
theorem Trim_Step_commute (s : simulationData) (hok : EngineOK s) (hd : NoDup s.cellData) :
    ∃ s1 s2, (sim.Trim s).Step = some s1 ∧ s.Step = some s2 ∧
      sim.Cells s1 = CellList.Trim (sim.Cells s2) := by
  obtain ⟨hl, hc⟩ := EngineOK_Trim_step s
  refine ⟨_, _, Step_of_inv (sim.Trim s) hl hc, Step_of_inv s hok.1 hok.2.2, ?_⟩
  unfold sim.Cells
  simp only
  exact stepCells_Trim s.cellData hok.2.1 hd

theorem Trim_Step_commute_witness :
    EngineOK (sim.Load empty 0 0 [0, 0, 1, 1, 0, 0, 2, 0, 2, 1, 1, 0]) ∧
    NoDup (sim.Load empty 0 0 [0, 0, 1, 1, 0, 0, 2, 0, 2, 1, 1, 0]).cellData ∧
    ((sim.Trim (sim.Load empty 0 0 [0, 0, 1, 1, 0, 0, 2, 0, 2, 1, 1, 0])).Step).map
      (fun s => s.cellData) = some [0, 0, 1, 2, 0, 3] ∧
    ((sim.Load empty 0 0 [0, 0, 1, 1, 0, 0, 2, 0, 2, 1, 1, 0]).Step).map
      (fun s => s.cellData) = some [0, 0, 1, 1, 0, 0, 1, 1, 0, 2, 0, 3] ∧
    ∃ s1 s2, (sim.Trim (sim.Load empty 0 0 [0, 0, 1, 1, 0, 0, 2, 0, 2, 1, 1, 0])).Step = some s1 ∧
      (sim.Load empty 0 0 [0, 0, 1, 1, 0, 0, 2, 0, 2, 1, 1, 0]).Step = some s2 ∧
      sim.Cells s1 = CellList.Trim (sim.Cells s2) :=
  ⟨⟨by decide, by decide, fun h => absurd h (by decide)⟩, by decide, by decide, by decide,
    Trim_Step_commute (sim.Load empty 0 0 [0, 0, 1, 1, 0, 0, 2, 0, 2, 1, 1, 0])
      ⟨by decide, by decide, fun h => absurd h (by decide)⟩ (by decide)⟩

/-! ## Stores without heads -/

/-- A state found by `IndexOf` is the state of a record. -/
theorem stateAt_mem_states (c : CellList) (x y v : Int) (h : stateAt c x y = some v) :
    ∃ r ∈ CellList.records c, r.2.2 = v := by
  unfold stateAt at h
  by_cases hf : CellList.IndexOf c x y > -1
  · obtain ⟨m, h1, hm, _, _, _⟩ := CellList.IndexOf_pos c x y hf
    have hst := stateAt_of_found c x y m h1 hm
    unfold stateAt at hst
    rw [hst] at h
    exact ⟨_, CellList.mem_records_of_lt c m hm, Option.some.inj h⟩
  · rw [if_neg hf] at h
    exact absurd h (by simp)

theorem cachedHeads_of_no_head (c : CellList)
    (h : ∀ r ∈ CellList.records c, r.2.2 ≠ CellHead) (x y : Int) : cachedHeads c x y = 0 := by
  unfold cachedHeads
  rw [List.countP_eq_zero]
  intro p _
  simp only [decide_eq_true_eq]
  intro hst
  obtain ⟨r, hr, hv⟩ := stateAt_mem_states c p.1 p.2 CellHead hst
  exact h r hr hv

theorem stepState_of_no_head (c : CellList)
    (h : ∀ r ∈ CellList.records c, r.2.2 ≠ CellHead) (r : Int × Int × Int)
    (hr : r ∈ CellList.records c) :
    stepState c r = if r.2.2 = CellTail then CellWire else r.2.2 := by
  have hTW : CellTail ≠ CellWire := by decide
  unfold stepState
  rw [cachedHeads_of_no_head c h]
  by_cases h1 : r.2.2 = CellWire
  · rw [if_pos h1, if_neg (by omega), h1, if_neg (fun hc => hTW hc.symm)]
  · rw [if_neg h1, if_neg (h r hr)]

/-- C19: from a reachable state whose store holds no head, an executed
`Step` runs, keeps the coordinates, turns every tail into a wire and leaves
every other cell (wire, empty) as it is; a store of wires and empty cells
only is a fixed point. -/
theorem Step_without_heads (s : simulationData) (hr : ReachableBy Op.any s)
    (hno : ∀ r ∈ CellList.records s.cellData, r.2.2 ≠ CellHead) :
    ∃ s1, s.Step = some s1 ∧
      s1.cellData = CellList.ofRecords ((CellList.records s.cellData).map
        (fun r => (r.1, r.2.1, if r.2.2 = CellTail then CellWire else r.2.2))) ∧
      (∀ r ∈ CellList.records s.cellData,
        (r.2.2 = CellWire → (if r.2.2 = CellTail then CellWire else r.2.2) = CellWire) ∧
        (r.2.2 = CellEmpty → (if r.2.2 = CellTail then CellWire else r.2.2) = CellEmpty) ∧
        (r.2.2 = CellTail → (if r.2.2 = CellTail then CellWire else r.2.2) = CellWire)) ∧
      ((∀ r ∈ CellList.records s.cellData, r.2.2 = CellWire ∨ r.2.2 = CellEmpty) →
        s1.cellData = s.cellData) := by
  have hWT : CellWire ≠ CellTail := by decide
  have hET : CellEmpty ≠ CellTail := by decide
  have hok := EngineOK_of_reachable _ s hr
  obtain ⟨s1, h1, _, h3, _⟩ := EngineOK_Step s hok
  have hcells : s1.cellData = CellList.ofRecords ((CellList.records s.cellData).map
      (fun r => (r.1, r.2.1, if r.2.2 = CellTail then CellWire else r.2.2))) := by
    rw [h3]
    unfold stepCells
    congr 1
    apply List.map_congr_left
    intro r hrm
    rw [stepState_of_no_head s.cellData hno r hrm]
  refine ⟨s1, h1, hcells, ?_, ?_⟩
  · intro r _
    refine ⟨fun h => ?_, fun h => ?_, fun h => ?_⟩
    · rw [h, if_neg hWT]
    · rw [h, if_neg hET]
    · rw [if_pos h]
  · intro hall
    rw [hcells]
    have : (CellList.records s.cellData).map
        (fun r => (r.1, r.2.1, if r.2.2 = CellTail then CellWire else r.2.2)) =
        CellList.records s.cellData := by
      conv_rhs => rw [← List.map_id (CellList.records s.cellData)]
      apply List.map_congr_left
      intro r hrm
      have hnt : r.2.2 ≠ CellTail := by
        rcases hall r hrm with h | h
        · rw [h]; exact hWT
        · rw [h]; exact hET
      rw [if_neg hnt]
      rfl
    rw [this]
    exact CellList.ofRecords_records _ hok.1.1

theorem Step_without_heads_witness :
    ReachableBy Op.any (sim.Load empty 0 0 [0, 0, 1, 1, 0, 3, 2, 0, 0]) ∧
    (∀ r ∈ CellList.records (sim.Load empty 0 0 [0, 0, 1, 1, 0, 3, 2, 0, 0]).cellData,
      r.2.2 ≠ CellHead) ∧
    CellList.ofRecords
      ((CellList.records (sim.Load empty 0 0 [0, 0, 1, 1, 0, 3, 2, 0, 0]).cellData).map
        (fun r => (r.1, r.2.1, if r.2.2 = CellTail then CellWire else r.2.2))) =
      [0, 0, 1, 1, 0, 1, 2, 0, 0] ∧
    ∃ s1, (sim.Load empty 0 0 [0, 0, 1, 1, 0, 3, 2, 0, 0]).Step = some s1 ∧
      s1.cellData = CellList.ofRecords
        ((CellList.records (sim.Load empty 0 0 [0, 0, 1, 1, 0, 3, 2, 0, 0]).cellData).map
          (fun r => (r.1, r.2.1, if r.2.2 = CellTail then CellWire else r.2.2))) :=
  ⟨ReachableBy.next (Op.load 0 0 [0, 0, 1, 1, 0, 3, 2, 0, 0]) ReachableBy.init trivial rfl,
    by decide, by decide,
    (Step_without_heads (sim.Load empty 0 0 [0, 0, 1, 1, 0, 3, 2, 0, 0])
      (ReachableBy.next (Op.load 0 0 [0, 0, 1, 1, 0, 3, 2, 0, 0]) ReachableBy.init trivial rfl)
      (by decide)).imp (fun _ h => ⟨h.1, h.2.1⟩)⟩

/-! ## Load followed by Unload -/

theorem Trim_Trim (c : CellList) : CellList.Trim (CellList.Trim c) = CellList.Trim c := by
  rw [CellList.Trim_eq_filter (CellList.Trim c), CellList.records_Trim, List.filter_filter]
  simp [CellList.Trim_eq_filter]

/-- Package-level `Load` of a duplicate-free `int32` patch keeps the store
well formed. -/
theorem Load_StoreOK (s : simulationData) (x y : Int) (P : CellList)
    (hs : StoreOK s.cellData) (hP : NoDup P) (h32 : ∀ v ∈ P, isInt32 v) :
    StoreOK (sim.Load s x y P).cellData := by
  obtain ⟨hperm, hlen, hsorted⟩ := Load_cellData_perm s x y P
  refine ⟨by rw [hlen]; exact (Load_records s.cellData x y P hs).1, hsorted, ?_⟩
  unfold NoDup CellList.coords
  exact (List.Perm.nodup_iff (hperm.map _)).mpr (Load_nodup s.cellData x y P hs hP h32)

theorem filter_putState (rs : List (Int × Int × Int)) (x y v : Int)
    (q : Int × Int × Int → Bool) (hq : ∀ r, r.1 = x → r.2.1 = y → q r = false) :
    (putState rs x y v).filter q = rs.filter q := by
  unfold putState
  induction rs with
  | nil => rfl
  | cons r rs ih =>
    simp only [List.map_cons, List.filter_cons, ih]
    by_cases h : r.1 = x ∧ r.2.1 = y
    · rw [if_pos h, hq r h.1 h.2, hq (r.1, r.2.1, v) h.1 h.2]
      simp
    · rw [if_neg h]

theorem filter_foldl_putState (offs : List (Int × Int × Int)) (q : Int × Int × Int → Bool)
    (hq : ∀ r, (r.1, r.2.1) ∈ keys offs → q r = false) :
    ∀ rs : List (Int × Int × Int),
      (offs.foldl (fun acc p => putState acc p.1 p.2.1 p.2.2) rs).filter q = rs.filter q := by
  induction offs with
  | nil => intro rs; rfl
  | cons p offs ih =>
    intro rs
    rw [List.foldl_cons, ih (fun r hr => hq r (List.mem_cons_of_mem _ hr))]
    apply filter_putState
    intro r h1 h2
    apply hq
    rw [h1, h2]
    exact List.mem_cons_self _ _

theorem keys_filter_nodup (rs : List (Int × Int × Int)) (q : Int × Int × Int → Bool)
    (h : (keys rs).Nodup) : (keys (rs.filter q)).Nodup := by
  unfold keys at *
  exact (List.filter_sublist _).map _ |>.nodup h

/-- `Load` of a patch with pairwise distinct coordinates followed by `Unload`
of its offset coordinates leaves the records of the old store that are not
empty and not at an offset coordinate, in order. -/
theorem Load_Unload_records (s : simulationData) (x y : Int) (P U : CellList)
    (hs : StoreOK s.cellData) (hP : NoDup P) (h32 : ∀ v ∈ P, isInt32 v)
    (hU : CellList.coords U = keys (offsetRecs x y P)) :
    CellList.records (sim.Unload (sim.Load s x y P) U).cellData =
      (CellList.records s.cellData).filter
        (fun r => decide (r.2.2 ≠ CellEmpty ∧ (r.1, r.2.1) ∉ keys (offsetRecs x y P))) ∧
    (sim.Unload (sim.Load s x y P) U).cellData.length % 3 = 0 := by
  have hok := Load_StoreOK s x y P hs hP h32
  obtain ⟨hperm, _, _⟩ := Load_cellData_perm s x y P
  have hun : (sim.Unload (sim.Load s x y P) U).cellData =
      CellList.Unload (sim.Load s x y P).cellData U := rfl
  rw [hun]
  refine ⟨?_, CellList.length_Trim_mod _⟩
  rw [Unload_eq_filter _ U hok.2.1 hok.2.2, CellList.records_ofRecords, hU]
  have hq : ∀ r : Int × Int × Int, (r.1, r.2.1) ∈ keys (offsetRecs x y P) →
      decide (r.2.2 ≠ CellEmpty ∧ (r.1, r.2.1) ∉ keys (offsetRecs x y P)) = false := by
    intro r hr
    simp [hr]
  apply sorted_perm_unique
  · refine (hperm.filter _).trans ?_
    rw [(Load_records s.cellData x y P hs).2, List.filter_append,
      filter_foldl_putState _ _ hq]
    have hnil : ((offsetRecs x y P).filter
        (fun q => decide ((q.1, q.2.1) ∉ CellList.coords s.cellData))).filter
        (fun r => decide (r.2.2 ≠ CellEmpty ∧ (r.1, r.2.1) ∉ keys (offsetRecs x y P))) = [] := by
      rw [List.filter_eq_nil_iff]
      intro r hr
      have hr2 := (List.mem_filter.mp hr).1
      rw [hq r (List.mem_map.mpr ⟨r, hr2, rfl⟩)]
      simp
    rw [hnil, List.append_nil]
  · exact keys_filter_nodup _ _ hok.2.2
  · exact List.Pairwise.filter _ hok.2.1
  · exact List.Pairwise.filter _ hs.2.1

/-- C18 fails: a cell that the patch overwrites is removed by the `Unload`,
so the count after `Load`, `Unload`, `Trim` is below the count before. -/
theorem Load_Unload_Trim_counterexample :
    StoreOK (sim.Set empty 0 0 1).cellData ∧
    CellList.coords [0, 0, 1] = keys (offsetRecs 0 0 [0, 0, 1]) ∧
    sim.CellCount (sim.Set empty 0 0 1) = 1 ∧
    sim.CellCount
      (sim.Trim (sim.Unload (sim.Load (sim.Set empty 0 0 1) 0 0 [0, 0, 1]) [0, 0, 1])) = 0 := by
  decide

/-- C18 as amended: for a sorted duplicate-free store and a patch with
pairwise distinct coordinates, `Load`, then `Unload` of the patch's offset
coordinates, then `Trim` leaves exactly the cells of the old store that are
not empty and not at an offset coordinate of the patch, in order; so
`CellCount()` is at most its value before the load, and equal to it exactly
when the old store held no empty cell and no cell at an offset coordinate of
the patch, in which case the store itself is back. -/
theorem Load_Unload_Trim (s : simulationData) (x y : Int) (P U : CellList)
    (hs : StoreOK s.cellData) (hP : NoDup P) (h32 : ∀ v ∈ P, isInt32 v)
    (hU : CellList.coords U = keys (offsetRecs x y P)) :
    CellList.records (sim.Trim (sim.Unload (sim.Load s x y P) U)).cellData =
      (CellList.records s.cellData).filter
        (fun r => decide (r.2.2 ≠ CellEmpty ∧ (r.1, r.2.1) ∉ keys (offsetRecs x y P))) ∧
    sim.CellCount (sim.Trim (sim.Unload (sim.Load s x y P) U)) ≤ sim.CellCount s ∧
    (sim.CellCount (sim.Trim (sim.Unload (sim.Load s x y P) U)) = sim.CellCount s ↔
      ∀ r ∈ CellList.records s.cellData,
        r.2.2 ≠ CellEmpty ∧ (r.1, r.2.1) ∉ keys (offsetRecs x y P)) ∧
    ((∀ r ∈ CellList.records s.cellData,
        r.2.2 ≠ CellEmpty ∧ (r.1, r.2.1) ∉ keys (offsetRecs x y P)) →
      (sim.Trim (sim.Unload (sim.Load s x y P) U)).cellData = s.cellData) := by
  obtain ⟨hrec, hlen⟩ := Load_Unload_records s x y P U hs hP h32 hU
  have htrim : (sim.Trim (sim.Unload (sim.Load s x y P) U)).cellData =
      (sim.Unload (sim.Load s x y P) U).cellData := by
    have : (sim.Unload (sim.Load s x y P) U).cellData =
        CellList.Unload (sim.Load s x y P).cellData U := rfl
    unfold sim.Trim simulationData.Trim
    rw [update_cellData]
    simp only
    rw [this]
    unfold CellList.Unload
    exact Trim_Trim _
  rw [htrim]
  have hcount : sim.CellCount (sim.Trim (sim.Unload (sim.Load s x y P) U)) =
      ((CellList.records s.cellData).filter
        (fun r => decide (r.2.2 ≠ CellEmpty ∧ (r.1, r.2.1) ∉ keys (offsetRecs x y P)))).length := by
    unfold sim.CellCount simulationData.CellCount
    rw [htrim, ← CellList.length_records, hrec]
  have hcs : sim.CellCount s = (CellList.records s.cellData).length := by
    unfold sim.CellCount simulationData.CellCount
    rw [CellList.length_records]
  have hall : (∀ r ∈ CellList.records s.cellData,
        r.2.2 ≠ CellEmpty ∧ (r.1, r.2.1) ∉ keys (offsetRecs x y P)) →
      (CellList.records s.cellData).filter
        (fun r => decide (r.2.2 ≠ CellEmpty ∧ (r.1, r.2.1) ∉ keys (offsetRecs x y P))) =
        CellList.records s.cellData := by
    intro h
    rw [List.filter_eq_self]
    intro r hr
    simpa using h r hr
  refine ⟨hrec, ?_, ?_, ?_⟩
  · rw [hcount, hcs]
    exact List.length_filter_le _ _
  · rw [hcount, hcs]
    constructor
    · intro hl r hr
      have := (List.filter_eq_self.mp
        (List.Sublist.eq_of_length (List.filter_sublist _) hl)) r hr
      simpa using this
    · intro h
      rw [hall h]
  · intro h
    have h1 := CellList.ofRecords_records _ hlen
    have h2 := CellList.ofRecords_records _ hs.1
    rw [← h1, hrec, hall h, h2]

theorem Load_Unload_Trim_witness :
    StoreOK (sim.Load empty 0 0 [0, 0, 1, 5, 5, 2]).cellData ∧
    NoDup [0, 1, 3, 1, 1, 1] ∧
    CellList.coords [2, 3, 0, 3, 3, 0] = keys (offsetRecs 2 2 [0, 1, 3, 1, 1, 1]) ∧
    (sim.Load (sim.Load empty 0 0 [0, 0, 1, 5, 5, 2]) 2 2 [0, 1, 3, 1, 1, 1]).cellData =
      [0, 0, 1, 2, 3, 3, 3, 3, 1, 5, 5, 2] ∧
    (sim.Trim (sim.Unload (sim.Load (sim.Load empty 0 0 [0, 0, 1, 5, 5, 2]) 2 2
      [0, 1, 3, 1, 1, 1]) [2, 3, 0, 3, 3, 0])).cellData =
      (sim.Load empty 0 0 [0, 0, 1, 5, 5, 2]).cellData :=
  ⟨by decide, by decide, by decide, by decide,
    (Load_Unload_Trim (sim.Load empty 0 0 [0, 0, 1, 5, 5, 2]) 2 2 [0, 1, 3, 1, 1, 1]
      [2, 3, 0, 3, 3, 0] (by decide) (by decide) (by decide) (by decide)).2.2.2 (by decide)⟩

/-! ## ScaleInterval -/

theorem Truncate_pos (d m : Int) (hd : 0 ≤ d) (hm : 0 < m) : Truncate d m = d - d % m := by
  unfold Truncate
  rw [if_neg (by omega), Int.tmod_eq_emod hd (by omega)]

/-- `ScaleInterval(-1)` on an interval of at least one microsecond: half the
interval, at least one microsecond, rounded down to its tier. -/
theorem ScaleInterval_down (v : Int) (hv : 1000 ≤ v) :
    1000 ≤ ScaleInterval v (-1) ∧ (v = 1000 → ScaleInterval v (-1) = 1000) ∧
    (v ≠ 1000 → ScaleInterval v (-1) < v) := by
  unfold ScaleInterval
  simp only [Microsecond, Millisecond, Second, show ((-1 : Int) < 0) from by decide, if_true]
  have hc : 1000 ≤ (if v / 2 < 1000 then 1000 else v / 2) := by split <;> omega
  have hcv : v ≠ 1000 → (if v / 2 < 1000 then 1000 else v / 2) < v := by
    intro h; split <;> omega
  have hc1 : v = 1000 → (if v / 2 < 1000 then 1000 else v / 2) = 1000 := by
    intro h; subst h; decide
  generalize (if v / 2 < 1000 then 1000 else v / 2) = c at hc hcv hc1
  by_cases h1 : c ≥ 1000000000
  · rw [if_pos h1, Truncate_pos c _ (by omega) (by decide)]
    refine ⟨by omega, fun h => by have := hc1 h; omega, fun h => by have := hcv h; omega⟩
  · rw [if_neg h1]
    by_cases h2 : c ≥ 1000000
    · rw [if_pos h2, Truncate_pos c _ (by omega) (by decide)]
      refine ⟨by omega, fun h => by have := hc1 h; omega, fun h => by have := hcv h; omega⟩
    · rw [if_neg h2, Truncate_pos c _ (by omega) (by decide)]
      refine ⟨by omega, fun h => by have := hc1 h; omega, fun h => by have := hcv h; omega⟩

theorem scaleN_succ_last (d : Int) (n : Nat) (v : Int) :
    scaleN d (n + 1) v = ScaleInterval (scaleN d n v) d := by
  induction n generalizing v with
  | zero => rfl
  | succ k ih =>
    show scaleN d (k + 1) (ScaleInterval v d) = _
    rw [ih]
    rfl

theorem scaleN_floor (n : Nat) : scaleN (-1) n 1000 = 1000 := by
  induction n with
  | zero => rfl
  | succ k ih =>
    rw [scaleN_succ_last, ih]
    decide

theorem scaleN_add (d : Int) (m n : Nat) (v : Int) :
    scaleN d (m + n) v = scaleN d n (scaleN d m v) := by
  induction n with
  | zero => rfl
  | succ k ih =>
    rw [← Nat.add_assoc, scaleN_succ_last, scaleN_succ_last, ih]

/-- Repeated halving reaches the floor and stays there. -/
theorem scaleN_reaches_floor (v : Int) (hv : 1000 ≤ v) :
    ∃ n, ∀ m, n ≤ m → scaleN (-1) m v = 1000 := by
  obtain ⟨k, hk⟩ : ∃ k : Nat, v = 1000 + k := ⟨(v - 1000).toNat, by omega⟩
  induction k using Nat.strong_induction_on generalizing v with
  | _ k ih =>
    by_cases h0 : v = 1000
    · subst h0
      exact ⟨0, fun m _ => scaleN_floor m⟩
    · obtain ⟨h1, _, h3⟩ := ScaleInterval_down v hv
      have hlt := h3 h0
      obtain ⟨n, hn⟩ := ih (ScaleInterval v (-1) - 1000).toNat (by omega)
        (ScaleInterval v (-1)) h1 (by omega)
      refine ⟨n + 1, fun m hm => ?_⟩
      obtain ⟨j, rfl⟩ : ∃ j, m = j + 1 := ⟨m - 1, by omega⟩
      show scaleN (-1) j (ScaleInterval v (-1)) = 1000
      exact hn j (by omega)

theorem scaleN_init_values :
    scaleN (-1) 1 stepIntervalInit = 25000000 ∧ scaleN (-1) 2 stepIntervalInit = 12000000 ∧
    scaleN (-1) 3 stepIntervalInit = 6000000 ∧ scaleN (-1) 4 stepIntervalInit = 3000000 ∧
    scaleN (-1) 5 stepIntervalInit = 1000000 ∧ scaleN (-1) 6 stepIntervalInit = 500000 ∧
    scaleN (-1) 7 stepIntervalInit = 250000 ∧ scaleN (-1) 8 stepIntervalInit = 125000 ∧
    scaleN (-1) 9 stepIntervalInit = 62000 ∧ scaleN (-1) 10 stepIntervalInit = 31000 ∧
    scaleN (-1) 11 stepIntervalInit = 15000 ∧ scaleN (-1) 12 stepIntervalInit = 7000 ∧
    scaleN (-1) 13 stepIntervalInit = 3000 ∧ scaleN (-1) 14 stepIntervalInit = 1000 := by
  have e0 : scaleN (-1) 0 stepIntervalInit = 50000000 := by decide
  have e1 : scaleN (-1) 1 stepIntervalInit = 25000000 := by
    rw [scaleN_succ_last, e0]; decide
  have e2 : scaleN (-1) 2 stepIntervalInit = 12000000 := by
    rw [scaleN_succ_last, e1]; decide
  have e3 : scaleN (-1) 3 stepIntervalInit = 6000000 := by
    rw [scaleN_succ_last, e2]; decide
  have e4 : scaleN (-1) 4 stepIntervalInit = 3000000 := by
    rw [scaleN_succ_last, e3]; decide
  have e5 : scaleN (-1) 5 stepIntervalInit = 1000000 := by
    rw [scaleN_succ_last, e4]; decide
  have e6 : scaleN (-1) 6 stepIntervalInit = 500000 := by
    rw [scaleN_succ_last, e5]; decide
  have e7 : scaleN (-1) 7 stepIntervalInit = 250000 := by
    rw [scaleN_succ_last, e6]; decide
  have e8 : scaleN (-1) 8 stepIntervalInit = 125000 := by
    rw [scaleN_succ_last, e7]; decide
  have e9 : scaleN (-1) 9 stepIntervalInit = 62000 := by
    rw [scaleN_succ_last, e8]; decide
  have e10 : scaleN (-1) 10 stepIntervalInit = 31000 := by
    rw [scaleN_succ_last, e9]; decide
  have e11 : scaleN (-1) 11 stepIntervalInit = 15000 := by
    rw [scaleN_succ_last, e10]; decide
  have e12 : scaleN (-1) 12 stepIntervalInit = 7000 := by
    rw [scaleN_succ_last, e11]; decide
  have e13 : scaleN (-1) 13 stepIntervalInit = 3000 := by
    rw [scaleN_succ_last, e12]; decide
  have e14 : scaleN (-1) 14 stepIntervalInit = 1000 := by
    rw [scaleN_succ_last, e13]; decide
  exact ⟨e1, e2, e3, e4, e5, e6, e7, e8, e9, e10, e11, e12, e13, e14⟩

/-- The intervals on the way down never increase. -/
theorem scaleN_antitone (v : Int) (hv : 1000 ≤ v) (n : Nat) :
    1000 ≤ scaleN (-1) n v ∧ scaleN (-1) (n + 1) v ≤ scaleN (-1) n v := by
  induction n with
  | zero =>
    refine ⟨hv, ?_⟩
    show ScaleInterval v (-1) ≤ v
    obtain ⟨_, h2, h3⟩ := ScaleInterval_down v hv
    by_cases h : v = 1000
    · rw [h2 h, h]
    · exact le_of_lt (h3 h)
  | succ k ih =>
    obtain ⟨h1, _⟩ := ih
    have hk : 1000 ≤ scaleN (-1) (k + 1) v := by
      rw [scaleN_succ_last]
      exact (ScaleInterval_down _ h1).1
    refine ⟨hk, ?_⟩
    rw [scaleN_succ_last (-1) (k + 1)]
    obtain ⟨_, h2, h3⟩ := ScaleInterval_down _ hk
    by_cases h : scaleN (-1) (k + 1) v = 1000
    · rw [h2 h, h]
    · exact le_of_lt (h3 h)

/-- C20: for an interval `v` of at least one microsecond, `ScaleInterval(-1)`
yields an interval of at least one microsecond that is below `v`, unless `v`
is one microsecond, which it keeps; so repeated calls reach one microsecond
after finitely many calls and stay there; from the initial 50 ms that takes
exactly 14 calls. -/
theorem ScaleInterval_down_converges :
    (∀ v : Int, Microsecond ≤ v →
      Microsecond ≤ ScaleInterval v (-1) ∧
      (v = Microsecond → ScaleInterval v (-1) = Microsecond) ∧
      (v ≠ Microsecond → ScaleInterval v (-1) < v) ∧
      ∃ n, ∀ m, n ≤ m → scaleN (-1) m v = Microsecond) ∧
    scaleN (-1) 14 stepIntervalInit = Microsecond ∧
    (∀ n, n < 14 → scaleN (-1) n stepIntervalInit ≠ Microsecond) ∧
    (∀ n, 14 ≤ n → scaleN (-1) n stepIntervalInit = Microsecond) := by
  have hM : Microsecond = 1000 := rfl
  rw [hM]
  refine ⟨fun v hv => ?_, scaleN_init_values.2.2.2.2.2.2.2.2.2.2.2.2.2, ?_, ?_⟩
  · obtain ⟨h1, h2, h3⟩ := ScaleInterval_down v hv
    exact ⟨h1, h2, h3, scaleN_reaches_floor v hv⟩
  · intro n hn
    have h13 := scaleN_init_values.2.2.2.2.2.2.2.2.2.2.2.2.1
    have hinit : (1000 : Int) ≤ stepIntervalInit := by decide
    have hmono : ∀ k, k ≤ 13 - n → 3000 ≤ scaleN (-1) (13 - k) stepIntervalInit := by
      intro k
      induction k with
      | zero => intro _; rw [Nat.sub_zero, h13]
      | succ j ih =>
        intro hj
        have := ih (by omega)
        have h2 := (scaleN_antitone stepIntervalInit hinit (13 - (j + 1))).2
        have e : 13 - (j + 1) + 1 = 13 - j := by omega
        rw [e] at h2
        omega
    have := hmono (13 - n) (le_refl _)
    have e : 13 - (13 - n) = n := by omega
    rw [e] at this
    omega
  · intro n hn
    obtain ⟨j, rfl⟩ : ∃ j, n = 14 + j := ⟨n - 14, by omega⟩
    rw [scaleN_add, scaleN_init_values.2.2.2.2.2.2.2.2.2.2.2.2.2]
    exact scaleN_floor j

theorem ScaleInterval_down_converges_witness :
    Microsecond ≤ 1500000 ∧ ScaleInterval 1500000 (-1) = 750000 ∧
    ((1500000 : Int) ≠ Microsecond → ScaleInterval 1500000 (-1) < 1500000) :=
  ⟨by decide, by decide, (ScaleInterval_down_converges.1 1500000 (by decide)).2.2.1⟩

/-! ## ScaleInterval: the tiers -/

/-- The tiers of the rounding at the end of `ScaleInterval`, for a clamped
value `c` of at least one microsecond. -/
theorem tier_rounding (c : Int) (hc : 1000 ≤ c) :
    let w := if c ≥ Second then Truncate c Second
      else if c ≥ Millisecond then Truncate c Millisecond else Truncate c Microsecond
    1000 ≤ w ∧ w ≤ c ∧ (c ≥ 1000000000 → w = c - c % 1000000000) ∧
    (1000000 ≤ c → c < 1000000000 → w = c - c % 1000000) ∧
    (c < 1000000 → w = c - c % 1000) := by
  simp only [Microsecond, Millisecond, Second]
  by_cases h1 : c ≥ 1000000000
  · rw [if_pos h1, Truncate_pos c _ (by omega) (by decide)]
    refine ⟨by omega, by omega, fun _ => rfl, fun _ _ => by omega, fun _ => by omega⟩
  · rw [if_neg h1]
    by_cases h2 : c ≥ 1000000
    · rw [if_pos h2, Truncate_pos c _ (by omega) (by decide)]
      refine ⟨by omega, by omega, fun _ => by omega, fun _ _ => rfl, fun _ => by omega⟩
    · rw [if_neg h2, Truncate_pos c _ (by omega) (by decide)]
      refine ⟨by omega, by omega, fun _ => by omega, fun _ _ => by omega, fun _ => rfl⟩

/-- `ScaleInterval` as the tier rounding of the clamped value. -/
theorem ScaleInterval_eq (v delta : Int) :
    ScaleInterval v delta =
      (let c := if (if delta < 0 then v / 2 else wrap64 (v * 2)) < Microsecond then Microsecond
        else (if delta < 0 then v / 2 else wrap64 (v * 2))
      if c ≥ Second then Truncate c Second
      else if c ≥ Millisecond then Truncate c Millisecond else Truncate c Microsecond) := rfl

/-- C22: for every current interval and every delta, the interval left by
`ScaleInterval(delta)` is at least one microsecond, and it is a whole number
of seconds when it is at least one second, a whole number of milliseconds when
it is at least one millisecond and below one second, and a whole number of
microseconds otherwise. -/
theorem ScaleInterval_tiers (v delta : Int) :
    Microsecond ≤ ScaleInterval v delta ∧
    (Second ≤ ScaleInterval v delta → ScaleInterval v delta % Second = 0) ∧
    (Millisecond ≤ ScaleInterval v delta → ScaleInterval v delta < Second →
      ScaleInterval v delta % Millisecond = 0) ∧
    (ScaleInterval v delta < Millisecond → ScaleInterval v delta % Microsecond = 0) := by
  rw [ScaleInterval_eq]
  have hc : (1000 : Int) ≤ (if (if delta < 0 then v / 2 else wrap64 (v * 2)) < Microsecond
      then Microsecond else (if delta < 0 then v / 2 else wrap64 (v * 2))) := by
    simp only [Microsecond]
    split <;> omega
  generalize (if (if delta < 0 then v / 2 else wrap64 (v * 2)) < Microsecond
      then Microsecond else (if delta < 0 then v / 2 else wrap64 (v * 2))) = c at hc
  obtain ⟨h1, h2, h3, h4, h5⟩ := tier_rounding c hc
  simp only [] at h1 h2 h3 h4 h5 ⊢
  generalize (if c ≥ Second then Truncate c Second
      else if c ≥ Millisecond then Truncate c Millisecond else Truncate c Microsecond) = w
    at h1 h2 h3 h4 h5
  simp only [Microsecond, Millisecond, Second]
  by_cases a : c ≥ 1000000000
  · have := h3 a
    refine ⟨h1, ?_, ?_, ?_⟩ <;> intros <;> omega
  · by_cases b : 1000000 ≤ c
    · have := h4 b (by omega)
      refine ⟨h1, ?_, ?_, ?_⟩ <;> intros <;> omega
    · have := h5 (by omega)
      refine ⟨h1, ?_, ?_, ?_⟩ <;> intros <;> omega

theorem ScaleInterval_tiers_witness :
    ScaleInterval 1500000000 1 = 3000000000 ∧
    (Second ≤ ScaleInterval 1500000000 1 → ScaleInterval 1500000000 1 % Second = 0) :=
  ⟨by decide, (ScaleInterval_tiers 1500000000 1).2.1⟩

/-! ## ScaleInterval: doubling -/

/-- `ScaleInterval(+1)` below 2^62 ns: no wrap; the doubled value rounded down
within its tier, never below the old interval. -/
theorem ScaleInterval_up (v : Int) (hv : 1000 ≤ v) (hlt : v < 4611686018427387904) :
    ScaleInterval v 1 =
      (if 2 * v ≥ Second then Truncate (2 * v) Second
        else if 2 * v ≥ Millisecond then Truncate (2 * v) Millisecond
        else Truncate (2 * v) Microsecond) ∧
    v ≤ ScaleInterval v 1 := by
  have hw : wrap64 (v * 2) = 2 * v := by unfold wrap64; omega
  have e : ScaleInterval v 1 =
      (if 2 * v ≥ Second then Truncate (2 * v) Second
        else if 2 * v ≥ Millisecond then Truncate (2 * v) Millisecond
        else Truncate (2 * v) Microsecond) := by
    have hc : (if 2 * v < Microsecond then Microsecond else 2 * v) = 2 * v :=
      if_neg (by simp only [Microsecond]; omega)
    unfold ScaleInterval
    simp only [show ¬ ((1 : Int) < 0) from by decide, if_false, hw, hc]
  refine ⟨e, ?_⟩
  rw [e]
  simp only [Microsecond, Millisecond, Second]
  by_cases h1 : 2 * v ≥ 1000000000
  · rw [if_pos h1, Truncate_pos _ _ (by omega) (by decide)]
    omega
  · rw [if_neg h1]
    by_cases h2 : 2 * v ≥ 1000000
    · rw [if_pos h2, Truncate_pos _ _ (by omega) (by decide)]
      omega
    · rw [if_neg h2, Truncate_pos _ _ (by omega) (by decide)]
      omega

/-- `ScaleInterval(+1)` from 2^62 ns on: `v << 1` wraps to a negative value,
which the lower bound turns into one microsecond. -/
theorem ScaleInterval_up_wraps (v : Int) (hv : 4611686018427387904 ≤ v)
    (hi : v ≤ 9223372036854775807) : ScaleInterval v 1 = 1000 := by
  have hw : wrap64 (v * 2) = 2 * v - 18446744073709551616 := by unfold wrap64; omega
  have hc : (if 2 * v - 18446744073709551616 < Microsecond then Microsecond
      else 2 * v - 18446744073709551616) = Microsecond :=
    if_pos (by simp only [Microsecond]; omega)
  unfold ScaleInterval
  simp only [show ¬ ((1 : Int) < 0) from by decide, if_false, hw, hc]
  decide

/-- The interval after 38 calls of `ScaleInterval(+1)` from the initial 50 ms. -/
theorem scaleN_up_init : scaleN 1 38 stepIntervalInit = 8589934592000000000 := by
  have e0 : scaleN 1 0 stepIntervalInit = 50000000 := by decide
  have e1 : scaleN 1 1 stepIntervalInit = 100000000 := by
    rw [scaleN_succ_last, e0]; decide
  have e2 : scaleN 1 2 stepIntervalInit = 200000000 := by
    rw [scaleN_succ_last, e1]; decide
  have e3 : scaleN 1 3 stepIntervalInit = 400000000 := by
    rw [scaleN_succ_last, e2]; decide
  have e4 : scaleN 1 4 stepIntervalInit = 800000000 := by
    rw [scaleN_succ_last, e3]; decide
  have e5 : scaleN 1 5 stepIntervalInit = 1000000000 := by
    rw [scaleN_succ_last, e4]; decide
  have e6 : scaleN 1 6 stepIntervalInit = 2000000000 := by
    rw [scaleN_succ_last, e5]; decide
  have e7 : scaleN 1 7 stepIntervalInit = 4000000000 := by
    rw [scaleN_succ_last, e6]; decide
  have e8 : scaleN 1 8 stepIntervalInit = 8000000000 := by
    rw [scaleN_succ_last, e7]; decide
  have e9 : scaleN 1 9 stepIntervalInit = 16000000000 := by
    rw [scaleN_succ_last, e8]; decide
  have e10 : scaleN 1 10 stepIntervalInit = 32000000000 := by
    rw [scaleN_succ_last, e9]; decide
  have e11 : scaleN 1 11 stepIntervalInit = 64000000000 := by
    rw [scaleN_succ_last, e10]; decide
  have e12 : scaleN 1 12 stepIntervalInit = 128000000000 := by
    rw [scaleN_succ_last, e11]; decide
  have e13 : scaleN 1 13 stepIntervalInit = 256000000000 := by
    rw [scaleN_succ_last, e12]; decide
  have e14 : scaleN 1 14 stepIntervalInit = 512000000000 := by
    rw [scaleN_succ_last, e13]; decide
  have e15 : scaleN 1 15 stepIntervalInit = 1024000000000 := by
    rw [scaleN_succ_last, e14]; decide
  have e16 : scaleN 1 16 stepIntervalInit = 2048000000000 := by
    rw [scaleN_succ_last, e15]; decide
  have e17 : scaleN 1 17 stepIntervalInit = 4096000000000 := by
    rw [scaleN_succ_last, e16]; decide
  have e18 : scaleN 1 18 stepIntervalInit = 8192000000000 := by
    rw [scaleN_succ_last, e17]; decide
  have e19 : scaleN 1 19 stepIntervalInit = 16384000000000 := by
    rw [scaleN_succ_last, e18]; decide
  have e20 : scaleN 1 20 stepIntervalInit = 32768000000000 := by
    rw [scaleN_succ_last, e19]; decide
  have e21 : scaleN 1 21 stepIntervalInit = 65536000000000 := by
    rw [scaleN_succ_last, e20]; decide
  have e22 : scaleN 1 22 stepIntervalInit = 131072000000000 := by
    rw [scaleN_succ_last, e21]; decide
  have e23 : scaleN 1 23 stepIntervalInit = 262144000000000 := by
    rw [scaleN_succ_last, e22]; decide
  have e24 : scaleN 1 24 stepIntervalInit = 524288000000000 := by
    rw [scaleN_succ_last, e23]; decide
  have e25 : scaleN 1 25 stepIntervalInit = 1048576000000000 := by
    rw [scaleN_succ_last, e24]; decide
  have e26 : scaleN 1 26 stepIntervalInit = 2097152000000000 := by
    rw [scaleN_succ_last, e25]; decide
  have e27 : scaleN 1 27 stepIntervalInit = 4194304000000000 := by
    rw [scaleN_succ_last, e26]; decide
  have e28 : scaleN 1 28 stepIntervalInit = 8388608000000000 := by
    rw [scaleN_succ_last, e27]; decide
  have e29 : scaleN 1 29 stepIntervalInit = 16777216000000000 := by
    rw [scaleN_succ_last, e28]; decide
  have e30 : scaleN 1 30 stepIntervalInit = 33554432000000000 := by
    rw [scaleN_succ_last, e29]; decide
  have e31 : scaleN 1 31 stepIntervalInit = 67108864000000000 := by
    rw [scaleN_succ_last, e30]; decide
  have e32 : scaleN 1 32 stepIntervalInit = 134217728000000000 := by
    rw [scaleN_succ_last, e31]; decide
  have e33 : scaleN 1 33 stepIntervalInit = 268435456000000000 := by
    rw [scaleN_succ_last, e32]; decide
  have e34 : scaleN 1 34 stepIntervalInit = 536870912000000000 := by
    rw [scaleN_succ_last, e33]; decide
  have e35 : scaleN 1 35 stepIntervalInit = 1073741824000000000 := by
    rw [scaleN_succ_last, e34]; decide
  have e36 : scaleN 1 36 stepIntervalInit = 2147483648000000000 := by
    rw [scaleN_succ_last, e35]; decide
  have e37 : scaleN 1 37 stepIntervalInit = 4294967296000000000 := by
    rw [scaleN_succ_last, e36]; decide
  have e38 : scaleN 1 38 stepIntervalInit = 8589934592000000000 := by
    rw [scaleN_succ_last, e37]; decide
  exact e38

/-- C21: 38 calls of `ScaleInterval(+1)` from the initial 50 ms reach
8589934592000000000 ns; there, as for every `int64` interval from 2^62 ns on,
`ScaleInterval(+1)` sets the interval to one microsecond, which is neither the
doubled value rounded down to its tier nor at least the old interval. Below
2^62 ns the interval is set to the doubled value rounded down to its tier and
is never smaller than before. -/
theorem ScaleInterval_up_overflow :
    scaleN 1 38 stepIntervalInit = 8589934592000000000 ∧
    Microsecond ≤ 8589934592000000000 ∧ isInt64 8589934592000000000 ∧
    ScaleInterval 8589934592000000000 1 = Microsecond ∧
    ScaleInterval 8589934592000000000 1 < 8589934592000000000 ∧
    ScaleInterval 8589934592000000000 1 ≠ Truncate (2 * 8589934592000000000) Second ∧
    (∀ v : Int, 4611686018427387904 ≤ v → isInt64 v → ScaleInterval v 1 = Microsecond) ∧
    (∀ v : Int, Microsecond ≤ v → v < 4611686018427387904 →
      ScaleInterval v 1 =
        (if 2 * v ≥ Second then Truncate (2 * v) Second
          else if 2 * v ≥ Millisecond then Truncate (2 * v) Millisecond
          else Truncate (2 * v) Microsecond) ∧
      v ≤ ScaleInterval v 1) :=
  ⟨scaleN_up_init, by decide, by decide, by decide, by decide, by decide,
    fun v hv hi => ScaleInterval_up_wraps v hv hi.2,
    fun v hv hlt => ScaleInterval_up v hv hlt⟩

theorem ScaleInterval_up_overflow_witness :
    ScaleInterval 4611686018427387904 1 = Microsecond ∧
    ScaleInterval 700000000 1 = 1000000000 ∧ (700000000 : Int) ≤ ScaleInterval 700000000 1 :=
  ⟨ScaleInterval_up_overflow.2.2.2.2.2.2.1 4611686018427387904 (by decide) (by decide),
    by decide,
    (ScaleInterval_up_overflow.2.2.2.2.2.2.2 700000000 (by decide) (by decide)).2⟩

/-! ## The scheduled step -/

theorem timeSub_lt_iff (now t si : Int) (h : -9223372036854775808 < si)
    (hi : si ≤ 9223372036854775807) : timeSub now t < si ↔ now - t < si := by
  unfold timeSub
  split
  · omega
  · split <;> omega

theorem Step_skip (e : Engine) (now : Int)
    (h : e.running = false ∨ timeSub now e.stepTimer < e.stepInterval) :
    Step e false now = some e := by
  unfold Step
  rw [if_pos rfl]
  by_cases hr : e.running = false
  · rw [if_pos hr]
  · rw [if_neg hr]
    rcases h with h | h
    · exact absurd h hr
    · rw [if_pos h]

theorem Step_due (e : Engine) (now : Int) (hr : e.running = true)
    (h : ¬ timeSub now e.stepTimer < e.stepInterval) :
    Step e false now = e.data.Step.map (fun d => { e with stepTimer := now, data := d }) := by
  unfold Step
  rw [if_pos rfl, if_neg (by rw [hr]; decide), if_neg h]
  cases e.data.Step <;> rfl

theorem Step_forced (e : Engine) (now : Int) :
    Step e true now = e.data.Step.map (fun d => { e with data := d }) := by
  unfold Step
  rw [if_neg (by decide)]
  cases e.data.Step <;> rfl

/-- C23: with the clock reading `now` as a parameter, `Step(false)` returns
with the engine (cell store, scratch buffer, cache, both flags, step timer,
interval, running) unchanged when `running` is false or
`now.Sub(stepTimer) < stepInterval`; otherwise it runs `data.Step()` once, as
`Step(true)` does, and sets `stepTimer` to `now`. On engine data that
satisfies the engine invariant that step returns, with the same data as after
`Step(true)`: the store stepped once. For an interval above the smallest
`int64`, the test is `now - stepTimer < stepInterval`. -/
theorem Step_scheduled (e : Engine) (now : Int) :
    ((e.running = false ∨ timeSub now e.stepTimer < e.stepInterval) →
      Step e false now = some e) ∧
    (e.running = true → ¬ timeSub now e.stepTimer < e.stepInterval →
      Step e false now = e.data.Step.map (fun d => { e with stepTimer := now, data := d }) ∧
      Step e true now = e.data.Step.map (fun d => { e with data := d }) ∧
      (EngineOK e.data → ∃ d, e.data.Step = some d ∧
        d.cellData = stepCells e.data.cellData ∧
        Step e false now = some ⟨d, e.stepInterval, now, e.running⟩ ∧
        Step e true now = some ⟨d, e.stepInterval, e.stepTimer, e.running⟩)) ∧
    (isInt64 e.stepInterval → -9223372036854775808 < e.stepInterval →
      (timeSub now e.stepTimer < e.stepInterval ↔ now - e.stepTimer < e.stepInterval)) := by
  refine ⟨Step_skip e now, fun hr h => ⟨Step_due e now hr h, Step_forced e now, fun hok => ?_⟩,
    fun hi h => timeSub_lt_iff _ _ _ h hi.2⟩
  obtain ⟨d, hd, _, hc, _⟩ := EngineOK_Step e.data hok
  refine ⟨d, hd, hc, ?_, ?_⟩
  · rw [Step_due e now hr h, hd]; rfl
  · rw [Step_forced, hd]; rfl

theorem Step_scheduled_witness :
    Step ⟨sim.Set empty 0 0 2, 50, 100, true⟩ false 149 = some ⟨sim.Set empty 0 0 2, 50, 100, true⟩ ∧
    Step ⟨sim.Set empty 0 0 2, 50, 100, true⟩ false 150 =
      (sim.Set empty 0 0 2).Step.map
        (fun d => { (⟨sim.Set empty 0 0 2, 50, 100, true⟩ : Engine) with stepTimer := 150, data := d }) ∧
    (Step ⟨sim.Set empty 0 0 2, 50, 100, true⟩ false 150).map (fun e => (e.data.cellData, e.stepTimer)) =
      some ([0, 0, 3], 150) :=
  ⟨(Step_scheduled ⟨sim.Set empty 0 0 2, 50, 100, true⟩ 149).1 (Or.inr (by decide)),
    ((Step_scheduled ⟨sim.Set empty 0 0 2, 50, 100, true⟩ 150).2.1 rfl (by decide)).1,
    by decide⟩

/-- C24 (counterexample): a forced step at instant 5 from the initial engine,
whose step timer is 0, is executed and leaves the step timer at 0. -/
theorem Step_forced_timer_counterexample :
    (Step Engine.init true 5).map (fun e => e.stepTimer) = some 0 ∧
    (Step Engine.init true 5).map (fun e => e.data.cellsChanged) = some true ∧
    (0 : Int) ≠ 5 := by
  decide

/-- C24 (amended): a scheduled step that is executed (running, and the
interval has elapsed) sets the step timer to `now`; a forced step leaves the
step timer as it was. On engine data that satisfies the engine invariant both
are executed (they return). -/
theorem Step_timer (e : Engine) (now : Int) :
    (∀ e1, e.running = true → ¬ timeSub now e.stepTimer < e.stepInterval →
      Step e false now = some e1 → e1.stepTimer = now) ∧
    (∀ e1, Step e true now = some e1 → e1.stepTimer = e.stepTimer) ∧
    (EngineOK e.data →
      (∃ e1, Step e true now = some e1 ∧ e1.stepTimer = e.stepTimer) ∧
      (e.running = true → ¬ timeSub now e.stepTimer < e.stepInterval →
        ∃ e1, Step e false now = some e1 ∧ e1.stepTimer = now)) := by
  refine ⟨fun e1 hr h h1 => ?_, fun e1 h1 => ?_, fun hok => ?_⟩
  · rw [Step_due e now hr h] at h1
    cases hd : e.data.Step with
    | none => rw [hd] at h1; exact absurd h1 (by simp)
    | some d =>
      rw [hd] at h1
      rw [← Option.some.inj h1]
  · rw [Step_forced] at h1
    cases hd : e.data.Step with
    | none => rw [hd] at h1; exact absurd h1 (by simp)
    | some d =>
      rw [hd] at h1
      rw [← Option.some.inj h1]
  · obtain ⟨d, hd, _⟩ := EngineOK_Step e.data hok
    refine ⟨⟨⟨d, e.stepInterval, e.stepTimer, e.running⟩, ?_, rfl⟩,
      fun hr h => ⟨⟨d, e.stepInterval, now, e.running⟩, ?_, rfl⟩⟩
    · rw [Step_forced, hd]; rfl
    · rw [Step_due e now hr h, hd]; rfl

theorem Step_timer_witness :
    (∃ e1, Step ⟨sim.Set empty 0 0 2, 50, 100, true⟩ true 150 = some e1 ∧ e1.stepTimer = 100) ∧
    (∃ e1, Step ⟨sim.Set empty 0 0 2, 50, 100, true⟩ false 150 = some e1 ∧ e1.stepTimer = 150) :=
  ⟨((Step_timer ⟨sim.Set empty 0 0 2, 50, 100, true⟩ 150).2.2
      ⟨by decide, by decide, fun h => absurd h (by decide)⟩).1,
    ((Step_timer ⟨sim.Set empty 0 0 2, 50, 100, true⟩ 150).2.2
      ⟨by decide, by decide, fun h => absurd h (by decide)⟩).2 rfl (by decide)⟩

/-! ## The changed flag; Set on an existing cell -/

/-- Package-level `Set` on a cell that `IndexOf` finds, on a sorted store:
the state slot is written, the changed flag is assigned, nothing else moves. -/
theorem Set_found_eq (s : simulationData) (x y st : Int) (hs : Sorted s.cellData)
    (hf : CellList.IndexOf s.cellData x y > -1) :
    sim.Set s x y st =
      { s with
        cellsChanged := decide (s.cellData.getD (CellList.IndexOf s.cellData x y + 2).toNat 0 ≠ st)
        cellData := s.cellData.set (CellList.IndexOf s.cellData x y + 2).toNat st } := by
  have e : s.Set x y st =
      { s with
        cellsChanged := decide (s.cellData.getD (CellList.IndexOf s.cellData x y + 2).toNat 0 ≠ st)
        cellData := s.cellData.set (CellList.IndexOf s.cellData x y + 2).toNat st } := by
    unfold simulationData.Set
    simp only [hf, if_true]
  unfold sim.Set
  rw [e, simulationData.SortCells_of_sorted]
  obtain ⟨m, _, _, he, _⟩ := CellList.IndexOf_pos s.cellData x y hf
  simp only [he]
  exact Sorted_set_state _ _ _ hs

theorem set_getD_self (c : CellList) (k : Nat) : c.set k (c.getD k 0) = c := by
  by_cases h : k < c.length
  · apply List.ext_getElem
    · simp
    · intro n h1 h2
      rw [List.getElem_set]
      split
      · subst_vars; rw [List.getD_eq_getElem c 0 h]
      · rfl
  · exact List.set_eq_of_length_le (by omega)

/-- One operation that changes the cell buffer leaves the changed flag set. -/
theorem run_changed (s s1 : simulationData) (op : Op) (hok : EngineOK s)
    (hrun : op.run s = some s1) (hne : s1.cellData ≠ s.cellData) : s1.cellsChanged = true := by
  cases op with
  | set x y st =>
    have e : s1 = sim.Set s x y st := (Option.some.inj hrun).symm
    subst e
    by_cases hf : CellList.IndexOf s.cellData x y > -1
    · rw [Set_found_eq s x y st hok.2.1 hf] at hne ⊢
      simp only [decide_eq_true_eq]
      intro hq
      apply hne
      show s.cellData.set _ st = s.cellData
      rw [← hq]
      exact set_getD_self _ _
    · by_cases he : st = CellEmpty
      · rw [Set_cellData_noop s x y st hok.2.1 hf he] at hne
        exact absurd rfl hne
      · unfold sim.Set
        rw [simulationData.SortCells_changed]
        unfold simulationData.Set
        simp only [hf, if_false, he]
  | load x y v =>
    rw [← Option.some.inj hrun]
    unfold sim.Load
    rw [simulationData.SortCells_changed]
    rfl
  | unload v => rw [← Option.some.inj hrun]; rfl
  | trim => rw [← Option.some.inj hrun]; rfl
  | setList v =>
    have e : s1 = s.UpdateList v := (Option.some.inj hrun).symm
    subst e
    unfold simulationData.UpdateList at hne ⊢
    by_cases hv : v.length = 0
    · rw [if_pos hv] at hne
      exact absurd rfl hne
    · rw [if_neg hv]
  | step =>
    have h := Step_of_inv s hok.1 hok.2.2
    have e : s.Step = some s1 := hrun
    rw [h] at e
    rw [← Option.some.inj e]

/-- C25: after `CellsChanged()` on the empty engine, `Set(0, 0, Wire)` changes
the cell buffer from empty to `[0, 0, 1]` and sets the changed flag, and a
second `Set(0, 0, Wire)` assigns the flag the value "state differs", which is
false: the next `CellsChanged()` returns false although the buffer changed
since the last call. The call after a `CellsChanged()` returns false, and one
operation that changes the buffer always leaves the flag set. -/
theorem CellsChanged_missed :
    (CellsChanged empty).2 = empty ∧
    runOps [.set 0 0 1] (CellsChanged empty).2 = some (sim.Set empty 0 0 1) ∧
    (sim.Set empty 0 0 1).cellData = [0, 0, 1] ∧
    (sim.Set empty 0 0 1).cellData ≠ (CellsChanged empty).2.cellData ∧
    (sim.Set empty 0 0 1).cellsChanged = true ∧
    runOps [.set 0 0 1, .set 0 0 1] (CellsChanged empty).2 =
      some (sim.Set (sim.Set empty 0 0 1) 0 0 1) ∧
    (sim.Set (sim.Set empty 0 0 1) 0 0 1).cellData = [0, 0, 1] ∧
    (CellsChanged (sim.Set (sim.Set empty 0 0 1) 0 0 1)).1 = false ∧
    (∀ d : simulationData, (CellsChanged (CellsChanged d).2).1 = false) ∧
    (∀ (s s1 : simulationData) (op : Op), EngineOK s → op.run s = some s1 →
      s1.cellData ≠ s.cellData → (CellsChanged s1).1 = true) :=
  ⟨by decide, by decide, by decide, by decide, by decide, by decide, by decide, by decide,
    fun _ => rfl, fun s s1 op hok hrun hne => run_changed s s1 op hok hrun hne⟩

theorem CellsChanged_missed_witness :
    (sim.Set empty 3 4 1).cellData ≠ empty.cellData ∧
    (CellsChanged (sim.Set empty 3 4 1)).1 = true :=
  ⟨by decide, CellsChanged_missed.2.2.2.2.2.2.2.2.2 empty (sim.Set empty 3 4 1) (.set 3 4 1)
    EngineOK_empty rfl (by decide)⟩

/-- C26: on a sorted duplicate-free store with a cell at `(x, y)`,
package-level `Set(x, y, st)`, for any `st`, keeps every record in place and
writes `st` as the state of that cell only: the coordinates, their order, the
cell count, the states at all other coordinates, the scratch buffer, the
neighbour cache and the stale flag are as before, and the changed flag is
true exactly when the old state of the cell differs from `st`. -/
theorem Set_existing (s : simulationData) (x y st : Int) (h : StoreOK s.cellData)
    (hm : (x, y) ∈ CellList.coords s.cellData) :
    ∃ old, stateAt s.cellData x y = some old ∧
      CellList.records (sim.Set s x y st).cellData =
        putState (CellList.records s.cellData) x y st ∧
      stateAt (sim.Set s x y st).cellData x y = some st ∧
      (∀ a b, ¬ (a = x ∧ b = y) →
        stateAt (sim.Set s x y st).cellData a b = stateAt s.cellData a b) ∧
      CellList.coords (sim.Set s x y st).cellData = CellList.coords s.cellData ∧
      sim.CellCount (sim.Set s x y st) = sim.CellCount s ∧
      (sim.Set s x y st).cellData.length = s.cellData.length ∧
      (sim.Set s x y st).tempData = s.tempData ∧
      (sim.Set s x y st).neighbours = s.neighbours ∧
      (sim.Set s x y st).staleNeighbours = s.staleNeighbours ∧
      ((sim.Set s x y st).cellsChanged = true ↔ old ≠ st) := by
  obtain ⟨h3, hs, hd⟩ := h
  have hsome : (stateAt s.cellData x y).isSome = true := (stateAt_isSome_iff _ hs x y).mpr hm
  have hf : CellList.IndexOf s.cellData x y > -1 :=
    (stateAt_isSome_iff_IndexOf _ x y hs).mp hsome
  obtain ⟨m, hm1, hm2, hm3, _, _⟩ := CellList.IndexOf_pos s.cellData x y hf
  have hold := stateAt_of_found s.cellData x y m hm1 hm2
  have hst := Set_stateAt s x y st ⟨h3, hs, hd⟩
  have heq := Set_found_eq s x y st hs hf
  have hcd : (sim.Set s x y st).cellData =
      s.cellData.set (CellList.IndexOf s.cellData x y + 2).toNat st := by rw [heq]
  refine ⟨s.cellData.getD (m * 3 + 2) 0, hold, ?_, ?_, ?_, ?_, ?_, ?_, ?_, ?_, ?_, ?_⟩
  · rw [hcd]; exact records_set_found _ hd x y st hf
  · rw [hst.2 x y, if_pos ⟨rfl, rfl⟩, if_pos (Or.inl hsome)]
  · intro a b hab
    rw [hst.2 a b, if_neg hab]
  · rw [hcd, hm3]; exact CellList.coords_set_state _ _ _
  · unfold sim.CellCount simulationData.CellCount
    rw [hcd, List.length_set]
  · rw [hcd, List.length_set]
  · rw [heq]
  · rw [heq]
  · rw [heq]
  · rw [heq, hm3]
    simp only [decide_eq_true_eq]

theorem Set_existing_witness :
    StoreOK (sim.Load empty 0 0 [0, 0, 1, 1, 0, 2]).cellData ∧
    (sim.Set (sim.Load empty 0 0 [0, 0, 1, 1, 0, 2]) 1 0 0).cellData = [0, 0, 1, 1, 0, 0] ∧
    ∃ old, stateAt (sim.Load empty 0 0 [0, 0, 1, 1, 0, 2]).cellData 1 0 = some old ∧
      CellList.records (sim.Set (sim.Load empty 0 0 [0, 0, 1, 1, 0, 2]) 1 0 0).cellData =
        putState (CellList.records (sim.Load empty 0 0 [0, 0, 1, 1, 0, 2]).cellData) 1 0 0 :=
  ⟨by decide, by decide,
    (Set_existing (sim.Load empty 0 0 [0, 0, 1, 1, 0, 2]) 1 0 0 (by decide) (by decide)).imp
      (fun _ h => ⟨h.1, h.2.1⟩)⟩

/-! ## Index ranges in Step; Load then Unload on fresh coordinates -/

/-- The cache `Step` works with, after the recomputation when the cache is
marked stale: the eight lookups of every cell on the current store. -/
theorem Step_cache_eq (s : simulationData) (hl : LenOK s)
    (hc : s.staleNeighbours = false → CacheOK s) :
    (if s.staleNeighbours = true then
        simulationData.computeNeighbours.loop s.cellData s.cellData s.neighbours
      else some s.neighbours) = some (freshCache s.cellData) := by
  obtain ⟨h3, ht, hn⟩ := hl
  unfold simulationData.CellCount at hn
  have hrl := CellList.length_records s.cellData
  by_cases hst : s.staleNeighbours = true
  · rw [if_pos hst, computeNeighbours_loop_eq _ _ _ (by omega)]
    rw [List.drop_of_length_le (by omega), List.append_nil]
    rfl
  · rw [if_neg hst]
    have := hc (by simpa using hst)
    unfold CacheOK at this
    rw [this]

/-- Every entry of a recomputed cache is `-1` or the offset of a complete
record of the store. -/
theorem freshCache_range (c : CellList) (j : Int) (h : j ∈ freshCache c) :
    j = -1 ∨ (0 ≤ j ∧ j + 2 < c.length) := by
  unfold freshCache at h
  rw [List.mem_flatMap] at h
  obtain ⟨p, _, hp⟩ := h
  rw [neighbourIndices_eq_map, List.mem_map] at hp
  obtain ⟨q, _, hq⟩ := hp
  rcases CellList.IndexOf_cases c q.1 q.2 with h1 | ⟨m, h1, h2, _⟩
  · left; rw [← hq, h1]
  · right
    rw [← hq, h1]
    have : m * 3 + 2 < c.length := by omega
    omega

/-- C28: in every state reachable from the empty engine by `Set`, `Load`,
`Unload`, `Trim`, `SetList` and `Step`, `Step` runs to its end (no index out
of range): the scratch buffer has the length of the store, the cache has
eight entries per cell, and every entry of the cache that `Step` reads (the
stored one, recomputed first when marked stale) is `-1` or an offset `j` with
`0 <= j` and `j + 2 < len(cellData)`. -/
theorem Step_in_range (s : simulationData) (h : ReachableBy Op.any s) :
    (∃ s1, s.Step = some s1) ∧
    s.cellData.length ≤ s.tempData.length ∧
    8 * s.CellCount ≤ s.neighbours.length ∧
    ∃ cn,
      (if s.staleNeighbours = true then
          simulationData.computeNeighbours.loop s.cellData s.cellData s.neighbours
        else some s.neighbours) = some cn ∧
      cn.length = 8 * s.CellCount ∧
      (s.staleNeighbours = false → cn = s.neighbours) ∧
      ∀ j ∈ cn, j = -1 ∨ (0 ≤ j ∧ j + 2 < s.cellData.length) := by
  have hok := EngineOK_of_reachable _ s h
  obtain ⟨hl, _, hc⟩ := hok
  refine ⟨⟨_, Step_of_inv s hl hc⟩, le_of_eq hl.2.1.symm, le_of_eq hl.2.2.symm,
    freshCache s.cellData, Step_cache_eq s hl hc, ?_, fun hst => ?_,
    fun j hj => freshCache_range _ j hj⟩
  · rw [freshCache_length, CellList.length_records]
    rfl
  · exact (hc hst).symm

theorem Step_in_range_witness :
    (sim.Set (sim.Set empty 0 0 1) 1 0 2).neighbours = [0, 0, 0, 0, 0, 0, 0, 0, 0, 0, 0, 0, 0, 0, 0, 0] ∧
    simulationData.computeNeighbours.loop (sim.Set (sim.Set empty 0 0 1) 1 0 2).cellData
      (sim.Set (sim.Set empty 0 0 1) 1 0 2).cellData (sim.Set (sim.Set empty 0 0 1) 1 0 2).neighbours =
      some [-1, -1, -1, 3, -1, -1, -1, -1, -1, -1, 0, -1, -1, -1, -1, -1] ∧
    ∃ s1, (sim.Set (sim.Set empty 0 0 1) 1 0 2).Step = some s1 :=
  ⟨by decide, by decide,
    (Step_in_range (sim.Set (sim.Set empty 0 0 1) 1 0 2)
      (ReachableBy.next (Op.set 1 0 2)
        (ReachableBy.next (Op.set 0 0 1) ReachableBy.init trivial rfl) trivial rfl)).1⟩

/-- C29: on a sorted duplicate-free store `S` without Empty records, `Load`
of a patch `P` with pairwise distinct coordinates, none of which is in `S`
after offsetting, followed by `Unload` of a list `U` that names the offset
coordinates of `P`, leaves the store equal to `S`. -/
theorem Load_Unload_restores (s : simulationData) (x y : Int) (P U : CellList)
    (hs : StoreOK s.cellData) (hne : ∀ r ∈ CellList.records s.cellData, r.2.2 ≠ CellEmpty)
    (hP : NoDup P) (h32 : ∀ v ∈ P, isInt32 v)
    (hfresh : ∀ k ∈ keys (offsetRecs x y P), k ∉ CellList.coords s.cellData)
    (hU : CellList.coords U = keys (offsetRecs x y P)) :
    (sim.Unload (sim.Load s x y P) U).cellData = s.cellData := by
  obtain ⟨hrec, h3⟩ := Load_Unload_records s x y P U hs hP h32 hU
  have hall : (CellList.records s.cellData).filter
      (fun r => decide (r.2.2 ≠ CellEmpty ∧ (r.1, r.2.1) ∉ keys (offsetRecs x y P))) =
      CellList.records s.cellData := by
    rw [List.filter_eq_self]
    intro r hr
    simp only [decide_eq_true_eq]
    refine ⟨hne r hr, fun hk => hfresh _ hk ?_⟩
    unfold CellList.coords
    exact List.mem_map_of_mem _ hr
  rw [hall] at hrec
  rw [← CellList.ofRecords_records _ h3, hrec, CellList.ofRecords_records _ hs.1]

theorem Load_Unload_restores_witness :
    (sim.Load empty 0 0 [0, 0, 1, 5, 5, 2]).cellData = [0, 0, 1, 5, 5, 2] ∧
    (sim.Load (sim.Load empty 0 0 [0, 0, 1, 5, 5, 2]) 2 2 [0, 1, 3, 1, 1, 1]).cellData =
      [0, 0, 1, 2, 3, 3, 3, 3, 1, 5, 5, 2] ∧
    (sim.Unload (sim.Load (sim.Load empty 0 0 [0, 0, 1, 5, 5, 2]) 2 2 [0, 1, 3, 1, 1, 1])
      [2, 3, 0, 3, 3, 0]).cellData = (sim.Load empty 0 0 [0, 0, 1, 5, 5, 2]).cellData :=
  ⟨by decide, by decide,
    Load_Unload_restores (sim.Load empty 0 0 [0, 0, 1, 5, 5, 2]) 2 2 [0, 1, 3, 1, 1, 1]
      [2, 3, 0, 3, 3, 0] (by decide) (by decide) (by decide) (by decide) (by decide) (by decide)⟩

/-! ## Pow2 -/

end sim

namespace util

/-- The top `w` bits of `y`, counted down from bit `h`, are set, and `y` has
no bit above `h`. -/
theorem smear_step (h w a y : Nat) (ha : a ≤ w) (hlt : y < 2 ^ (h + 1))
    (hy : ∀ i, h + 1 ≤ i + w → i ≤ h → y.testBit i = true) :
    (y ||| (y >>> a)) < 2 ^ (h + 1) ∧
    ∀ i, h + 1 ≤ i + (w + a) → i ≤ h → (y ||| (y >>> a)).testBit i = true := by
  constructor
  · apply Nat.or_lt_two_pow hlt
    rw [Nat.shiftRight_eq_div_pow]
    exact lt_of_le_of_lt (Nat.div_le_self y (2 ^ a)) hlt
  · intro i h1 h2
    rw [Nat.testBit_or, Nat.testBit_shiftRight]
    by_cases hc : h + 1 ≤ i + w
    · rw [hy i hc h2]; rfl
    · rw [hy (a + i) (by omega) (by omega)]
      exact Bool.or_true _

/-- The smearing fills every bit below the top bit of a 32-bit value. -/
theorem smear_eq (x h : Nat) (h1 : 2 ^ h ≤ x) (h2 : x < 2 ^ (h + 1)) (h32 : h < 32) :
    Pow2.smear x = 2 ^ (h + 1) - 1 := by
  have htop : x.testBit h = true := by
    obtain ⟨i, hi, ht⟩ := Nat.ge_two_pow_implies_high_bit_true h1
    have hge := Nat.testBit_implies_ge ht
    have : i < h + 1 := by
      by_contra hc
      have : 2 ^ (h + 1) ≤ 2 ^ i := Nat.pow_le_pow_right (by decide) (by omega)
      omega
    have e : i = h := by omega
    rw [← e]; exact ht
  have p0 : ∀ i, h + 1 ≤ i + 1 → i ≤ h → x.testBit i = true := by
    intro i hi1 hi2
    have e : i = h := by omega
    rw [e]; exact htop
  obtain ⟨l1, p1⟩ := smear_step h 1 1 x (by omega) h2 p0
  obtain ⟨l2, p2⟩ := smear_step h 2 2 _ (by omega) l1 p1
  obtain ⟨l3, p3⟩ := smear_step h 4 4 _ (by omega) l2 p2
  obtain ⟨l4, p4⟩ := smear_step h 8 8 _ (by omega) l3 p3
  obtain ⟨l5, p5⟩ := smear_step h 16 16 _ (by omega) l4 p4
  have hl : Pow2.smear x < 2 ^ (h + 1) := l5
  have hp : ∀ i, i ≤ h → (Pow2.smear x).testBit i = true := fun i hi => p5 i (by omega) hi
  apply Nat.eq_of_testBit_eq
  intro i
  rw [Nat.testBit_two_pow_sub_one]
  by_cases hi : i < h + 1
  · rw [hp i (by omega)]
    simp [hi]
  · rw [Nat.testBit_lt_two_pow
      (lt_of_lt_of_le hl (Nat.pow_le_pow_right (by decide) (by omega)))]
    simp [hi]

/-- `Pow2` on the natural number `m + 1`, for `m` below 2^31: the power of two
just above the top bit of `m`. -/
theorem Pow2_succ (m : Nat) (hm : m < 2147483648) :
    ∃ k : Nat, Pow2 ((m : Int) + 1) = ((2 ^ k : Nat) : Int) ∧ m + 1 ≤ 2 ^ k ∧
      2 ^ k < 2 * (m + 1) ∧ ∀ j : Nat, m + 1 ≤ 2 ^ j → 2 ^ k ≤ 2 ^ j := by
  have hx : (((m : Int) + 1 - 1) % 4294967296).toNat = m := by omega
  have e : Pow2 ((m : Int) + 1) = (((Pow2.smear m + 1) % 4294967296 : Nat) : Int) := by
    unfold Pow2
    simp only [hx]
  by_cases h0 : m = 0
  · subst h0
    refine ⟨0, by decide, by decide, by decide, fun j _ => Nat.one_le_two_pow⟩
  · have h1 := Nat.log2_self_le h0
    have h2 : m < 2 ^ (m.log2 + 1) := Nat.lt_log2_self
    have h3 : m.log2 < 31 := (Nat.log2_lt h0).mpr (by simpa using hm)
    have hs := smear_eq m m.log2 h1 h2 (by omega)
    have hpos : 0 < 2 ^ (m.log2 + 1) := Nat.pow_pos (by decide)
    have hle : 2 ^ (m.log2 + 1) ≤ 2 ^ 31 := Nat.pow_le_pow_right (by decide) (by omega)
    have h31 : (2 : Nat) ^ 31 = 2147483648 := by decide
    have hsucc : 2 ^ (m.log2 + 1) = 2 * 2 ^ m.log2 := by rw [Nat.pow_succ]; omega
    refine ⟨m.log2 + 1, ?_, by omega, by omega, fun j hj => ?_⟩
    · rw [e, hs]
      congr 1
      omega
    · apply Nat.pow_le_pow_right (by decide)
      by_contra hc
      have : 2 ^ j ≤ 2 ^ m.log2 := Nat.pow_le_pow_right (by decide) (by omega)
      omega

end util

namespace sim

/-- C27: for `1 <= n <= 2^31`, `util.Pow2(n)` is a power of two `p` with
`n <= p < 2 * n`; no power of two that is at least `n` is below it; and it is
`n` itself when `n` is a power of two. -/
theorem Pow2_spec (n : Int) (h1 : 1 ≤ n) (h2 : n ≤ 2147483648) :
    ∃ k : Nat, util.Pow2 n = 2 ^ k ∧ n ≤ util.Pow2 n ∧ util.Pow2 n < 2 * n ∧
      (∀ j : Nat, n ≤ 2 ^ j → util.Pow2 n ≤ 2 ^ j) ∧
      ((∃ j : Nat, n = 2 ^ j) → util.Pow2 n = n) := by
  obtain ⟨m, rfl⟩ : ∃ m : Nat, n = (m : Int) + 1 := ⟨(n - 1).toNat, by omega⟩
  obtain ⟨k, hk, ha, hb, hc⟩ := util.Pow2_succ m (by omega)
  have hmin : ∀ j : Nat, (m : Int) + 1 ≤ 2 ^ j → util.Pow2 ((m : Int) + 1) ≤ 2 ^ j := by
    intro j hj
    rw [hk]
    have : m + 1 ≤ 2 ^ j := by exact_mod_cast hj
    exact_mod_cast hc j this
  have hle : (m : Int) + 1 ≤ util.Pow2 ((m : Int) + 1) := by
    rw [hk]; exact_mod_cast ha
  refine ⟨k, by rw [hk]; push_cast; rfl, hle, ?_, hmin, ?_⟩
  · rw [hk]; exact_mod_cast hb
  · rintro ⟨j, hj⟩
    have := hmin j (le_of_eq hj)
    rw [← hj] at this
    exact le_antisymm this hle

theorem Pow2_spec_witness :
    util.Pow2 5 = 8 ∧ util.Pow2 2147483648 = 2147483648 ∧
    ∃ k : Nat, util.Pow2 1000 = 2 ^ k ∧ (1000 : Int) ≤ util.Pow2 1000 ∧
      util.Pow2 1000 < 2 * 1000 :=
  ⟨by decide, by decide,
    (Pow2_spec 1000 (by decide) (by decide)).imp (fun _ h => ⟨h.1, h.2.1, h.2.2.1⟩)⟩

/-! ## The cell selector -/

/-- C30: with the selection `[5,5,1]`, the store `[0,0,1, 1,1,1, 5,5,1]` and
the rectangle from (0,0) to (5,5), both sorted and duplicate-free,
`MouseButton` in add-selection mode appends (0,0) and (1,1), after which the
selection is no longer sorted and the binary search of `Contains` misses
(5,5): the cell is appended again and the final selection holds two records
at (5,5). -/
theorem MouseButton_add_duplicate :
    StoreOK [5, 5, 1] ∧ StoreOK [0, 0, 1, 1, 1, 1, 5, 5, 1] ∧
    CellSelector.cellsInArea [0, 0, 1, 1, 1, 1, 5, 5, 1] ⟨0, 0, 5, 5⟩ =
      [0, 0, 1, 1, 1, 1, 5, 5, 1] ∧
    CellSelector.MouseButton.addLoop [5, 5, 1] [0, 0, 1, 1, 1, 1] = [5, 5, 1, 0, 0, 1, 1, 1, 1] ∧
    ¬ Sorted [5, 5, 1, 0, 0, 1, 1, 1, 1] ∧
    CellList.Contains [5, 5, 1, 0, 0, 1, 1, 1, 1] 5 5 = false ∧
    (CellSelector.MouseButton ⟨[5, 5, 1], true, false⟩ [0, 0, 1, 1, 1, 1, 5, 5, 1]
      ⟨0, 0, 5, 5⟩).selection = [5, 5, 1, 0, 0, 1, 1, 1, 1, 5, 5, 1] ∧
    ¬ NoDup (CellSelector.MouseButton ⟨[5, 5, 1], true, false⟩ [0, 0, 1, 1, 1, 1, 5, 5, 1]
      ⟨0, 0, 5, 5⟩).selection := by
  decide

end sim
